import Mathlib

/-!
# Verification development for the VPS account manager (`vps_manager.go`)

The orchestration core of the program is embedded here: the account registry
(`VPSManager.Users`), the provisioning saga `AddUser`, the teardown `RemoveUser`,
the expiry sweep `CheckExpiredUsers`, and the persistence pair
`saveToFile` / `loadFromFile`.

Modelling choices.

* A Go `string` is a sequence of bytes (`GoString`); string literals of the source
  are written with `str`, which produces their UTF-8 bytes.
* The eight backend managers run shell commands and write files; each of their
  methods is an external effect whose error result is read from an environment
  `Env`.  The environment may answer differently depending on everything that
  happened before, so every pattern of backend success and failure is covered.
  Password hashing, the file system and the local time zone are read from the
  environment in the same way.
* Every external effect performed is appended to `VPSManager.trace`, a ghost field
  that lets the theorems speak about which calls were made and in which order.
* `time.Time` is an instant in nanoseconds together with the zone offset it is read
  with; `time.Now()` is a parameter of the operation that reads the clock, and its
  location `time.Local` is part of the environment.  The calendar, the 64-bit
  arithmetic of `AddDate` and the RFC 3339 text of `MarshalJSON` and `UnmarshalJSON`
  are written out.
* `json.MarshalIndent` and `json.Unmarshal` are written out for the one type they are
  applied to, `[]User`: string escaping and UTF-8 coercion, the four-space layout, and
  a decoder that skips white space, takes members in any order and decodes into the
  elements the slice already holds.  A nil slice and an empty slice are both the empty
  list.
-/

namespace Vps

/-! ## Strings -/

/-- A Go string: a sequence of bytes, each below 256. -/
abbrev GoString := List Nat

/-- The bytes `utf8.EncodeRune` writes for a rune; surrogates and values above
`0x10FFFF` are written as the replacement rune `U+FFFD`. -/
def EncodeRune (r : Nat) : List Nat :=
  if r ≤ 0x7F then [r]
  else if r ≤ 0x7FF then [0xC0 + r / 64, 0x80 + r % 64]
  else if 0x10FFFF < r ∨ (0xD800 ≤ r ∧ r ≤ 0xDFFF) then [0xEF, 0xBF, 0xBD]
  else if r ≤ 0xFFFF then [0xE0 + r / 4096, 0x80 + r / 64 % 64, 0x80 + r % 64]
  else [0xF0 + r / 262144, 0x80 + r / 4096 % 64, 0x80 + r / 64 % 64, 0x80 + r % 64]

/-- The UTF-8 bytes of a list of runes. -/
def encodeRunes : List Nat → GoString
  | [] => []
  | r :: rs => EncodeRune r ++ encodeRunes rs

/-- A source-code string literal as a Go string. -/
def str (s : String) : GoString :=
  encodeRunes (s.toList.map Char.toNat)

/-! ## Time

`time.Time`, `time.Location`, `Time.After`, `Time.AddDate`, `Time.MarshalJSON` and
`Time.UnmarshalJSON` of the standard library, for the calls the program makes.  An `int`
of Go is 64 bits wide; the sums that can leave that range are wrapped with `wrap64`. -/

/-- A `time.Time`: the instant, in nanoseconds since the Unix epoch, and the offset east
of UTC, in seconds, that the location of the time has at that instant.  Go keeps a
pointer to the location; comparison reads the instant only, and the JSON text reads the
instant and the offset at it.  The seconds since 1 January of year 1 are held in 64 bits. -/
structure Time where
  nanos : Int
  offset : Int
  deriving DecidableEq, Repr

/-- `t.unixSec()`: the seconds since the Unix epoch. -/
def Time.unixSec (t : Time) : Int :=
  t.nanos / 1000000000

/-- `t.nsec()`: the nanoseconds within the second, from 0 to 999999999. -/
def Time.nsec (t : Time) : Int :=
  t.nanos % 1000000000

/-- Nanoseconds in 24 hours. -/
def nanosPerDay : Int := 86400 * 1000000000

/-- `t.After(u)`: the instant `t` is strictly later than `u`. -/
def Time.After (t u : Time) : Bool :=
  decide (u.nanos < t.nanos)

/-- An entry of `Location.tx`: from the instant `when` (Unix seconds) on, the zone in
force has the offset `offset`. -/
structure zoneTrans where
  when : Int
  offset : Int
  deriving DecidableEq, Repr

/-- A `time.Location`: the offset in force before the first transition, and the
transitions by increasing instant.  Zone names and the rule for instants after the last
transition of a zone file are left out. -/
structure Location where
  first : Int
  tx : List zoneTrans
  deriving DecidableEq, Repr

/-- What `Location.lookup` returns: the offset in force and the instants between which
it is in force, `start` included and `stop` excluded. -/
structure zonePeriod where
  offset : Int
  start : Int
  stop : Int
  deriving DecidableEq, Repr

/-- The start of time for `lookup`, `alpha = -1 << 63`. -/
def alpha : Int := -9223372036854775808

/-- The close of time for `lookup`, `omega = 1<<63 - 1`. -/
def omega : Int := 9223372036854775807

/-- The search of `Location.lookup` through the transitions: the zone of the last
transition that is not after `sec`. -/
def lookupFrom (offset start : Int) : List zoneTrans → Int → zonePeriod
  | [], _ => ⟨offset, start, omega⟩
  | t :: rest, sec =>
    if sec < t.when then ⟨offset, start, t.when⟩ else lookupFrom t.offset t.when rest sec

/-- `l.lookup(sec)`: the zone in force at the instant `sec`. -/
def Location.lookup (l : Location) (sec : Int) : zonePeriod :=
  lookupFrom l.first alpha l.tx sec

/-- The location `time.UTC`. -/
def UTC : Location := { first := 0, tx := [] }

/-- The constant `unixToInternal`: the seconds from 1 January of year 1 to the Unix
epoch. -/
def unixToInternal : Int := 62135596800

/-- A sum of 64-bit integers as Go computes it: wrapped into the range of `int64`. -/
def wrap64 (x : Int) : Int :=
  (x + 9223372036854775808) % 18446744073709551616 - 9223372036854775808

/-- `isLeap(year)`. -/
def isLeap (year : Int) : Bool :=
  decide (year % 4 = 0 ∧ (year % 100 ≠ 0 ∨ year % 400 = 0))

/-- The table `daysBefore`: the days of a non-leap year before the end of month `m`. -/
def daysBefore (m : Int) : Int :=
  if m ≤ 0 then 0 else if m = 1 then 31 else if m = 2 then 59 else if m = 3 then 90
  else if m = 4 then 120 else if m = 5 then 151 else if m = 6 then 181 else if m = 7 then 212
  else if m = 8 then 243 else if m = 9 then 273 else if m = 10 then 304 else if m = 11 then 334
  else 365

/-- `daysIn(m, year)`: the length of a month. -/
def daysIn (m year : Int) : Int :=
  if m = 2 ∧ isLeap year then 29 else daysBefore m - daysBefore (m - 1)

/-- `daysSinceEpoch(year)`: the days from 1 January of year 1 to 1 January of `year`,
by cycles of 400, 100, 4 and 1 years.  Go counts from a year that is 1 modulo 400 and
far enough back for the count to be unsigned; the days here are counted from year 1 and
divisions round down. -/
def daysSinceEpoch (year : Int) : Int :=
  let y := year - 1
  let n400 := y / 400
  let y := y - 400 * n400
  let n100 := y / 100
  let y := y - 100 * n100
  let n4 := y / 4
  let y := y - 4 * n4
  146097 * n400 + 36524 * n100 + 1461 * n4 + 365 * y

/-- The first half of `absDate`: the year and the day of the year (from 0) of a day
counted from 1 January of year 1.  `n - n / 4` is `n -= n >> 2`, which cuts the last
day of a cycle back into the cycle. -/
def yearDay (d : Int) : Int × Int :=
  let n400 := d / 146097
  let d := d - 146097 * n400
  let n100 := d / 36524
  let n100 := n100 - n100 / 4
  let d := d - 36524 * n100
  let n4 := d / 1461
  let d := d - 1461 * n4
  let n1 := d / 365
  let n1 := n1 - n1 / 4
  let d := d - 365 * n1
  (400 * n400 + 100 * n100 + 4 * n4 + n1 + 1, d)

/-- The second half of `absDate`: the month and the day of the month of a day of the
year. -/
def monthDay (year yday : Int) : Int × Int :=
  if isLeap year ∧ yday = 59 then (2, 29)
  else
    let day := if isLeap year ∧ yday > 59 then yday - 1 else yday
    let month := day / 31
    if day ≥ daysBefore (month + 1) then (month + 2, day - daysBefore (month + 1) + 1)
    else (month + 1, day - daysBefore month + 1)

/-- `absDate`: year, month and day of a day counted from 1 January of year 1. -/
def absDate (days : Int) : Int × Int × Int :=
  let year := (yearDay days).1
  let yday := (yearDay days).2
  (year, (monthDay year yday).1, (monthDay year yday).2)

/-- The day count inside `Date(year, month, day, ...)`, from 1 January of year 1, for a
month from 1 to 12.  The day is added as it is, so a day past the end of the month runs
into the following months. -/
def dateToDays (year month day : Int) : Int :=
  daysSinceEpoch year + daysBefore (month - 1)
    + (if isLeap year ∧ month ≥ 3 then 1 else 0) + (day - 1)

/-- The zone adjustment at the end of `Date(..., loc)`: the offset taken off the clock
reading `unix`, which was computed as if the clock showed UTC.  The zone found at
`unix` is kept when the adjusted instant lies in it, and the zone at the adjusted instant
is taken otherwise. -/
def Location.dateOffset (l : Location) (unix : Int) : Int :=
  let zone := l.lookup unix
  if zone.offset ≠ 0 then
    let utc := wrap64 (unix - zone.offset)
    if utc < zone.start ∨ utc ≥ zone.stop then (l.lookup utc).offset else zone.offset
  else 0

/-- `t.abs()` for a time of location `l`: the reading of the clock of `l` at `t`, in
seconds since 1 January of year 1. -/
def Location.abs (l : Location) (t : Time) : Int :=
  t.unixSec + (l.lookup t.unixSec).offset + unixToInternal

/-- `t.AddDate(0, 0, days)` for a time `t` of location `loc`, that is
`Date(year, month, day+days, hour, min, sec, nsec, loc)` for the date and clock of `t`:
the same reading of the clock of `loc`, `days` days later in the calendar.  The three
places where 64-bit sums can overflow are wrapped. -/
def Time.AddDate (loc : Location) (t : Time) (days : Int) : Time :=
  let abs := loc.abs t
  let date := absDate (abs / 86400)
  let clock := abs % 86400
  let d := dateToDays date.1 date.2.1 (date.2.2 + days)
  let unix := wrap64 (d * 86400 + clock - unixToInternal)
  let unix := wrap64 (unix - loc.dateOffset unix)
  let sec := wrap64 (unix + unixToInternal) - unixToInternal
  { nanos := sec * 1000000000 + t.nsec, offset := (loc.lookup unix).offset }

/-- A decimal digit, `'0' <= c && c <= '9'`. -/
def isDigit (c : Nat) : Bool :=
  decide (0x30 ≤ c ∧ c ≤ 0x39)

/-- The character of a digit from 0 to 9. -/
def digitByte (n : Int) : Nat :=
  0x30 + n.toNat

/-- `appendInt(b, x, 2)` for `x` from 0 to 99. -/
def appendInt2 (x : Int) : List Nat :=
  [digitByte (x / 10), digitByte (x % 10)]

/-- `appendInt(b, x, 4)` for `x` from 0 to 9999. -/
def appendInt4 (x : Int) : List Nat :=
  [digitByte (x / 1000), digitByte (x / 100 % 10), digitByte (x / 10 % 10), digitByte (x % 10)]

/-- `appendInt(b, x, 9)` for `x` from 0 to 999999999. -/
def appendInt9 (x : Int) : List Nat :=
  [digitByte (x / 100000000), digitByte (x / 10000000 % 10), digitByte (x / 1000000 % 10),
    digitByte (x / 100000 % 10), digitByte (x / 10000 % 10), digitByte (x / 1000 % 10),
    digitByte (x / 100 % 10), digitByte (x / 10 % 10), digitByte (x % 10)]

/-- The loop of `appendNano` that cuts the zeros at the end of the digits. -/
def trimZeros : List Nat → List Nat
  | [] => []
  | c :: rest =>
    match trimZeros rest with
    | [] => if c = 0x30 then [] else [c]
    | kept => c :: kept

/-- `appendNano` for the layout `.999999999`: nothing for a whole second, otherwise a
point and the nine digits without the zeros at the end. -/
def appendNano (nanosec : Int) : List Nat :=
  if nanosec = 0 then [] else 0x2E :: trimZeros (appendInt9 nanosec)

/-- The zone at the end of `appendFormatRFC3339`: `Z` for the offset 0, otherwise a sign,
hours, a colon and minutes.  The division of Go rounds toward zero, and the seconds of
the offset are not written. -/
def appendZone (offset : Int) : List Nat :=
  if offset = 0 then [0x5A]
  else
    let zone := if 0 ≤ offset then offset / 60 else -(-offset / 60)
    if zone < 0 then [0x2D] ++ appendInt2 (-zone / 60) ++ [0x3A] ++ appendInt2 (-zone % 60)
    else [0x2B] ++ appendInt2 (zone / 60) ++ [0x3A] ++ appendInt2 (zone % 60)

/-- `t.appendFormatRFC3339(b, true)` for a year from 0 to 9999: date and clock as the
location of `t` shows them, the fraction of the second, the zone. -/
def Time.appendFormatRFC3339 (t : Time) : List Nat :=
  let abs := t.unixSec + t.offset + unixToInternal
  let date := absDate (abs / 86400)
  let clock := abs % 86400
  appendInt4 date.1 ++ [0x2D] ++ appendInt2 date.2.1 ++ [0x2D] ++ appendInt2 date.2.2 ++ [0x54]
    ++ appendInt2 (clock / 3600) ++ [0x3A] ++ appendInt2 (clock % 3600 / 60) ++ [0x3A]
    ++ appendInt2 (clock % 60) ++ appendNano t.nsec ++ appendZone t.offset

/-- `t.MarshalJSON()`: the quoted RFC 3339 text, or the error of `appendStrictRFC3339`
for a year that is not written with four digits or a zone of 24 hours or more. -/
def Time.MarshalJSON (t : Time) : Except String (List Nat) :=
  let year := (absDate ((t.unixSec + t.offset + unixToInternal) / 86400)).1
  let zone := if 0 ≤ t.offset then t.offset / 60 else -t.offset / 60
  if year < 0 ∨ 9999 < year then .error "Time.MarshalJSON: year outside of range [0,9999]"
  else if t.offset ≠ 0 ∧ 24 ≤ zone / 60 then
    .error "Time.MarshalJSON: timezone hour outside of range [0,23]"
  else .ok ([0x22] ++ t.appendFormatRFC3339 ++ [0x22])

/-- The number written by decimal digits, as the loop of `parseUint` adds it up. -/
def atoi (s : List Nat) : Int :=
  s.foldl (fun (x : Int) (c : Nat) => x * 10 + ((c : Int) - 0x30)) 0

/-- The closure `parseUint` of `parseRFC3339`: the number written by `s` when `s` is all
digits and the number lies between `min` and `max`. -/
def parseUint (s : List Nat) (min max : Int) : Option Int :=
  if s.all isDigit then
    if atoi s < min ∨ max < atoi s then none else some (atoi s)
  else none

/-- `parseNanoseconds` on the digits after the point: the first nine digits, scaled to
nanoseconds. -/
def parseNanoseconds (digits : List Nat) : Int :=
  atoi (digits.take 9) * 10 ^ (9 - (digits.take 9).length)

/-- The fraction of the second in `parseRFC3339`: a point followed by digits, if there
is one; the nanoseconds and the input after the fraction. -/
def parseFraction (s : List Nat) : Int × List Nat :=
  match s with
  | p :: d :: rest =>
    if p = 0x2E ∧ isDigit d then
      (parseNanoseconds ((d :: rest).takeWhile isDigit), (d :: rest).dropWhile isDigit)
    else (0, s)
  | _ => (0, s)

/-- The zone in `parseRFC3339`: `Z`, or a sign, two digits of hours, a colon and two
digits of minutes; `unix` is the date and clock read as UTC.  The time read carries the
offset of the text. -/
def parseZone (unix nsec : Int) (s : List Nat) : Option Time :=
  match s with
  | [z] => if z = 0x5A then some { nanos := unix * 1000000000 + nsec, offset := 0 } else none
  | [sign, z0, z1, colon, z3, z4] =>
    match parseUint [z0, z1] 0 23 with
    | none => none
    | some hr =>
    match parseUint [z3, z4] 0 59 with
    | none => none
    | some mm =>
      if (sign = 0x2D ∨ sign = 0x2B) ∧ colon = 0x3A then
        let zoneOffset := if sign = 0x2D then -((hr * 60 + mm) * 60) else (hr * 60 + mm) * 60
        some { nanos := (unix - zoneOffset) * 1000000000 + nsec, offset := zoneOffset }
      else none
  | _ => none

/-- `parseRFC3339`: the time written by a text of the form
`2006-01-02T15:04:05.999999999Z07:00`, `none` for any other text. -/
def parseRFC3339 (s : List Nat) : Option Time :=
  match s with
  | y0 :: y1 :: y2 :: y3 :: c4 :: m0 :: m1 :: c7 :: d0 :: d1 :: c10 :: h0 :: h1 :: c13 :: i0 :: i1
      :: c16 :: s0 :: s1 :: rest =>
    match parseUint [y0, y1, y2, y3] 0 9999 with
    | none => none
    | some year =>
    match parseUint [m0, m1] 1 12 with
    | none => none
    | some month =>
    match parseUint [d0, d1] 1 (daysIn month year) with
    | none => none
    | some day =>
    match parseUint [h0, h1] 0 23 with
    | none => none
    | some hour =>
    match parseUint [i0, i1] 0 59 with
    | none => none
    | some min =>
    match parseUint [s0, s1] 0 59 with
    | none => none
    | some sec =>
      if c4 = 0x2D ∧ c7 = 0x2D ∧ c10 = 0x54 ∧ c13 = 0x3A ∧ c16 = 0x3A then
        let unix := dateToDays year month day * 86400 + hour * 3600 + min * 60 + sec
          - unixToInternal
        parseZone unix (parseFraction rest).1 (parseFraction rest).2
      else none
  | _ => none

/-- `t.UnmarshalJSON(data)` for a string literal `data`: the time its text writes in the
form of RFC 3339.  The literal `null`, which leaves the time as it is, is handled where
the decoder calls this.  A text that `parseRFC3339` does not read is the error here; Go
passes such a text on to the general `Parse`, which reports what is wrong with it or
reads one of a few looser spellings, such as an hour of one digit. -/
def Time.UnmarshalJSON (data : List Nat) : Except String Time :=
  match data with
  | [] => .error "Time.UnmarshalJSON: input is not a JSON string"
  | q :: rest =>
    if q = 0x22 ∧ rest.getLast? = some 0x22 then
      match parseRFC3339 rest.dropLast with
      | some t => .ok t
      | none => .error "parsing time: not in the format of RFC 3339"
    else .error "Time.UnmarshalJSON: input is not a JSON string"

/-! ## Data model -/

/-- An account record, `type User struct`. -/
structure User where
  Username : GoString
  Password : GoString
  ExpireDate : Time
  Protocols : List GoString
  deriving DecidableEq, Repr

/-- The eight backend managers held by the `VPSManager`, in the order of its fields
`SSHMgr`, `XrayMgr`, `WebSocketMgr`, `SSLMgr`, `HTTPMgr`, `SquidMgr`, `UDPMgr`,
`DropbearMgr`. -/
inductive Backend where
  | SSH | Xray | WebSocket | SSL | HTTP | Squid | UDP | Dropbear
  deriving DecidableEq, Repr

/-- An external effect of the manager. -/
inductive Effect where
  /-- A call of the provisioning method of a backend manager (`AddUser`, or
  `GenerateCertificate` for SSL) with its string arguments. -/
  | provision (b : Backend) (args : List GoString)
  /-- A call of the `RemoveUser` method of a backend manager. -/
  | deprovision (b : Backend) (username : GoString)
  /-- A call of `os.WriteFile(path, data, 0644)`. -/
  | writeFile (path : GoString) (data : List Nat)
  /-- A call of `os.ReadFile(path)`. -/
  | readFile (path : GoString)
  /-- A line appended to the log file by `logAction`. -/
  | log (action : String) (username : GoString)
  /-- The line `Removing expired user: <username>` printed by the sweep. -/
  | stdout (username : GoString)
  deriving DecidableEq, Repr

/-- The error of `os.ReadFile`. -/
structure ReadError where
  message : String
  /-- What `os.IsNotExist` answers for the error. -/
  notExist : Bool
  deriving DecidableEq, Repr

/-- The part of `config.Config` the manager reads after construction. -/
structure Config where
  Domain : GoString
  DbPath : GoString
  deriving DecidableEq, Repr

/-- The world outside the manager.  `outcome h e` is the error (`none` for `nil`)
returned when effect `e` is performed after the effects `h`. -/
structure Env where
  outcome : List Effect → Effect → Option String
  /-- The result of `bcrypt.GenerateFromPassword(password, bcrypt.DefaultCost)`. -/
  GenerateFromPassword : List Effect → GoString → Except String GoString
  /-- The result of `os.ReadFile(path)`. -/
  ReadFile : List Effect → GoString → Except ReadError (List Nat)
  /-- The location `time.Local`, in which `time.Now()` reads the clock. -/
  Local : Location

/-- The manager: the registry, its configuration, and the effects performed so far. -/
structure VPSManager where
  Users : List User
  Config : Config
  trace : List Effect

/-- Perform one external effect: ask the environment for its error and record it. -/
def perform (env : Env) (e : Effect) (vm : VPSManager) : Option String × VPSManager :=
  (env.outcome vm.trace e, { vm with trace := vm.trace ++ [e] })

/-- The provisioning method of backend `b`. -/
def provision (env : Env) (b : Backend) (args : List GoString) (vm : VPSManager) :
    Option String × VPSManager :=
  perform env (.provision b args) vm

/-- The `RemoveUser` method of backend `b`. -/
def deprovision (env : Env) (b : Backend) (username : GoString) (vm : VPSManager) :
    Option String × VPSManager :=
  perform env (.deprovision b username) vm

/-- `logAction`: append a line to the log file; a write error is ignored. -/
def logAction (env : Env) (action : String) (username : GoString) (vm : VPSManager) :
    VPSManager :=
  (perform env (.log action username) vm).2

/-! ## The registry file: `json.MarshalIndent(vm.Users, "", "    ")`

The encoder of `encoding/json` is written out for the one type it is applied to,
`[]User`.  A nil slice and an empty slice are both the empty list here; the encoder
writes `[]` for it. -/

/-- The replacement rune `utf8.RuneError`. -/
def RuneError : Nat := 0xFFFD

/-- What `utf8.DecodeRuneInString` returns at the head of a byte string: the rune and the
number of bytes it occupies; an invalid or truncated encoding gives `(RuneError, 1)`. -/
def DecodeRune : List Nat → Nat × Nat
  | [] => (RuneError, 0)
  | s0 :: rest =>
    if s0 < 0x80 then (s0, 1)
    else if s0 < 0xC2 ∨ 0xF4 < s0 then (RuneError, 1)
    else
      -- size and range accepted for the second byte, from the tables `first`, `acceptRanges`
      let sz := if s0 < 0xE0 then 2 else if s0 < 0xF0 then 3 else 4
      let lo := if s0 = 0xE0 then 0xA0 else if s0 = 0xF0 then 0x90 else 0x80
      let hi := if s0 = 0xED then 0x9F else if s0 = 0xF4 then 0x8F else 0xBF
      match rest with
      | [] => (RuneError, 1)
      | s1 :: rest1 =>
        if rest.length + 1 < sz then (RuneError, 1)
        else if s1 < lo ∨ hi < s1 then (RuneError, 1)
        else if sz = 2 then (s0 % 32 * 64 + s1 % 64, 2)
        else match rest1 with
          | [] => (RuneError, 1)
          | s2 :: rest2 =>
            if s2 < 0x80 ∨ 0xBF < s2 then (RuneError, 1)
            else if sz = 3 then (s0 % 16 * 4096 + s1 % 64 * 64 + s2 % 64, 3)
            else match rest2 with
              | [] => (RuneError, 1)
              | s3 :: _ =>
                if s3 < 0x80 ∨ 0xBF < s3 then (RuneError, 1)
                else (s0 % 8 * 262144 + s1 % 64 * 4096 + s2 % 64 * 64 + s3 % 64, 4)

/-- The table `hex = "0123456789abcdef"`. -/
def hexDigit (n : Nat) : Nat :=
  if n < 10 then 0x30 + n else 0x61 + (n - 10)

/-- The table `htmlSafeSet`: the ASCII bytes the encoder copies unchanged. -/
def htmlSafe (b : Nat) : Bool :=
  decide (0x20 ≤ b ∧ b < 0x80 ∧ b ≠ 0x22 ∧ b ≠ 0x5C ∧ b ≠ 0x3C ∧ b ≠ 0x3E ∧ b ≠ 0x26)

/-- The escape the encoder writes for an ASCII byte that is not in `htmlSafeSet`. -/
def escapeByte (b : Nat) : List Nat :=
  if b = 0x5C ∨ b = 0x22 then [0x5C, b]
  else if b = 0x08 then [0x5C, 0x62]
  else if b = 0x0C then [0x5C, 0x66]
  else if b = 0x0A then [0x5C, 0x6E]
  else if b = 0x0D then [0x5C, 0x72]
  else if b = 0x09 then [0x5C, 0x74]
  else [0x5C, 0x75, 0x30, 0x30, hexDigit (b / 16), hexDigit (b % 16)]

/-- One round of the loop of `appendString` with HTML escaping on: the text written for
the byte or rune at the head of the input, and the input after it. -/
def quoteStep : List Nat → List Nat × List Nat
  | [] => ([], [])
  | b :: rest =>
    if b < 0x80 then
      (if htmlSafe b then [b] else escapeByte b, rest)
    else
      match DecodeRune (b :: rest) with
      | (c, size) =>
        if c = RuneError ∧ size = 1 then ([0x5C, 0x75, 0x66, 0x66, 0x66, 0x64], rest)
        else if c = 0x2028 ∨ c = 0x2029 then
          ([0x5C, 0x75, 0x32, 0x30, 0x32, hexDigit (c % 16)], (b :: rest).drop size)
        else ((b :: rest).take size, (b :: rest).drop size)

/-- The loop of `appendString`: the text between the quotes.  The first argument bounds
the number of rounds; the length of the input is enough. -/
def quoteBody : Nat → List Nat → List Nat
  | 0, _ => []
  | _ + 1, [] => []
  | fuel + 1, b :: rest =>
    (quoteStep (b :: rest)).1 ++ quoteBody fuel (quoteStep (b :: rest)).2

/-- The JSON string literal `appendString` writes for a Go string. -/
def appendString (src : GoString) : List Nat :=
  [0x22] ++ quoteBody src.length src ++ [0x22]

/-- The line break `appendNewline` writes at a nesting depth, with the four-space indent. -/
def appendNewline (depth : Nat) : List Nat :=
  0x0A :: List.replicate (4 * depth) 0x20

/-- A string literal that the encoder copies as it is: between the quotes there are only
bytes of `htmlSafeSet`. -/
def plainLiteral : List Nat → Bool
  | 0x22 :: body =>
    match body.reverse with
    | 0x22 :: revInner => revInner.all htmlSafe
    | _ => false
  | _ => false

/-- The value of the field `expire_date`: the literal of `t.MarshalJSON()`, which the
encoder checks to be JSON and copies.  The literal is a quoted timestamp of digits and
`- : . + T Z`, which the check always lets through (`marshalTime_of_MarshalJSON`). -/
def marshalTime (t : Time) : Except String (List Nat) :=
  match t.MarshalJSON with
  | .error e => .error ("json: error calling MarshalJSON for type time.Time: " ++ e)
  | .ok lit =>
    if plainLiteral lit then .ok lit
    else .error "json: error calling MarshalJSON for type time.Time: invalid literal"

/-- The elements of an indented array after the first: each on its own line. -/
def joinIndented (depth : Nat) : List (List Nat) → List Nat
  | [] => []
  | x :: xs => [0x2C] ++ appendNewline depth ++ x ++ joinIndented depth xs

/-- An indented JSON array at a nesting depth; the empty array is `[]`. -/
def indentedArray (depth : Nat) : List (List Nat) → List Nat
  | [] => [0x5B, 0x5D]
  | x :: xs =>
    [0x5B] ++ appendNewline (depth + 1) ++ x ++ joinIndented (depth + 1) xs
      ++ appendNewline depth ++ [0x5D]

/-- One member of an indented object: the key, a colon, a space, the value. -/
def member (key : String) (value : List Nat) : List Nat :=
  appendString (str key) ++ [0x3A, 0x20] ++ value

/-- The indented JSON object of one `User`, inside the top-level array. -/
def marshalUser (u : User) : Except String (List Nat) :=
  match marshalTime u.ExpireDate with
  | .error e => .error e
  | .ok lit =>
    .ok ([0x7B] ++ appendNewline 2 ++ member "username" (appendString u.Username)
      ++ [0x2C] ++ appendNewline 2 ++ member "password" (appendString u.Password)
      ++ [0x2C] ++ appendNewline 2 ++ member "expire_date" lit
      ++ [0x2C] ++ appendNewline 2
      ++ member "protocols" (indentedArray 2 (u.Protocols.map appendString))
      ++ appendNewline 1 ++ [0x7D])

/-- The objects of all users, or the first error. -/
def marshalUsers : List User → Except String (List (List Nat))
  | [] => .ok []
  | u :: us =>
    match marshalUser u with
    | .error e => .error e
    | .ok x =>
      match marshalUsers us with
      | .error e => .error e
      | .ok xs => .ok (x :: xs)

/-- The bytes `json.MarshalIndent(users, "", "    ")` returns, or its error. -/
def MarshalIndent (users : List User) : Except String (List Nat) :=
  match marshalUsers users with
  | .error e => .error e
  | .ok xs => .ok (indentedArray 0 xs)

/-- `saveToFile`: marshal the registry and write it to `Config.DbPath`. -/
def saveToFile (env : Env) (vm : VPSManager) : Option String × VPSManager :=
  match MarshalIndent vm.Users with
  | .error err => (some err, vm)
  | .ok data => perform env (.writeFile vm.Config.DbPath data) vm

/-! ## The registry file: `json.Unmarshal(data, &vm.Users)`

The decoder of `encoding/json` is written out for the target type `[]User`: white space
between tokens is skipped, the members of an object may come in any order and may repeat,
`null` leaves a string or a time as it was and empties a slice, an element that the
slice already holds is decoded in place.  Member names are matched exactly; a document
with other member names, or with a value of another JSON type than the field's, is
reported as an error here. -/

/-- The white space of JSON: space, tab, carriage return, line feed. -/
def isSpace (c : Nat) : Bool :=
  c = 0x20 || c = 0x09 || c = 0x0D || c = 0x0A

/-- Skip white space. -/
def skipSpace : List Nat → List Nat
  | [] => []
  | c :: rest => if isSpace c then skipSpace rest else c :: rest

/-- The value of a hexadecimal digit. -/
def hexValue (c : Nat) : Option Nat :=
  if 0x30 ≤ c ∧ c ≤ 0x39 then some (c - 0x30)
  else if 0x61 ≤ c ∧ c ≤ 0x66 then some (c - 0x61 + 10)
  else if 0x41 ≤ c ∧ c ≤ 0x46 then some (c - 0x41 + 10)
  else none

/-- `getu4`: the rune of the four hexadecimal digits of a `\u` escape. -/
def getu4 (a b c d : Nat) : Option Nat :=
  match hexValue a, hexValue b, hexValue c, hexValue d with
  | some x, some y, some z, some w => some (x * 4096 + y * 256 + z * 16 + w)
  | _, _, _, _ => none

/-- The byte of a one-letter escape: quote, backslash, slash, `b f n r t`. -/
def simpleEscape (e : Nat) : Option Nat :=
  if e = 0x22 ∨ e = 0x5C ∨ e = 0x2F then some e
  else if e = 0x62 then some 0x08
  else if e = 0x66 then some 0x0C
  else if e = 0x6E then some 0x0A
  else if e = 0x72 then some 0x0D
  else if e = 0x74 then some 0x09
  else none

/-- `utf16.DecodeRune`: the rune of a surrogate pair, `RuneError` for an invalid pair. -/
def DecodeRune16 (r1 r2 : Nat) : Nat :=
  if 0xD800 ≤ r1 ∧ r1 < 0xDC00 ∧ 0xDC00 ≤ r2 ∧ r2 < 0xE000 then
    (r1 - 0xD800) * 1024 + (r2 - 0xDC00) + 0x10000
  else RuneError

/-- Put decoded bytes before the result of decoding the rest. -/
def prepend (xs : List Nat) : Option (GoString × List Nat) → Option (GoString × List Nat)
  | some (out, rest) => some (xs ++ out, rest)
  | none => none

/-- The bytes of a `\u` escape whose four digits are `a b c d`, and the input after the
escape; a surrogate takes the next `\u` escape as its second half when the two form a
pair, and is the replacement rune otherwise. -/
def unquoteUnicode (a b c d : Nat) (rest : List Nat) : Option (List Nat × List Nat) :=
  match getu4 a b c d with
  | none => none
  | some rr =>
    if 0xD800 ≤ rr ∧ rr < 0xE000 then
      match rest with
      | b0 :: u :: a2 :: b2 :: c2 :: d2 :: rest1 =>
        if b0 = 0x5C ∧ u = 0x75 then
          match getu4 a2 b2 c2 d2 with
          | some rr1 =>
            if DecodeRune16 rr rr1 ≠ RuneError then some (EncodeRune (DecodeRune16 rr rr1), rest1)
            else some (EncodeRune RuneError, rest)
          | none => some (EncodeRune RuneError, rest)
        else some (EncodeRune RuneError, rest)
      | _ => some (EncodeRune RuneError, rest)
    else some (EncodeRune rr, rest)

/-- One round of the loop of `unquoteBytes`: the bytes decoded from the escape, byte or
rune at the head of the input, and the input after it.  A control character or a bad
escape is a syntax error. -/
def unquoteStep : List Nat → Option (List Nat × List Nat)
  | [] => none
  | c :: rest =>
    if c = 0x5C then
      match rest with
      | [] => none
      | e :: rest1 =>
        if e = 0x75 then
          match rest1 with
          | a :: b :: c1 :: d :: rest2 => unquoteUnicode a b c1 d rest2
          | _ => none
        else
          match simpleEscape e with
          | none => none
          | some b => some ([b], rest1)
    else if c < 0x20 then none
    else if c < 0x80 then some ([c], rest)
    else
      match DecodeRune (c :: rest) with
      | (rr, size) => some (EncodeRune rr, (c :: rest).drop size)

/-- The loop of `unquoteBytes` on the text after an opening quote: the decoded string and
the input after the closing quote; a missing closing quote is a syntax error.  The first
argument bounds the number of rounds; the length of the input is enough. -/
def unquoteBody : Nat → List Nat → Option (GoString × List Nat)
  | 0, _ => none
  | _ + 1, [] => none
  | fuel + 1, c :: rest =>
    if c = 0x22 then some ([], rest)
    else
      match unquoteStep (c :: rest) with
      | none => none
      | some (out, rest1) => prepend out (unquoteBody fuel rest1)

/-- The literal `null` at the head of the input: the input after it. -/
def stripNull : List Nat → Option (List Nat)
  | [] => none
  | a :: rest =>
    if a = 0x6E then
      match rest with
      | b :: c :: d :: rest1 => if b = 0x75 ∧ c = 0x6C ∧ d = 0x6C then some rest1 else none
      | _ => none
    else none

/-- A value decoded into a `string` field that holds `old`. -/
def parseStringValue (fuel : Nat) (old : GoString) (s : List Nat) :
    Option (GoString × List Nat) :=
  match stripNull s with
  | some rest => some (old, rest)
  | none =>
    match s with
    | c :: rest => if c = 0x22 then unquoteBody fuel rest else none
    | [] => none

/-- The raw text of a string literal after its opening quote, up to and including the
closing quote, and the input after it. -/
def scanLiteral : List Nat → Option (List Nat × List Nat)
  | [] => none
  | c :: rest =>
    if c = 0x22 then some ([0x22], rest)
    else if c = 0x5C then
      match rest with
      | [] => none
      | e :: rest1 => prepend [c, e] (scanLiteral rest1)
    else if c < 0x20 then none
    else prepend [c] (scanLiteral rest)

/-- A value decoded into the `time.Time` field that holds `old`: the raw string literal is
handed to `time.Time.UnmarshalJSON`. -/
def parseTimeValue (old : Time) (s : List Nat) : Option (Time × List Nat) :=
  match stripNull s with
  | some rest => some (old, rest)
  | none =>
    match s with
    | c :: rest =>
      if c = 0x22 then
        match scanLiteral rest with
        | none => none
        | some (body, rest1) =>
          match Time.UnmarshalJSON (0x22 :: body) with
          | .error _ => none
          | .ok t => some (t, rest1)
      else none
    | [] => none

/-- The elements of an array of strings, from the first element to the closing bracket. -/
def parseStrings : Nat → List Nat → Option (List GoString × List Nat)
  | 0, _ => none
  | fuel + 1, s =>
    match s with
    | [] => none
    | c :: rest =>
      if c = 0x22 then
        match unquoteBody fuel rest with
        | none => none
        | some (x, rest1) =>
          match skipSpace rest1 with
          | [] => none
          | d :: rest2 =>
            if d = 0x2C then
              match parseStrings fuel (skipSpace rest2) with
              | none => none
              | some (xs, rest3) => some (x :: xs, rest3)
            else if d = 0x5D then some ([x], rest2)
            else none
      else none

/-- A value decoded into the `[]string` field `Protocols`. -/
def parseStringArray (fuel : Nat) (s : List Nat) : Option (List GoString × List Nat) :=
  match stripNull s with
  | some rest => some ([], rest)
  | none =>
    match s with
    | [] => none
    | c :: rest =>
      if c = 0x5B then
        match skipSpace rest with
        | [] => none
        | d :: rest1 => if d = 0x5D then some ([], rest1) else parseStrings fuel (d :: rest1)
      else none

/-- The value of one member of a `User` object, decoded into the field the name selects. -/
def parseMember (fuel : Nat) (u : User) (key : GoString) (s : List Nat) :
    Option (User × List Nat) :=
  if key = str "username" then
    match parseStringValue fuel u.Username s with
    | none => none
    | some (x, rest) => some ({ u with Username := x }, rest)
  else if key = str "password" then
    match parseStringValue fuel u.Password s with
    | none => none
    | some (x, rest) => some ({ u with Password := x }, rest)
  else if key = str "expire_date" then
    match parseTimeValue u.ExpireDate s with
    | none => none
    | some (t, rest) => some ({ u with ExpireDate := t }, rest)
  else if key = str "protocols" then
    match parseStringArray fuel s with
    | none => none
    | some (ps, rest) => some ({ u with Protocols := ps }, rest)
  else none

/-- The members of a `User` object, from the first name to the closing brace. -/
def parseMembers : Nat → User → List Nat → Option (User × List Nat)
  | 0, _, _ => none
  | fuel + 1, u, s =>
    match s with
    | [] => none
    | c :: rest =>
      if c = 0x22 then
        match unquoteBody fuel rest with
        | none => none
        | some (key, rest1) =>
          match skipSpace rest1 with
          | [] => none
          | d :: rest2 =>
            if d = 0x3A then
              match parseMember fuel u key (skipSpace rest2) with
              | none => none
              | some (u1, rest3) =>
                match skipSpace rest3 with
                | [] => none
                | e :: rest4 =>
                  if e = 0x2C then parseMembers fuel u1 (skipSpace rest4)
                  else if e = 0x7D then some (u1, rest4)
                  else none
            else none
      else none

/-- A JSON object decoded into a `User` that holds `u`. -/
def parseObject (fuel : Nat) (u : User) (s : List Nat) : Option (User × List Nat) :=
  match s with
  | [] => none
  | c :: rest =>
    if c = 0x7B then
      match skipSpace rest with
      | [] => none
      | d :: rest1 => if d = 0x7D then some (u, rest1) else parseMembers fuel u (d :: rest1)
    else none

/-- The zero value of `User`; the zero `time.Time` is midnight of 1 January of year 1. -/
def zeroUser : User :=
  { Username := [], Password := [], ExpireDate := ⟨-62135596800000000000, 0⟩, Protocols := [] }

/-- The elements of the top-level array, from the first element to the closing bracket.
Element `i` is decoded into element `i` of the slice when the slice holds one, `held`
being the elements of the slice from `i` on, and into a zero `User` otherwise. -/
def parseElements : Nat → List User → List Nat → Option (List User × List Nat)
  | 0, _, _ => none
  | fuel + 1, held, s =>
    match parseObject fuel (held.headD zeroUser) s with
    | none => none
    | some (u, rest) =>
      match skipSpace rest with
      | [] => none
      | d :: rest1 =>
        if d = 0x2C then
          match parseElements fuel held.tail (skipSpace rest1) with
          | none => none
          | some (us, rest2) => some (u :: us, rest2)
        else if d = 0x5D then some ([u], rest1)
        else none

/-- The top-level value decoded into a `[]User` that holds `held`. -/
def parseUsers (fuel : Nat) (held : List User) (s : List Nat) :
    Option (List User × List Nat) :=
  match stripNull s with
  | some rest => some ([], rest)
  | none =>
    match s with
    | [] => none
    | c :: rest =>
      if c = 0x5B then
        match skipSpace rest with
        | [] => none
        | d :: rest1 =>
          if d = 0x5D then some ([], rest1) else parseElements fuel held (d :: rest1)
      else none

/-- The registry `json.Unmarshal(data, &vm.Users)` leaves in a `vm.Users` that holds
`held`, or its error. -/
def Unmarshal (data : List Nat) (held : List User) : Except String (List User) :=
  match parseUsers data.length held (skipSpace data) with
  | none => .error "json: cannot unmarshal the registry file"
  | some (users, rest) =>
    match skipSpace rest with
    | [] => .ok users
    | _ :: _ => .error "invalid character after top-level value"

/-- `loadFromFile`: read `Config.DbPath`; a missing file is not an error and leaves the
registry as it is, any other read error is returned; otherwise the file is unmarshalled
into the registry. -/
def loadFromFile (env : Env) (vm : VPSManager) : Except String VPSManager :=
  let read := env.ReadFile vm.trace vm.Config.DbPath
  let vm := { vm with trace := vm.trace ++ [.readFile vm.Config.DbPath] }
  match read with
  | .error err => if err.notExist then .ok vm else .error err.message
  | .ok data =>
    match Unmarshal data vm.Users with
    | .error err => .error err
    | .ok users => .ok { vm with Users := users }

/-! ## The orchestrator -/

/-- `cleanup`: call `RemoveUser` on all eight backend managers, ignoring the results. -/
def cleanup (env : Env) (username : GoString) (vm : VPSManager) : VPSManager :=
  let vm := (deprovision env .SSH username vm).2
  let vm := (deprovision env .Xray username vm).2
  let vm := (deprovision env .WebSocket username vm).2
  let vm := (deprovision env .SSL username vm).2
  let vm := (deprovision env .HTTP username vm).2
  let vm := (deprovision env .Squid username vm).2
  let vm := (deprovision env .UDP username vm).2
  (deprovision env .Dropbear username vm).2

/-- The protocol list `AddUser` records for a new account. -/
def recordedProtocols : List GoString :=
  [str "ssh", str "ssl", str "websocket", str "http", str "squid", str "xray", str "udp",
    str "dropbear"]

/-- `AddUser(username, password, expireDays)`; `now` is what `time.Now()` returns when the
expiry date is computed, a time of the location `env.Local`.  The result is the returned error (`none` for `nil`) and the
manager afterward. -/
def AddUser (env : Env) (now : Time) (vm : VPSManager) (username password : GoString)
    (expireDays : Int) : Option String × VPSManager :=
  match env.GenerateFromPassword vm.trace password with
  | .error err => (some ("failed to hash password: " ++ err), vm)
  | .ok hashedPassword =>
  -- Add system user
  match provision env .SSH [username, password] vm with
  | (some err, vm) => (some err, vm)
  | (none, vm) =>
  -- Add to Xray
  match provision env .Xray [username] vm with
  | (some err, vm) =>
    let vm := (deprovision env .SSH username vm).2
    (some err, vm)
  | (none, vm) =>
  -- Setup WebSocket
  let domain := username ++ str "." ++ vm.Config.Domain
  match provision env .WebSocket [username, domain] vm with
  | (some err, vm) =>
    let vm := (deprovision env .SSH username vm).2
    let vm := (deprovision env .Xray username vm).2
    (some err, vm)
  | (none, vm) =>
  -- Generate SSL certificate
  match provision env .SSL [domain] vm with
  | (some err, vm) =>
    let vm := (deprovision env .SSH username vm).2
    let vm := (deprovision env .Xray username vm).2
    (some err, vm)
  | (none, vm) =>
  -- Add HTTP proxy
  match provision env .HTTP [username, password, domain] vm with
  | (some err, vm) => (some err, cleanup env username vm)
  | (none, vm) =>
  -- Add Squid proxy
  match provision env .Squid [username, password] vm with
  | (some err, vm) => (some err, cleanup env username vm)
  | (none, vm) =>
  -- Add UDP configuration
  match provision env .UDP [username, password] vm with
  | (some err, vm) => (some err, cleanup env username vm)
  | (none, vm) =>
  -- Add Dropbear user
  match provision env .Dropbear [username, password] vm with
  | (some err, vm) => (some err, cleanup env username vm)
  | (none, vm) =>
  let expireDate := now.AddDate env.Local expireDays
  let newUser : User :=
    { Username := username
      Password := hashedPassword
      ExpireDate := expireDate
      Protocols := recordedProtocols }
  let vm := { vm with Users := vm.Users ++ [newUser] }
  let vm := logAction env "AddUser" username vm
  saveToFile env vm

/-- The search loop of `RemoveUser`: the registry without the first record whose
username is `username`, or `none` when no record has it. -/
def removeFirst (username : GoString) : List User → Option (List User)
  | [] => none
  | user :: rest =>
    if user.Username = username then some rest
    else
      match removeFirst username rest with
      | none => none
      | some rest1 => some (user :: rest1)

/-- One teardown step of `RemoveUser`: call the backend and, when it fails, append
`<label>: <error>` to the collected errors. -/
def removeStep (env : Env) (b : Backend) (label : String) (username : GoString)
    (acc : List String × VPSManager) : List String × VPSManager :=
  match deprovision env b username acc.2 with
  | (some err, vm) => (acc.1 ++ [label ++ ": " ++ err], vm)
  | (none, vm) => (acc.1, vm)

/-- The text `%v` prints for a `[]string`. -/
def formatStrings (xs : List String) : String :=
  "[" ++ " ".intercalate xs ++ "]"

/-- The aggregate error of `RemoveUser` for a non-empty list of collected errors. -/
def aggregateError (errors : List String) : String :=
  "errors removing user: " ++ formatStrings errors

/-- `RemoveUser(username)`. -/
def RemoveUser (env : Env) (vm : VPSManager) (username : GoString) :
    Option String × VPSManager :=
  -- Find user first
  match removeFirst username vm.Users with
  | none => (some "user not found", vm)
  | some users =>
    let vm := { vm with Users := users }
    -- Remove from all protocols
    let acc : List String × VPSManager := ([], vm)
    let acc := removeStep env .SSH "SSH" username acc
    let acc := removeStep env .Xray "Xray" username acc
    let acc := removeStep env .WebSocket "WebSocket" username acc
    let acc := removeStep env .SSL "SSL" username acc
    let acc := removeStep env .HTTP "HTTP" username acc
    let acc := removeStep env .Squid "Squid" username acc
    let acc := removeStep env .UDP "UDP" username acc
    let acc := removeStep env .Dropbear "Dropbear" username acc
    -- Save changes to file
    let acc : List String × VPSManager :=
      match saveToFile env acc.2 with
      | (some err, vm) => (acc.1 ++ ["Save to file: " ++ err], vm)
      | (none, vm) => (acc.1, vm)
    let vm := logAction env "RemoveUser" username acc.2
    -- If there were any errors, return them all
    if acc.1.length > 0 then (some (aggregateError acc.1), vm) else (none, vm)

/-- The first loop of `CheckExpiredUsers`: the usernames of the records `now` is after. -/
def expiredUsernames (now : Time) : List User → List GoString
  | [] => []
  | user :: rest =>
    if now.After user.ExpireDate then user.Username :: expiredUsernames now rest
    else expiredUsernames now rest

/-- The second loop of `CheckExpiredUsers`: announce and remove each username in turn,
dropping the error of `RemoveUser`. -/
def removeExpired (env : Env) : List GoString → VPSManager → VPSManager
  | [], vm => vm
  | username :: rest, vm =>
    let vm := (perform env (.stdout username) vm).2
    let vm := (RemoveUser env vm username).2
    removeExpired env rest vm

/-- `CheckExpiredUsers()`; `now` is what `time.Now()` returns. -/
def CheckExpiredUsers (env : Env) (now : Time) (vm : VPSManager) : VPSManager :=
  removeExpired env (expiredUsernames now vm.Users) vm

/-! ## Vocabulary of the statements -/

/-- The effects performed between two states of the manager. -/
def effectsSince (before after : VPSManager) : List Effect :=
  after.trace.drop before.trace.length

/-- The backends in provisioning order: SSH, Xray, WebSocket, SSL, HTTP, Squid, UDP,
Dropbear. -/
def backendOrder : List Backend :=
  [.SSH, .Xray, .WebSocket, .SSL, .HTTP, .Squid, .UDP, .Dropbear]

/-- The backends on which `RemoveUser` was called, in call order. -/
def deprovisioned : List Effect → List Backend
  | [] => []
  | .deprovision b _ :: rest => b :: deprovisioned rest
  | _ :: rest => deprovisioned rest

/-- The backends whose provisioning method was called, in call order. -/
def provisioned : List Effect → List Backend
  | [] => []
  | .provision b _ :: rest => b :: provisioned rest
  | _ :: rest => provisioned rest

/-- The eight provisioning calls of `AddUser(username, password, _)` in order. -/
def provisionCalls (cfg : Config) (username password : GoString) : List Effect :=
  let domain := username ++ str "." ++ cfg.Domain
  [.provision .SSH [username, password], .provision .Xray [username],
    .provision .WebSocket [username, domain], .provision .SSL [domain],
    .provision .HTTP [username, password, domain], .provision .Squid [username, password],
    .provision .UDP [username, password], .provision .Dropbear [username, password]]

/-- What the environment answers to provisioning step `j` (counted from 0) of
`AddUser(username, password, _)` when the steps before it have been performed. -/
def stepOutcome (env : Env) (vm : VPSManager) (username password : GoString) (j : Nat) :
    Option String :=
  match (provisionCalls vm.Config username password)[j]? with
  | none => none
  | some call => env.outcome (vm.trace ++ (provisionCalls vm.Config username password).take j) call

/-- Provisioning step `k` (counted from 0, so SSH is 0 and Dropbear is 7) is the first to
fail, with error `e`: hashing succeeds, the steps before `k` succeed, step `k` fails. -/
structure FirstFailure (env : Env) (vm : VPSManager) (username password : GoString)
    (k : Nat) (e : String) : Prop where
  hashed : ∃ digest, env.GenerateFromPassword vm.trace password = .ok digest
  before : ∀ j < k, stepOutcome env vm username password j = none
  failed : stepOutcome env vm username password k = some e

/-- The reading of the clock of a location at a time: the seconds since the Unix epoch
plus the offset in force at the time. -/
def Location.wallClock (loc : Location) (t : Time) : Int :=
  t.unixSec + (loc.lookup t.unixSec).offset

/-- The reading of the clock of a location `days` calendar days after a time: the same
time of day, `days` dates later. -/
def Location.readingAfter (loc : Location) (t : Time) (days : Int) : Int :=
  loc.wallClock t + days * 86400

/-- An integer in the range of `int64`. -/
def fitsInt64 (x : Int) : Prop :=
  alpha ≤ x ∧ x ≤ omega

instance (x : Int) : Decidable (fitsInt64 x) := by
  unfold fitsInt64
  infer_instance

/-- None of the three 64-bit sums of `t.AddDate(0, 0, days)` overflows: the reading of
the clock `days` days later, that reading less the zone offset, and the seconds since
1 January of year 1. -/
def AddDateFits (loc : Location) (t : Time) (days : Int) : Prop :=
  fitsInt64 (loc.readingAfter t days)
    ∧ fitsInt64 (loc.readingAfter t days - loc.dateOffset (loc.readingAfter t days))
    ∧ fitsInt64 (loc.readingAfter t days - loc.dateOffset (loc.readingAfter t days)
        + unixToInternal)

instance (loc : Location) (t : Time) (days : Int) : Decidable (AddDateFits loc t days) := by
  unfold AddDateFits
  infer_instance

/-- The clock of a location shows the reading `wall`: at the instant `Date` settles on
for the reading, the offset in force is the offset that was taken off the reading.  A
reading that the clock skips when it is put forward is not shown. -/
def Location.Shows (loc : Location) (wall : Int) : Prop :=
  (loc.lookup (wall - loc.dateOffset wall)).offset = loc.dateOffset wall

instance (loc : Location) (wall : Int) : Decidable (loc.Shows wall) := by
  unfold Location.Shows
  infer_instance

/-- A Unicode scalar value: a code point up to `0x10FFFF` that is not a surrogate. -/
def validRune (r : Nat) : Prop :=
  r < 0xD800 ∨ (0xE000 ≤ r ∧ r ≤ 0x10FFFF)

instance (r : Nat) : Decidable (validRune r) := by
  unfold validRune
  infer_instance

/-- A Go string is valid UTF-8 (`utf8.ValidString`): it is the encoding of a sequence of
Unicode scalar values. -/
def ValidUTF8 (s : GoString) : Prop :=
  ∃ runes : List Nat, (∀ r ∈ runes, validRune r) ∧ s = encodeRunes runes

/-- The text the encoder writes between the quotes for one rune of a valid string. -/
def quoteRune (r : Nat) : List Nat :=
  if r < 0x80 then (if htmlSafe r then [r] else escapeByte r)
  else if r = 0x2028 ∨ r = 0x2029 then [0x5C, 0x75, 0x32, 0x30, 0x32, hexDigit (r % 16)]
  else EncodeRune r

/-- The text the encoder writes between the quotes for the runes of a valid string. -/
def quoteRunes : List Nat → List Nat
  | [] => []
  | r :: rs => quoteRune r ++ quoteRunes rs

/-- The data of the last `os.WriteFile(path, _)` among some effects. -/
def lastWrite (path : GoString) : List Effect → Option (List Nat)
  | [] => none
  | .writeFile p data :: rest =>
    match lastWrite path rest with
    | some later => some later
    | none => if p = path then some data else none
  | _ :: rest => lastWrite path rest

/-- An environment in which hashing works, the listed effects fail and all others
succeed, whatever happened before; a file reads as it was last written; the local time
zone is UTC. -/
def envFailing (failing : List Effect) : Env where
  outcome := fun _ e => if e ∈ failing then some "failed" else none
  GenerateFromPassword := fun _ password => .ok (str "$2a$10$" ++ password)
  ReadFile := fun trace path =>
    match lastWrite path trace with
    | some data => .ok data
    | none => .error ⟨"no such file", true⟩
  Local := UTC

/-- The record at which the search loop of `RemoveUser` stops: the first one whose
username is `username`. -/
def findUser (username : GoString) : List User → Option User
  | [] => none
  | user :: rest => if user.Username = username then some user else findUser username rest

/-- The name under which `AddUser` records a backend in `User.Protocols`. -/
def Backend.name : Backend → GoString
  | .SSH => str "ssh"
  | .Xray => str "xray"
  | .WebSocket => str "websocket"
  | .SSL => str "ssl"
  | .HTTP => str "http"
  | .Squid => str "squid"
  | .UDP => str "udp"
  | .Dropbear => str "dropbear"

/-- The record `AddUser` builds on success. -/
def newRecord (loc : Location) (now : Time) (username digest : GoString) (days : Int) : User :=
  { Username := username, Password := digest, ExpireDate := now.AddDate loc days,
    Protocols := recordedProtocols }

/-- The manager at the point where a fully provisioned `AddUser` calls `saveToFile`: the
eight provisioning calls are made, the record is appended, the log line is written. -/
def beforeSave (env : Env) (now : Time) (vm : VPSManager) (username password digest : GoString)
    (days : Int) : VPSManager :=
  logAction env "AddUser" username
    { Users := vm.Users ++ [newRecord env.Local now username digest days]
      Config := vm.Config
      trace := vm.trace ++ provisionCalls vm.Config username password }

/-- The label `RemoveUser` puts before the error of a backend. -/
def backendLabel : Backend → String
  | .SSH => "SSH"
  | .Xray => "Xray"
  | .WebSocket => "WebSocket"
  | .SSL => "SSL"
  | .HTTP => "HTTP"
  | .Squid => "Squid"
  | .UDP => "UDP"
  | .Dropbear => "Dropbear"

/-- The `RemoveUser` calls on the given backends for one username, in order. -/
def teardownCalls (username : GoString) (bs : List Backend) : List Effect :=
  bs.map fun b => .deprovision b username

/-- The entries `<label>: <error>` of the backends whose `RemoveUser` fails when the
backends `bs` are called in order after the effects `trace`; a backend that succeeds
contributes nothing. -/
def failedEntries (env : Env) (username : GoString) : List Effect → List Backend → List String
  | _, [] => []
  | trace, b :: bs =>
    match env.outcome trace (.deprovision b username) with
    | some err =>
      (backendLabel b ++ ": " ++ err)
        :: failedEntries env username (trace ++ [.deprovision b username]) bs
    | none => failedEntries env username (trace ++ [.deprovision b username]) bs

/-- What the environment answers to teardown call `j` (counted from 0) of
`RemoveUser(username)` when the calls before it have been made. -/
def teardownOutcome (env : Env) (trace : List Effect) (username : GoString)
    (bs : List Backend) (j : Nat) : Option String :=
  match bs[j]? with
  | none => none
  | some b => env.outcome (trace ++ teardownCalls username (bs.take j)) (.deprovision b username)

/-- The entry `<label>: <error>` of teardown call `j`, when that call fails. -/
def entryAt (env : Env) (trace : List Effect) (username : GoString)
    (bs : List Backend) (j : Nat) : Option String :=
  match bs[j]?, teardownOutcome env trace username bs j with
  | some b, some err => some (backendLabel b ++ ": " ++ err)
  | _, _ => none

/-- The manager at the point where `RemoveUser` calls `saveToFile`: the record is out of
the registry `users` and the eight backends have been called. -/
def afterTeardown (vm : VPSManager) (username : GoString) (users : List User) : VPSManager :=
  { Users := users, Config := vm.Config, trace := vm.trace ++ teardownCalls username backendOrder }

/-- The usernames the sweep announced, that is, its removal attempts, in order. -/
def announced : List Effect → List GoString
  | [] => []
  | .stdout username :: rest => username :: announced rest
  | _ :: rest => announced rest

/-- The calls of the `RemoveUser` method of a backend among some effects, in order. -/
def teardowns : List Effect → List Effect
  | [] => []
  | .deprovision b username :: rest => .deprovision b username :: teardowns rest
  | _ :: rest => teardowns rest

/-- The backend calls of removals of the given usernames in turn: the `RemoveUser` method
of all eight backends for each username. -/
def sweepCalls : List GoString → List Effect
  | [] => []
  | username :: rest => teardownCalls username backendOrder ++ sweepCalls rest

/-- The file writes among some effects. -/
def fileWrites : List Effect → List Effect
  | [] => []
  | .writeFile path data :: rest => .writeFile path data :: fileWrites rest
  | _ :: rest => fileWrites rest

/-- The registry after the search loop of `RemoveUser`: without the first record of the
username, or unchanged when there is none. -/
def eraseUser (username : GoString) (users : List User) : List User :=
  match removeFirst username users with
  | some rest => rest
  | none => users

/-! ## Concrete inputs -/

/-- A username. -/
def alice : GoString := str "alice"

/-- A password. -/
def secret : GoString := str "s3cret"

/-- A clock reading. -/
def noon : Time := ⟨1000000000000, 0⟩

/-- A configuration. -/
def cfg : Config := { Domain := str "example.com", DbPath := str "users.json" }

/-- The virtual host `AddUser` derives for `alice` under `cfg`. -/
def aliceDomain : GoString := str "alice.example.com"

/-- A manager with an empty registry. -/
def vmEmpty : VPSManager := { Users := [], Config := cfg, trace := [] }

/-- A record for `alice` as an earlier `AddUser` created it. -/
def aliceRecord : User :=
  { Username := alice, Password := str "$2a$10$old", ExpireDate := ⟨500, 0⟩,
    Protocols := recordedProtocols }

/-- A manager whose registry holds `alice`. -/
def vmAlice : VPSManager := { Users := [aliceRecord], Config := cfg, trace := [] }

/-- A second record with the username `alice`, as a second `AddUser` appends it. -/
def aliceSecond : User :=
  { Username := alice, Password := str "$2a$10$new", ExpireDate := ⟨2000000000000, 0⟩,
    Protocols := recordedProtocols }

/-- A manager whose registry holds two records for `alice`. -/
def vmTwice : VPSManager := { Users := [aliceRecord, aliceSecond], Config := cfg, trace := [] }

/-- A record for `bob` with an empty protocol list, as a registry file may hold it. -/
def bobBare : User :=
  { Username := str "bob", Password := str "$2a$10$bob", ExpireDate := ⟨500, 0⟩, Protocols := [] }

/-- A manager whose registry holds `bob`. -/
def vmBob : VPSManager := { Users := [bobBare], Config := cfg, trace := [] }

/-- A record for `alice` that expires exactly at `noon`. -/
def aliceAtNoon : User :=
  { Username := alice, Password := str "$2a$10$old", ExpireDate := noon,
    Protocols := recordedProtocols }

/-- A manager whose registry holds the record that expires at `noon`. -/
def vmAtNoon : VPSManager := { Users := [aliceAtNoon], Config := cfg, trace := [] }

/-- A manager whose registry holds two records for `alice`: first the one that expires
exactly at `noon`, then the one that expired before `noon`. -/
def vmNoonTwice : VPSManager := { Users := [aliceAtNoon, aliceRecord], Config := cfg, trace := [] }

/-- A manager whose registry holds two records for `alice`: first one that expires after
`noon`, then one that expired before `noon`. -/
def vmSwapped : VPSManager := { Users := [aliceSecond, aliceRecord], Config := cfg, trace := [] }

/-- A record for `bob` that expires after `noon`. -/
def bobLater : User :=
  { Username := str "bob", Password := str "$2a$10$bob", ExpireDate := ⟨3000000000000, 0⟩,
    Protocols := recordedProtocols }

/-- A manager whose registry holds the expired `alice` and the unexpired `bob`. -/
def vmAliceBob : VPSManager := { Users := [aliceRecord, bobLater], Config := cfg, trace := [] }

/-- A record whose username is the single byte `0xFF`, which is not valid UTF-8. -/
def rawRecord : User :=
  { Username := [0xFF], Password := str "$2a$10$raw", ExpireDate := ⟨500, 0⟩,
    Protocols := recordedProtocols }

/-- A manager whose registry holds the record with the raw username. -/
def vmRaw : VPSManager := { Users := [rawRecord], Config := cfg, trace := [] }

/-- A clock reading more than two days after the Unix epoch. -/
def later : Time := ⟨200000000000000, 0⟩

/-- A location whose clock is put forward from one hour to two hours east of UTC at
01:00 UTC on 31 March 2024 and put back at 01:00 UTC on 27 October 2024. -/
def paris : Location :=
  { first := 3600, tx := [⟨1711846800, 7200⟩, ⟨1729990800, 3600⟩] }

/-- The instant 13:00 of 30 March 2024 on the clock of `paris`. -/
def lunchtime : Time := ⟨1711800000000000005, 3600⟩

/-- The instant 02:30 of 30 March 2024 on the clock of `paris`; one day later the clock
of `paris` skips the reading 02:30. -/
def smallHours : Time := ⟨1711762200000000000, 3600⟩

/-- A record whose expiry is read in a zone 19 minutes and 32 seconds east of UTC. -/
def lmtRecord : User :=
  { Username := str "carol", Password := str "$2a$10$lmt", ExpireDate := ⟨0, 1172⟩,
    Protocols := recordedProtocols }

/-- A manager whose registry holds the record with the raw username and the record with
the zone offset of 19 minutes and 32 seconds. -/
def vmOdd : VPSManager := { Users := [rawRecord, lmtRecord], Config := cfg, trace := [] }

/-- The users of a loaded manager, `none` when loading failed. -/
def loadedUsers : Except String VPSManager → Option (List User)
  | .ok vm => some vm.Users
  | .error _ => none

/-- An environment in which every `os.WriteFile` fails and everything else succeeds. -/
def envDiskFull : Env where
  outcome := fun _ e =>
    match e with
    | .writeFile _ _ => some "no space left on device"
    | _ => none
  GenerateFromPassword := (envFailing []).GenerateFromPassword
  ReadFile := (envFailing []).ReadFile
  Local := UTC

/-- A manager whose registry holds `alice`, then `bob`, then a second record for
`alice`. -/
def vmMixed : VPSManager :=
  { Users := [aliceRecord, bobLater, aliceSecond], Config := cfg, trace := [] }

end Vps

/-! # Theorems -/

namespace Vps

/-! ## Time: the calendar, the JSON text and `AddDate` -/

theorem yearDay_core (d n400 r1 q100 r2 n4 r3 q1 year yday : Int)
    (h1 : n400 = d / 146097) (h2 : r1 = d - 146097 * n400) (h3 : q100 = r1 / 36524)
    (h4 : r2 = r1 - 36524 * (q100 - q100 / 4)) (h5 : n4 = r2 / 1461)
    (h6 : r3 = r2 - 1461 * n4) (h7 : q1 = r3 / 365)
    (h8 : year = 400 * n400 + 100 * (q100 - q100 / 4) + 4 * n4 + (q1 - q1 / 4) + 1)
    (h9 : yday = r3 - 365 * (q1 - q1 / 4)) :
    daysSinceEpoch year + yday = d ∧ 0 ≤ yday
      ∧ (yday ≤ 364 ∨ (yday = 365 ∧ year % 4 = 0 ∧ (year % 100 ≠ 0 ∨ year % 400 = 0))) := by
  simp only [daysSinceEpoch]
  have hb1 : 0 ≤ r1 ∧ r1 ≤ 146096 := by omega
  have hq4 : q100 = 0 ∨ q100 = 1 ∨ q100 = 2 ∨ q100 = 3 ∨ q100 = 4 := by omega
  have hb2 : 0 ≤ r2 ∧ r2 ≤ 36524 ∧ (q100 ≤ 3 → r2 ≤ 36523) := by
    rcases hq4 with h | h | h | h | h <;> subst h <;> omega
  have hb4 : 0 ≤ n4 ∧ n4 ≤ 24 := by omega
  have hb3 : 0 ≤ r3 ∧ r3 ≤ 1460 ∧ (n4 = 24 → q100 ≤ 3 → r3 ≤ 1459) := by omega
  have hq14 : q1 = 0 ∨ q1 = 1 ∨ q1 = 2 ∨ q1 = 3 ∨ q1 = 4 := by omega
  rcases hq4 with h | h | h | h | h <;> subst h <;>
    rcases hq14 with h1 | h1 | h1 | h1 | h1 <;> subst h1 <;>
    (refine ⟨by omega, by omega, by omega⟩)

theorem yearDay_spec (d : Int) :
    daysSinceEpoch (yearDay d).1 + (yearDay d).2 = d
      ∧ 0 ≤ (yearDay d).2
      ∧ (yearDay d).2 < (if isLeap (yearDay d).1 then 366 else 365) := by
  have h := yearDay_core d _ _ _ _ _ _ _ (yearDay d).1 (yearDay d).2 rfl rfl rfl rfl rfl rfl rfl rfl rfl
  refine ⟨h.1, h.2.1, ?_⟩
  by_cases hl : isLeap (yearDay d).1 = true
  · rw [if_pos hl]
    omega
  · rw [if_neg hl]
    simp only [isLeap, decide_eq_true_eq] at hl
    omega

theorem daysBefore_values :
    daysBefore 0 = 0 ∧ daysBefore 1 = 31 ∧ daysBefore 2 = 59 ∧ daysBefore 3 = 90
      ∧ daysBefore 4 = 120 ∧ daysBefore 5 = 151 ∧ daysBefore 6 = 181 ∧ daysBefore 7 = 212
      ∧ daysBefore 8 = 243 ∧ daysBefore 9 = 273 ∧ daysBefore 10 = 304 ∧ daysBefore 11 = 334
      ∧ daysBefore 12 = 365 := by
  decide

theorem monthOf_spec (day : Int) (h0 : 0 ≤ day) (h1 : day ≤ 364) :
    ∃ m dd : Int,
      (if day ≥ daysBefore (day / 31 + 1) then (day / 31 + 2, day - daysBefore (day / 31 + 1) + 1)
        else (day / 31 + 1, day - daysBefore (day / 31) + 1)) = (m, dd)
      ∧ 1 ≤ m ∧ m ≤ 12 ∧ 1 ≤ dd ∧ dd ≤ daysBefore m - daysBefore (m - 1)
      ∧ daysBefore (m - 1) + (dd - 1) = day ∧ (3 ≤ m ↔ 59 ≤ day) := by
  obtain ⟨d0, d1, d2, d3, d4, d5, d6, d7, d8, d9, d10, d11, d12⟩ := daysBefore_values
  have hm : day / 31 = 0 ∨ day / 31 = 1 ∨ day / 31 = 2 ∨ day / 31 = 3 ∨ day / 31 = 4
      ∨ day / 31 = 5 ∨ day / 31 = 6 ∨ day / 31 = 7 ∨ day / 31 = 8 ∨ day / 31 = 9
      ∨ day / 31 = 10 ∨ day / 31 = 11 := by omega
  rcases hm with h | h | h | h | h | h | h | h | h | h | h | h <;> rw [h] <;>
    norm_num only [d0, d1, d2, d3, d4, d5, d6, d7, d8, d9, d10, d11, d12] <;>
    split_ifs <;>
    refine ⟨_, _, rfl, ?_⟩ <;>
    norm_num only [d0, d1, d2, d3, d4, d5, d6, d7, d8, d9, d10, d11, d12] <;>
    (try simp only [true_and, true_iff, false_iff]) <;>
    omega


theorem monthDay_spec (year yday : Int) (h0 : 0 ≤ yday)
    (h1 : yday < (if isLeap year then 366 else 365)) :
    1 ≤ (monthDay year yday).1 ∧ (monthDay year yday).1 ≤ 12
      ∧ 1 ≤ (monthDay year yday).2 ∧ (monthDay year yday).2 ≤ daysIn (monthDay year yday).1 year
      ∧ dateToDays year (monthDay year yday).1 (monthDay year yday).2
          = daysSinceEpoch year + yday := by
  obtain ⟨d0, d1, d2, d3, d4, d5, d6, d7, d8, d9, d10, d11, d12⟩ := daysBefore_values
  unfold monthDay dateToDays daysIn
  generalize daysSinceEpoch year = e
  by_cases hl : isLeap year = true
  · rw [if_pos hl] at h1
    by_cases h59 : yday = 59
    · simp only [hl, h59, and_self, if_true]
      norm_num only [d1, d2]
      simp only [true_and, and_false, if_false]
      omega
    · obtain ⟨m, dd, he, hm1, hm2, hd1, hd2, hsum, h3⟩ :=
        monthOf_spec (if yday > 59 then yday - 1 else yday) (by split_ifs <;> omega)
          (by split_ifs <;> omega)
      simp only [hl, h59, and_false, true_and, if_false]
      simp only [he]
      by_cases hm : m = 2
      · subst hm
        simp only [hl, and_self, if_true]
        norm_num only [d1, d2] at hsum hd2 h3 ⊢
        simp only [true_and, if_false, false_iff] at h3 ⊢
        split_ifs at hsum h3 ⊢ <;> omega
      · simp only [hm, false_and, if_false]
        split_ifs at hsum hd2 h3 ⊢ <;> omega
  · rw [if_neg hl] at h1
    obtain ⟨m, dd, he, hm1, hm2, hd1, hd2, hsum, h3⟩ := monthOf_spec yday h0 (by omega)
    have hf : isLeap year = false := by simpa using hl
    simp only [hf, Bool.false_eq_true, false_and, and_false, if_false]
    simp only [he]
    omega

theorem isDigit_digitByte (n : Int) (h0 : 0 ≤ n) (h1 : n ≤ 9) : isDigit (digitByte n) = true := by
  simp only [isDigit, digitByte, decide_eq_true_eq]
  omega

theorem digitByte_value (n : Int) (h0 : 0 ≤ n) : ((digitByte n : Nat) : Int) - 0x30 = n := by
  simp only [digitByte]
  omega

theorem parseUint_appendInt2 (x lo hi : Int) (h0 : 0 ≤ x) (h1 : x ≤ 99) (hlo : lo ≤ x)
    (hhi : x ≤ hi) : parseUint (appendInt2 x) lo hi = some x := by
  have hv : atoi (appendInt2 x) = x := by
    simp only [atoi, appendInt2, List.foldl_cons, List.foldl_nil]
    rw [digitByte_value _ (by omega), digitByte_value _ (by omega)]
    omega
  have hd : (appendInt2 x).all isDigit = true := by
    simp only [appendInt2, List.all_cons, List.all_nil, Bool.and_true, Bool.and_eq_true]
    exact ⟨isDigit_digitByte _ (by omega) (by omega), isDigit_digitByte _ (by omega) (by omega)⟩
  unfold parseUint
  rw [if_pos hd, hv, if_neg (by omega)]

theorem parseUint_appendInt4 (x lo hi : Int) (h0 : 0 ≤ x) (h1 : x ≤ 9999) (hlo : lo ≤ x)
    (hhi : x ≤ hi) : parseUint (appendInt4 x) lo hi = some x := by
  have hv : atoi (appendInt4 x) = x := by
    simp only [atoi, appendInt4, List.foldl_cons, List.foldl_nil]
    rw [digitByte_value _ (by omega), digitByte_value _ (by omega),
      digitByte_value _ (by omega), digitByte_value _ (by omega)]
    omega
  have hd : (appendInt4 x).all isDigit = true := by
    simp only [appendInt4, List.all_cons, List.all_nil, Bool.and_true, Bool.and_eq_true]
    exact ⟨isDigit_digitByte _ (by omega) (by omega), isDigit_digitByte _ (by omega) (by omega),
      isDigit_digitByte _ (by omega) (by omega), isDigit_digitByte _ (by omega) (by omega)⟩
  unfold parseUint
  rw [if_pos hd, hv, if_neg (by omega)]

theorem trimZeros_cons (c : Nat) (rest : List Nat) :
    trimZeros (c :: rest)
      = if trimZeros rest = [] then (if c = 0x30 then [] else [c]) else c :: trimZeros rest := by
  conv_lhs => unfold trimZeros
  cases trimZeros rest with
  | nil => simp
  | cons k ks => simp

theorem atoi_trimZeros (s : List Nat) (acc : Int) :
    s.foldl (fun (x : Int) (c : Nat) => x * 10 + ((c : Int) - 0x30)) acc
      = (trimZeros s).foldl (fun (x : Int) (c : Nat) => x * 10 + ((c : Int) - 0x30)) acc
          * 10 ^ (s.length - (trimZeros s).length)
      ∧ (trimZeros s).length ≤ s.length := by
  induction s generalizing acc with
  | nil => simp [trimZeros]
  | cons c rest ih =>
    obtain ⟨ih1, ih2⟩ := ih (acc * 10 + ((c : Int) - 0x30))
    rw [List.foldl_cons, ih1, trimZeros_cons]
    by_cases hk : trimZeros rest = []
    · rw [if_pos hk, hk]
      simp only [List.foldl_nil, List.length_nil, Nat.sub_zero, List.length_cons]
      by_cases hc : c = 0x30
      · rw [if_pos hc]
        simp only [hc, List.foldl_nil, List.length_nil, Nat.sub_zero, Nat.zero_le, and_true]
        rw [pow_succ]
        push_cast
        ring
      · rw [if_neg hc]
        simp only [List.foldl_cons, List.foldl_nil, List.length_cons, List.length_nil]
        refine ⟨?_, by omega⟩
        congr 2
    · rw [if_neg hk]
      simp only [List.foldl_cons, List.length_cons]
      refine ⟨?_, by omega⟩
      congr 2
      omega

theorem trimZeros_subset (s : List Nat) : ∀ c ∈ trimZeros s, c ∈ s := by
  induction s with
  | nil => simp [trimZeros]
  | cons a rest ih =>
    intro c hc
    rw [trimZeros_cons] at hc
    by_cases hk : trimZeros rest = []
    · rw [if_pos hk] at hc
      by_cases ha : a = 0x30
      · simp [ha] at hc
      · simp only [ha, if_false, List.mem_singleton] at hc
        simp [hc]
    · rw [if_neg hk] at hc
      simp only [List.mem_cons] at hc ⊢
      rcases hc with h | h
      · exact Or.inl h
      · exact Or.inr (ih c h)

theorem takeWhile_digits (ds rest : List Nat) (z : Nat) (hd : ∀ c ∈ ds, isDigit c = true)
    (hz : isDigit z = false) :
    (ds ++ z :: rest).takeWhile isDigit = ds ∧ (ds ++ z :: rest).dropWhile isDigit = z :: rest := by
  induction ds with
  | nil => simp [List.takeWhile, List.dropWhile, hz]
  | cons a as ih =>
    have ha : isDigit a = true := hd a (by simp)
    obtain ⟨i1, i2⟩ := ih (fun c hc => hd c (by simp [hc]))
    rw [List.cons_append, List.takeWhile_cons, List.dropWhile_cons, ha]
    simp only [if_true, i1, i2, and_self]

theorem appendInt9_spec (n : Int) (h0 : 0 ≤ n) (h1 : n < 1000000000) :
    atoi (appendInt9 n) = n ∧ (∀ c ∈ appendInt9 n, isDigit c = true)
      ∧ (appendInt9 n).length = 9 := by
  refine ⟨?_, ?_, rfl⟩
  · simp only [atoi, appendInt9, List.foldl_cons, List.foldl_nil]
    rw [digitByte_value _ (by omega), digitByte_value _ (by omega),
      digitByte_value _ (by omega), digitByte_value _ (by omega), digitByte_value _ (by omega),
      digitByte_value _ (by omega), digitByte_value _ (by omega), digitByte_value _ (by omega),
      digitByte_value _ (by omega)]
    omega
  · intro c hc
    simp only [appendInt9, List.mem_cons, List.mem_singleton, List.not_mem_nil, or_false] at hc
    rcases hc with h | h | h | h | h | h | h | h | h <;> subst h <;>
      exact isDigit_digitByte _ (by omega) (by omega)

theorem parseFraction_appendNano (n : Int) (h0 : 0 ≤ n) (h1 : n < 1000000000) (z : Nat)
    (rest : List Nat) (hz : isDigit z = false) (hdot : z ≠ 0x2E) :
    parseFraction (appendNano n ++ z :: rest) = (n, z :: rest) := by
  unfold appendNano
  by_cases hn : n = 0
  · subst hn
    simp only [if_true, List.nil_append]
    unfold parseFraction
    cases rest with
    | nil => rfl
    | cons d rest1 => simp [hdot]
  · simp only [hn, if_false]
    obtain ⟨hv, hdig, hlen⟩ := appendInt9_spec n h0 h1
    obtain ⟨hscale, hle⟩ := atoi_trimZeros (appendInt9 n) 0
    have hsub := trimZeros_subset (appendInt9 n)
    cases hk : trimZeros (appendInt9 n) with
    | nil =>
      rw [hk] at hscale
      simp only [List.foldl_nil, zero_mul] at hscale
      unfold atoi at hv
      omega
    | cons d ds =>
      rw [hk] at hsub hscale hle
      have hall : ∀ c ∈ d :: ds, isDigit c = true := fun c hc => hdig c (hsub c hc)
      obtain ⟨t1, t2⟩ := takeWhile_digits (d :: ds) rest z hall hz
      have hd : isDigit d = true := hall d (by simp)
      unfold parseFraction
      simp only [List.cons_append, hd, and_self, if_true]
      rw [List.cons_append] at t1 t2
      rw [t1, t2]
      unfold parseNanoseconds
      rw [hlen] at hle hscale
      have htake : (d :: ds).take 9 = d :: ds := List.take_of_length_le hle
      rw [htake]
      unfold atoi at hv ⊢
      rw [← hscale, hv]

theorem appendZone_head (off : Int) :
    ∃ z rest, appendZone off = z :: rest ∧ isDigit z = false ∧ z ≠ 0x2E := by
  unfold appendZone
  by_cases h0 : off = 0
  · exact ⟨0x5A, [], by simp [h0], by decide, by decide⟩
  · simp only [h0, if_false]
    split_ifs <;> exact ⟨_, _, rfl, by decide, by decide⟩

theorem parseZone_appendZone (unix nsec off : Int) (hmin : off % 60 = 0)
    (hh : ¬ (off ≠ 0 ∧ 24 ≤ (if 0 ≤ off then off / 60 else -off / 60) / 60)) :
    parseZone unix nsec (appendZone off)
      = some { nanos := (unix - off) * 1000000000 + nsec, offset := off } := by
  unfold appendZone
  by_cases h0 : off = 0
  · subst h0
    simp [parseZone]
  · simp only [h0, if_false]
    simp only [ne_eq, h0, not_false_eq_true, true_and, not_le] at hh
    by_cases hpos : 0 ≤ off
    · simp only [hpos, if_true] at hh ⊢
      rw [if_neg (by omega)]
      have h1 := parseUint_appendInt2 (off / 60 / 60) 0 23 (by omega) (by omega) (by omega)
        (by omega)
      have h2 := parseUint_appendInt2 (off / 60 % 60) 0 59 (by omega) (by omega) (by omega)
        (by omega)
      unfold appendInt2 at h1 h2 ⊢
      simp only [List.cons_append, List.nil_append, parseZone, h1, h2]
      simp only [show ¬ ((0x2B : Nat) = 0x2D) by decide, false_or, true_and, and_self, if_true,
        if_false]
      congr 2
      · omega
      · omega
    · simp only [hpos, if_false] at hh ⊢
      rw [if_pos (by omega)]
      have h1 := parseUint_appendInt2 (- -(-off / 60) / 60) 0 23 (by omega) (by omega) (by omega)
        (by omega)
      have h2 := parseUint_appendInt2 (- -(-off / 60) % 60) 0 59 (by omega) (by omega) (by omega)
        (by omega)
      unfold appendInt2 at h1 h2 ⊢
      simp only [List.cons_append, List.nil_append, parseZone, h1, h2]
      simp only [true_or, true_and, and_self, if_true]
      congr 2
      · omega
      · omega

theorem daysIn_le (m year : Int) (h1 : 1 ≤ m) (h2 : m ≤ 12) : daysIn m year ≤ 31 := by
  obtain ⟨d0, d1, d2, d3, d4, d5, d6, d7, d8, d9, d10, d11, d12⟩ := daysBefore_values
  unfold daysIn
  split_ifs
  · omega
  · have hm : m = 1 ∨ m = 2 ∨ m = 3 ∨ m = 4 ∨ m = 5 ∨ m = 6 ∨ m = 7 ∨ m = 8 ∨ m = 9 ∨ m = 10
        ∨ m = 11 ∨ m = 12 := by omega
    rcases hm with h | h | h | h | h | h | h | h | h | h | h | h <;> subst h <;>
      norm_num only [d0, d1, d2, d3, d4, d5, d6, d7, d8, d9, d10, d11, d12]

theorem absDate_spec (z : Int) :
    1 ≤ (absDate z).2.1 ∧ (absDate z).2.1 ≤ 12 ∧ 1 ≤ (absDate z).2.2
      ∧ (absDate z).2.2 ≤ daysIn (absDate z).2.1 (absDate z).1 ∧ (absDate z).2.2 ≤ 31
      ∧ dateToDays (absDate z).1 (absDate z).2.1 (absDate z).2.2 = z := by
  obtain ⟨hy1, hy2, hy3⟩ := yearDay_spec z
  obtain ⟨hm1, hm2, hd1, hd2, hsum⟩ := monthDay_spec (yearDay z).1 (yearDay z).2 hy2 hy3
  have hle := daysIn_le _ (yearDay z).1 hm1 hm2
  simp only [absDate]
  exact ⟨hm1, hm2, hd1, hd2, by omega, by omega⟩

theorem parseRFC3339_appendFormat (t : Time) (hmin : t.offset % 60 = 0)
    (hyear : 0 ≤ (absDate ((t.unixSec + t.offset + unixToInternal) / 86400)).1
      ∧ (absDate ((t.unixSec + t.offset + unixToInternal) / 86400)).1 ≤ 9999)
    (hzone : ¬ (t.offset ≠ 0 ∧ 24 ≤ (if 0 ≤ t.offset then t.offset / 60 else -t.offset / 60) / 60)) :
    parseRFC3339 t.appendFormatRFC3339 = some t := by
  obtain ⟨hm1, hm2, hd1, hd2, hd3, hsum⟩ :=
    absDate_spec ((t.unixSec + t.offset + unixToInternal) / 86400)
  simp only [Time.appendFormatRFC3339]
  generalize habs : t.unixSec + t.offset + unixToInternal = abs at *
  generalize hdate : absDate (abs / 86400) = date at *
  have hy := parseUint_appendInt4 date.1 0 9999 hyear.1 hyear.2 hyear.1 hyear.2
  have hmo := parseUint_appendInt2 date.2.1 1 12 (by omega) (by omega) hm1 hm2
  have hda := parseUint_appendInt2 date.2.2 1 (daysIn date.2.1 date.1) (by omega) (by omega)
    hd1 hd2
  have hh := parseUint_appendInt2 (abs % 86400 / 3600) 0 23 (by omega) (by omega) (by omega)
    (by omega)
  have hmi := parseUint_appendInt2 (abs % 86400 % 3600 / 60) 0 59 (by omega) (by omega)
    (by omega) (by omega)
  have hs := parseUint_appendInt2 (abs % 86400 % 60) 0 59 (by omega) (by omega) (by omega)
    (by omega)
  obtain ⟨z, rest, hz, hzd, hzdot⟩ := appendZone_head t.offset
  have hfrac := parseFraction_appendNano t.nsec (by unfold Time.nsec; omega)
    (by unfold Time.nsec; omega) z rest hzd hzdot
  have hzn := parseZone_appendZone
    (dateToDays date.1 date.2.1 date.2.2 * 86400 + abs % 86400 / 3600 * 3600
      + abs % 86400 % 3600 / 60 * 60 + abs % 86400 % 60 - unixToInternal) t.nsec t.offset hmin hzone
  rw [← hz] at hfrac
  simp only [appendInt4] at hy ⊢
  simp only [appendInt2] at hmo hda hh hmi hs ⊢
  simp only [List.cons_append, List.nil_append, List.append_assoc, parseRFC3339, hy, hmo, hda, hh,
    hmi, hs, hfrac, and_self, if_true, hzn]
  congr 1
  have hu : t.nanos = t.unixSec * 1000000000 + t.nsec := by
    unfold Time.unixSec Time.nsec
    omega
  cases t with
  | mk nanos offset =>
    simp only [Time.mk.injEq, and_true] at hu habs ⊢
    rw [hsum]
    have hclock : abs % 86400 / 3600 * 3600 + abs % 86400 % 3600 / 60 * 60 + abs % 86400 % 60
        = abs % 86400 := by omega
    have hunix : abs / 86400 * 86400 + abs % 86400 / 3600 * 3600 + abs % 86400 % 3600 / 60 * 60
        + abs % 86400 % 60 - unixToInternal - offset = Time.unixSec ⟨nanos, offset⟩ := by
      omega
    rw [hunix]
    omega

theorem UnmarshalJSON_MarshalJSON (t : Time) (lit : List Nat) (hm : t.MarshalJSON = .ok lit)
    (hmin : t.offset % 60 = 0) : Time.UnmarshalJSON lit = .ok t := by
  by_cases h1 : (absDate ((t.unixSec + t.offset + unixToInternal) / 86400)).1 < 0
      ∨ 9999 < (absDate ((t.unixSec + t.offset + unixToInternal) / 86400)).1
  · simp only [Time.MarshalJSON] at hm
    rw [if_pos h1] at hm
    cases hm
  · by_cases h2 : t.offset ≠ 0
        ∧ 24 ≤ (if 0 ≤ t.offset then t.offset / 60 else -t.offset / 60) / 60
    · simp only [Time.MarshalJSON] at hm
      rw [if_neg h1, if_pos h2] at hm
      cases hm
    · simp only [Time.MarshalJSON] at hm
      rw [if_neg h1, if_neg h2] at hm
      have hlit : lit = 0x22 :: (t.appendFormatRFC3339 ++ [0x22]) := by
        injection hm with hm
        rw [← hm]
        simp
      subst hlit
      have hp := parseRFC3339_appendFormat t hmin (by omega) h2
      have hlast : (t.appendFormatRFC3339 ++ [0x22]).getLast? = some 0x22 := by simp
      simp only [Time.UnmarshalJSON, hlast, List.dropLast_concat, and_self, if_true, hp]

theorem dateToDays_add (year month day days : Int) :
    dateToDays year month (day + days) = dateToDays year month day + days := by
  unfold dateToDays
  omega

theorem wrap64_of_fits (x : Int) (h1 : alpha ≤ x) (h2 : x ≤ omega) : wrap64 x = x := by
  unfold alpha at h1
  unfold omega at h2
  unfold wrap64
  omega

theorem AddDate_eq (loc : Location) (t : Time) (days : Int) :
    Time.AddDate loc t days =
      { nanos :=
          (wrap64 (wrap64 (wrap64 (loc.abs t - unixToInternal + days * 86400)
              - loc.dateOffset (wrap64 (loc.abs t - unixToInternal + days * 86400)))
            + unixToInternal) - unixToInternal) * 1000000000 + t.nsec
        offset :=
          (loc.lookup (wrap64 (wrap64 (loc.abs t - unixToInternal + days * 86400)
              - loc.dateOffset (wrap64 (loc.abs t - unixToInternal + days * 86400))))).offset } := by
  obtain ⟨_, _, _, _, _, hsum⟩ := absDate_spec (loc.abs t / 86400)
  have h : dateToDays (absDate (loc.abs t / 86400)).1 (absDate (loc.abs t / 86400)).2.1
      ((absDate (loc.abs t / 86400)).2.2 + days) * 86400 + loc.abs t % 86400 - unixToInternal
      = loc.abs t - unixToInternal + days * 86400 := by
    rw [dateToDays_add, hsum]
    omega
  simp only [Time.AddDate, h]

theorem AddDate_wrapped (loc : Location) (t : Time) (days : Int) :
    Time.AddDate loc t days =
      { nanos :=
          (wrap64 (wrap64 (wrap64 (loc.readingAfter t days)
              - loc.dateOffset (wrap64 (loc.readingAfter t days)))
            + unixToInternal) - unixToInternal) * 1000000000 + t.nsec
        offset :=
          (loc.lookup (wrap64 (wrap64 (loc.readingAfter t days)
              - loc.dateOffset (wrap64 (loc.readingAfter t days))))).offset } := by
  have h : loc.abs t - unixToInternal + days * 86400 = loc.readingAfter t days := by
    unfold Location.abs Location.readingAfter Location.wallClock
    omega
  rw [AddDate_eq, h]

theorem AddDate_of_fits (loc : Location) (t : Time) (days : Int) (h : AddDateFits loc t days) :
    Time.AddDate loc t days =
      { nanos := (loc.readingAfter t days - loc.dateOffset (loc.readingAfter t days)) * 1000000000
          + t.nsec
        offset := (loc.lookup
          (loc.readingAfter t days - loc.dateOffset (loc.readingAfter t days))).offset } := by
  obtain ⟨h1, h2, h3⟩ := h
  rw [AddDate_wrapped, wrap64_of_fits _ h1.1 h1.2, wrap64_of_fits _ h2.1 h2.2,
    wrap64_of_fits _ h3.1 h3.2]
  congr 2
  omega

theorem unixSec_mk (sec nsec offset : Int) (h0 : 0 ≤ nsec) (h1 : nsec < 1000000000) :
    Time.unixSec ⟨sec * 1000000000 + nsec, offset⟩ = sec
      ∧ Time.nsec ⟨sec * 1000000000 + nsec, offset⟩ = nsec := by
  simp only [Time.unixSec, Time.nsec]
  constructor <;> omega

theorem nsec_range (t : Time) : 0 ≤ t.nsec ∧ t.nsec < 1000000000 := by
  unfold Time.nsec
  constructor <;> omega

theorem dateOffset_constant (loc : Location) (c : Int) (hc : ∀ x, (loc.lookup x).offset = c)
    (unix : Int) : loc.dateOffset unix = c := by
  unfold Location.dateOffset
  simp only [hc]
  split_ifs with h1 h2
  · rfl
  · rfl
  · simp only [ne_eq, not_not] at h1
    exact h1.symm

/-- The expiry `AddDate` computes when none of its sums overflows. -/
theorem AddDate_spec (loc : Location) (t : Time) (days : Int) (h : AddDateFits loc t days) :
    (Time.AddDate loc t days).nsec = t.nsec
      ∧ (Time.AddDate loc t days).unixSec
          = loc.readingAfter t days - loc.dateOffset (loc.readingAfter t days)
      ∧ (loc.Shows (loc.readingAfter t days) →
          loc.wallClock (Time.AddDate loc t days) = loc.readingAfter t days)
      ∧ (∀ c, (∀ x, (loc.lookup x).offset = c) →
          (Time.AddDate loc t days).nanos = t.nanos + days * nanosPerDay) := by
  obtain ⟨hn0, hn1⟩ := nsec_range t
  rw [AddDate_of_fits loc t days h]
  obtain ⟨hsec, hnsec⟩ := unixSec_mk
    (loc.readingAfter t days - loc.dateOffset (loc.readingAfter t days)) t.nsec
    (loc.lookup (loc.readingAfter t days - loc.dateOffset (loc.readingAfter t days))).offset
    hn0 hn1
  refine ⟨hnsec, hsec, ?_, ?_⟩
  · intro hshow
    unfold Location.Shows at hshow
    unfold Location.wallClock
    rw [hsec, hshow]
    omega
  · intro c hc
    rw [dateOffset_constant loc c hc]
    have hw : loc.readingAfter t days = t.unixSec + c + days * 86400 := by
      unfold Location.readingAfter Location.wallClock
      rw [hc]
    rw [hw]
    simp only [Time.unixSec, Time.nsec, nanosPerDay]
    omega

theorem htmlSafe_of_isDigit (c : Nat) (h : isDigit c = true) : htmlSafe c = true := by
  simp only [isDigit, htmlSafe, decide_eq_true_eq] at h ⊢
  omega

theorem appendInt2_digits (x : Int) (h0 : 0 ≤ x) (h1 : x ≤ 99) :
    ∀ c ∈ appendInt2 x, htmlSafe c = true := by
  intro c hc
  simp only [appendInt2, List.mem_cons, List.mem_singleton, List.not_mem_nil, or_false] at hc
  rcases hc with h | h <;> subst h <;>
    exact htmlSafe_of_isDigit _ (isDigit_digitByte _ (by omega) (by omega))

theorem appendInt4_digits (x : Int) (h0 : 0 ≤ x) (h1 : x ≤ 9999) :
    ∀ c ∈ appendInt4 x, htmlSafe c = true := by
  intro c hc
  simp only [appendInt4, List.mem_cons, List.mem_singleton, List.not_mem_nil, or_false] at hc
  rcases hc with h | h | h | h <;> subst h <;>
    exact htmlSafe_of_isDigit _ (isDigit_digitByte _ (by omega) (by omega))

theorem appendNano_plain (n : Int) (h0 : 0 ≤ n) (h1 : n < 1000000000) :
    ∀ c ∈ appendNano n, htmlSafe c = true := by
  intro c hc
  unfold appendNano at hc
  split_ifs at hc
  · simp at hc
  · simp only [List.mem_cons] at hc
    rcases hc with h | h
    · subst h
      decide
    · exact htmlSafe_of_isDigit _ ((appendInt9_spec n h0 h1).2.1 c (trimZeros_subset _ c h))

theorem appendZone_plain (off : Int)
    (hh : ¬ (off ≠ 0 ∧ 24 ≤ (if 0 ≤ off then off / 60 else -off / 60) / 60)) :
    ∀ c ∈ appendZone off, htmlSafe c = true := by
  intro c hc
  unfold appendZone at hc
  by_cases h0 : off = 0
  · simp only [h0, if_true, List.mem_singleton] at hc
    subst hc
    decide
  · simp only [h0, if_false] at hc
    simp only [ne_eq, h0, not_false_eq_true, true_and, not_le] at hh
    by_cases hpos : 0 ≤ off
    · simp only [hpos, if_true] at hh hc
      rw [if_neg (by omega)] at hc
      simp only [List.mem_append, List.mem_singleton] at hc
      rcases hc with ((h | h) | h) | h
      · subst h; decide
      · exact appendInt2_digits _ (by omega) (by omega) c h
      · subst h; decide
      · exact appendInt2_digits _ (by omega) (by omega) c h
    · simp only [hpos, if_false] at hh hc
      by_cases hz : -(-off / 60) < 0
      · rw [if_pos hz] at hc
        simp only [List.mem_append, List.mem_singleton] at hc
        rcases hc with ((h | h) | h) | h
        · subst h; decide
        · exact appendInt2_digits _ (by omega) (by omega) c h
        · subst h; decide
        · exact appendInt2_digits _ (by omega) (by omega) c h
      · rw [if_neg hz] at hc
        simp only [List.mem_append, List.mem_singleton] at hc
        rcases hc with ((h | h) | h) | h
        · subst h; decide
        · exact appendInt2_digits _ (by omega) (by omega) c h
        · subst h; decide
        · exact appendInt2_digits _ (by omega) (by omega) c h

theorem appendFormat_plain (t : Time)
    (hyear : 0 ≤ (absDate ((t.unixSec + t.offset + unixToInternal) / 86400)).1
      ∧ (absDate ((t.unixSec + t.offset + unixToInternal) / 86400)).1 ≤ 9999)
    (hzone : ¬ (t.offset ≠ 0 ∧ 24 ≤ (if 0 ≤ t.offset then t.offset / 60 else -t.offset / 60) / 60)) :
    ∀ c ∈ t.appendFormatRFC3339, htmlSafe c = true := by
  obtain ⟨hm1, hm2, hd1, hd2, hd3, hsum⟩ :=
    absDate_spec ((t.unixSec + t.offset + unixToInternal) / 86400)
  obtain ⟨hn0, hn1⟩ := nsec_range t
  intro c hc
  simp only [Time.appendFormatRFC3339, List.mem_append, List.mem_singleton] at hc
  rcases hc with (((((((((((h | h) | h) | h) | h) | h) | h) | h) | h) | h) | h) | h) | h
  · exact appendInt4_digits _ hyear.1 hyear.2 c h
  · subst h; decide
  · exact appendInt2_digits _ (by omega) (by omega) c h
  · subst h; decide
  · exact appendInt2_digits _ (by omega) (by omega) c h
  · subst h; decide
  · exact appendInt2_digits _ (by omega) (by omega) c h
  · subst h; decide
  · exact appendInt2_digits _ (by omega) (by omega) c h
  · subst h; decide
  · exact appendInt2_digits _ (by omega) (by omega) c h
  · exact appendNano_plain _ hn0 hn1 c h
  · exact appendZone_plain _ hzone c h

/-- The literal of `MarshalJSON` passes the check of the encoder: `marshalTime` returns
it unchanged. -/
theorem marshalTime_of_MarshalJSON (t : Time) (lit : List Nat) (h : t.MarshalJSON = .ok lit) :
    marshalTime t = .ok lit := by
  have hp : plainLiteral lit = true := by
    by_cases h1 : (absDate ((t.unixSec + t.offset + unixToInternal) / 86400)).1 < 0
        ∨ 9999 < (absDate ((t.unixSec + t.offset + unixToInternal) / 86400)).1
    · simp only [Time.MarshalJSON] at h
      rw [if_pos h1] at h
      cases h
    · by_cases h2 : t.offset ≠ 0
          ∧ 24 ≤ (if 0 ≤ t.offset then t.offset / 60 else -t.offset / 60) / 60
      · simp only [Time.MarshalJSON] at h
        rw [if_neg h1, if_pos h2] at h
        cases h
      · simp only [Time.MarshalJSON] at h
        rw [if_neg h1, if_neg h2] at h
        injection h with h
        subst h
        have hall := appendFormat_plain t (by omega) h2
        simp only [plainLiteral, List.singleton_append, List.reverse_append, List.reverse_cons,
          List.reverse_nil, List.nil_append, List.cons_append, List.all_eq_true, List.mem_reverse]
        exact hall
  unfold marshalTime
  rw [h]
  simp only [hp, if_true]

/-! ## A failing run of `AddUser` -/

theorem stepOutcome_lt (env : Env) (vm : VPSManager) (username password : GoString)
    (k : Nat) (e : String) (h : stepOutcome env vm username password k = some e) : k < 8 := by
  by_contra hk
  have : (provisionCalls vm.Config username password).length ≤ k := by
    simp [provisionCalls]; omega
  simp [stepOutcome, List.getElem?_eq_none this] at h

/-- C1 (as corrected): when provisioning step `k` is the first to fail, every backend
before `k` receives exactly one compensating `RemoveUser` call (nothing is said here of
WebSocket when `k` is the SSL step), no backend after `k` receives a provisioning call,
and the registry is left as it was, so it holds no record of the identity unless it
already held one. -/
theorem AddUser_failure_compensates (env : Env) (now : Time) (vm : VPSManager)
    (username password : GoString) (days : Int) (k : Nat) (e : String)
    (hk : FirstFailure env vm username password k e) :
    (∀ b ∈ backendOrder.take k, (k = 3 → b ≠ .WebSocket) →
        (deprovisioned (effectsSince vm (AddUser env now vm username password days).2)).count b = 1)
      ∧ (∀ b ∈ backendOrder.drop (k + 1),
        b ∉ provisioned (effectsSince vm (AddUser env now vm username password days).2))
      ∧ (AddUser env now vm username password days).2.Users = vm.Users
      ∧ ((∀ u ∈ vm.Users, u.Username ≠ username) →
        ∀ u ∈ (AddUser env now vm username password days).2.Users, u.Username ≠ username) := by
  obtain ⟨⟨digest, hd⟩, hb, hf⟩ := hk
  have hk8 := stepOutcome_lt env vm username password k e hf
  have h0 := hb 0
  have h1 := hb 1
  have h2 := hb 2
  have h3 := hb 3
  have h4 := hb 4
  have h5 := hb 5
  have h6 := hb 6
  clear hb
  interval_cases k <;> simp [stepOutcome, provisionCalls] at h0 h1 h2 h3 h4 h5 h6 hf
  all_goals simp [AddUser, hd, provision, deprovision, perform, cleanup, effectsSince,
    backendOrder, deprovisioned, provisioned, *]

/-- Witness for C1: the UDP step fails for a new identity. -/
theorem AddUser_failure_compensates_witness :
    (∀ b ∈ backendOrder.take 6, (6 = 3 → b ≠ .WebSocket) →
        (deprovisioned (effectsSince vmEmpty
          (AddUser (envFailing [.provision .UDP [alice, secret]]) noon vmEmpty alice secret 30).2)).count b = 1)
      ∧ (∀ b ∈ backendOrder.drop (6 + 1),
        b ∉ provisioned (effectsSince vmEmpty
          (AddUser (envFailing [.provision .UDP [alice, secret]]) noon vmEmpty alice secret 30).2))
      ∧ (AddUser (envFailing [.provision .UDP [alice, secret]]) noon vmEmpty alice secret 30).2.Users
          = vmEmpty.Users
      ∧ ((∀ u ∈ vmEmpty.Users, u.Username ≠ alice) →
        ∀ u ∈ (AddUser (envFailing [.provision .UDP [alice, secret]]) noon vmEmpty alice secret 30).2.Users,
          u.Username ≠ alice) :=
  AddUser_failure_compensates (envFailing [.provision .UDP [alice, secret]]) noon vmEmpty alice
    secret 30 6 "failed"
    ⟨⟨_, rfl⟩, by intro j hj; interval_cases j <;> decide, by decide⟩

/-- C1 (counterexample): the registry already holds `alice`, a second `AddUser` for
`alice` fails at its first step (SSH), and the registry still contains the identity
afterward. -/
theorem AddUser_failure_counterexample :
    FirstFailure (envFailing [.provision .SSH [alice, secret]]) vmAlice alice secret 0 "failed"
      ∧ ∃ u ∈ (AddUser (envFailing [.provision .SSH [alice, secret]]) noon vmAlice alice secret 30).2.Users,
          u.Username = alice :=
  ⟨⟨⟨_, rfl⟩, by intro j hj; omega, by decide⟩, aliceRecord, by decide, rfl⟩

/-- The SSL step of `AddUser` fails: the WebSocket configuration written one step earlier
receives no compensating `RemoveUser` call; only SSH and Xray are compensated. -/
theorem AddUser_ssl_failure_leaves_websocket :
    FirstFailure (envFailing [.provision .SSL [aliceDomain]]) vmEmpty alice secret 3 "failed"
      ∧ deprovisioned (effectsSince vmEmpty
          (AddUser (envFailing [.provision .SSL [aliceDomain]]) noon vmEmpty alice secret 30).2)
        = [.SSH, .Xray] :=
  ⟨⟨⟨_, rfl⟩, by intro j hj; interval_cases j <;> decide, by decide⟩, by decide⟩

/-- C2 (as corrected): when provisioning step `k` is the first to fail with error `e`,
`AddUser` returns `e` itself whatever the compensating calls return, and the compensating
`RemoveUser` calls are made in provisioning order; when `k` is not the SSL step they go
to the backends before `k` if `k` is SSH, Xray or WebSocket, and to all eight backends, by
`cleanup`, if `k` is HTTP or later. -/
theorem AddUser_compensation_sequence (env : Env) (now : Time) (vm : VPSManager)
    (username password : GoString) (days : Int) (k : Nat) (e : String)
    (hk : FirstFailure env vm username password k e) :
    (AddUser env now vm username password days).1 = some e
      ∧ (deprovisioned (effectsSince vm (AddUser env now vm username password days).2)).Sublist
          backendOrder
      ∧ (k ≠ 3 →
          deprovisioned (effectsSince vm (AddUser env now vm username password days).2)
            = (if k < 3 then backendOrder.take k else backendOrder)) := by
  obtain ⟨⟨digest, hd⟩, hb, hf⟩ := hk
  have hk8 := stepOutcome_lt env vm username password k e hf
  have h0 := hb 0
  have h1 := hb 1
  have h2 := hb 2
  have h3 := hb 3
  have h4 := hb 4
  have h5 := hb 5
  have h6 := hb 6
  clear hb
  interval_cases k <;> simp [stepOutcome, provisionCalls] at h0 h1 h2 h3 h4 h5 h6 hf
  all_goals simp [AddUser, hd, provision, deprovision, perform, cleanup, effectsSince,
    backendOrder, deprovisioned, *]

/-- Witness for C2: the Squid step fails. -/
theorem AddUser_compensation_sequence_witness :
    (AddUser (envFailing [.provision .Squid [alice, secret]]) noon vmEmpty alice secret 30).1
        = some "failed"
      ∧ (deprovisioned (effectsSince vmEmpty
          (AddUser (envFailing [.provision .Squid [alice, secret]]) noon vmEmpty alice secret 30).2)).Sublist
          backendOrder
      ∧ (5 ≠ 3 →
          deprovisioned (effectsSince vmEmpty
            (AddUser (envFailing [.provision .Squid [alice, secret]]) noon vmEmpty alice secret 30).2)
          = (if 5 < 3 then backendOrder.take 5 else backendOrder)) :=
  AddUser_compensation_sequence (envFailing [.provision .Squid [alice, secret]]) noon vmEmpty
    alice secret 30 5 "failed"
    ⟨⟨_, rfl⟩, by intro j hj; interval_cases j <;> decide, by decide⟩

/-- C2 (counterexample): the WebSocket step fails; the compensating calls go to SSH and
then Xray, which is provisioning order, not the reverse order Xray, SSH. -/
theorem AddUser_compensation_counterexample :
    FirstFailure (envFailing [.provision .WebSocket [alice, aliceDomain]]) vmEmpty alice secret
        2 "failed"
      ∧ deprovisioned (effectsSince vmEmpty
          (AddUser (envFailing [.provision .WebSocket [alice, aliceDomain]]) noon vmEmpty alice
            secret 30).2) = [.SSH, .Xray]
      ∧ deprovisioned (effectsSince vmEmpty
          (AddUser (envFailing [.provision .WebSocket [alice, aliceDomain]]) noon vmEmpty alice
            secret 30).2) ≠ (backendOrder.take 2).reverse :=
  ⟨⟨⟨_, rfl⟩, by intro j hj; interval_cases j <;> decide, by decide⟩, by decide, by decide⟩

/-! ## The successful run of `AddUser` -/

theorem saveToFile_Users (env : Env) (vm : VPSManager) :
    (saveToFile env vm).2.Users = vm.Users := by
  unfold saveToFile
  split <;> simp [perform]

theorem saveToFile_Config (env : Env) (vm : VPSManager) :
    (saveToFile env vm).2.Config = vm.Config := by
  unfold saveToFile
  split <;> simp [perform]

/-- The effects of `saveToFile`: nothing when marshalling fails, else one file write. -/
theorem saveToFile_trace (env : Env) (vm : VPSManager) :
    (saveToFile env vm).2.trace = vm.trace
      ∨ ∃ data, (saveToFile env vm).2.trace = vm.trace ++ [.writeFile vm.Config.DbPath data] := by
  unfold saveToFile
  split
  · left; rfl
  · right; exact ⟨_, rfl⟩

/-- When hashing and all eight provisioning steps succeed, `AddUser` appends the new
record, writes the log line and returns what `saveToFile` returns. -/
theorem AddUser_all_succeed (env : Env) (now : Time) (vm : VPSManager)
    (username password digest : GoString) (days : Int)
    (hd : env.GenerateFromPassword vm.trace password = .ok digest)
    (hall : ∀ j < 8, stepOutcome env vm username password j = none) :
    AddUser env now vm username password days
      = saveToFile env (beforeSave env now vm username password digest days) := by
  have h0 := hall 0
  have h1 := hall 1
  have h2 := hall 2
  have h3 := hall 3
  have h4 := hall 4
  have h5 := hall 5
  have h6 := hall 6
  have h7 := hall 7
  simp [stepOutcome, provisionCalls] at h0 h1 h2 h3 h4 h5 h6 h7
  simp [AddUser, hd, provision, perform, newRecord, provisionCalls, beforeSave, *]

theorem provisioned_append (xs ys : List Effect) :
    provisioned (xs ++ ys) = provisioned xs ++ provisioned ys := by
  induction xs with
  | nil => rfl
  | cons x xs ih => cases x <;> simp [provisioned, ih]

theorem deprovisioned_append (xs ys : List Effect) :
    deprovisioned (xs ++ ys) = deprovisioned xs ++ deprovisioned ys := by
  induction xs with
  | nil => rfl
  | cons x xs ih => cases x <;> simp [deprovisioned, ih]

theorem findUser_append_of_absent (username : GoString) (users : List User) (r : User)
    (habsent : ∀ u ∈ users, u.Username ≠ username) (hr : r.Username = username) :
    findUser username (users ++ [r]) = some r := by
  induction users with
  | nil => simp [findUser, hr]
  | cons u us ih =>
    have hu : u.Username ≠ username := habsent u (by simp)
    simp only [List.cons_append, findUser, hu, if_false]
    exact ih (fun v hv => habsent v (by simp [hv]))

/-- The provisioning calls seen in the effects of a fully provisioned `AddUser`. -/
theorem provisioned_all_succeed (env : Env) (now : Time) (vm : VPSManager)
    (username password digest : GoString) (days : Int) :
    provisioned (effectsSince vm
      (saveToFile env (beforeSave env now vm username password digest days)).2) = backendOrder := by
  rcases saveToFile_trace env (beforeSave env now vm username password digest days) with h | ⟨d, h⟩
  all_goals
    rw [effectsSince, h]
    simp [beforeSave, logAction, perform, provisionCalls, provisioned, backendOrder]

/-- The protocol list `AddUser` records names each of the eight backends once. -/
theorem recordedProtocols_perm : recordedProtocols.Perm (backendOrder.map Backend.name) := by
  decide

/-- C3 (as corrected): when hashing, the eight provisioning calls and the save succeed,
the registry afterward is the previous registry with exactly one record appended; its
username is `username`, its password is the digest, its protocol list names exactly the
eight backends that were provisioned, and its expiry is `now.AddDate(0, 0, days)`.
Provided none of the 64-bit sums of `AddDate` overflows, that expiry is `now` plus `days`
calendar days: it has the nanoseconds of `now`, it is the instant of the reading of the
local clock `days` dates later less the zone offset `Date` settles on, the local clock
reads at it what it read at `now` plus `days` times 86400 seconds whenever the local
clock shows that reading, and in a location of constant offset it is `now` plus `days`
times 24 hours.  When no record had the username before, looking the username up returns
the new record. -/
theorem AddUser_success_record (env : Env) (now : Time) (vm : VPSManager)
    (username password digest : GoString) (days : Int)
    (hd : env.GenerateFromPassword vm.trace password = .ok digest)
    (hall : ∀ j < 8, stepOutcome env vm username password j = none)
    (_hsave : (AddUser env now vm username password days).1 = none) :
    ∃ r : User, (AddUser env now vm username password days).2.Users = vm.Users ++ [r]
      ∧ r.Username = username ∧ r.Password = digest
      ∧ r.ExpireDate = now.AddDate env.Local days
      ∧ (AddDateFits env.Local now days →
          r.ExpireDate.nsec = now.nsec
          ∧ r.ExpireDate.unixSec = env.Local.readingAfter now days
              - env.Local.dateOffset (env.Local.readingAfter now days)
          ∧ (env.Local.Shows (env.Local.readingAfter now days) →
              env.Local.wallClock r.ExpireDate = env.Local.wallClock now + days * 86400)
          ∧ (∀ c, (∀ x, (env.Local.lookup x).offset = c) →
              r.ExpireDate.nanos = now.nanos + days * nanosPerDay))
      ∧ provisioned (effectsSince vm (AddUser env now vm username password days).2) = backendOrder
      ∧ r.Protocols.Perm (backendOrder.map Backend.name)
      ∧ ((∀ u ∈ vm.Users, u.Username ≠ username) →
          findUser username (AddUser env now vm username password days).2.Users = some r) := by
  have hrun := AddUser_all_succeed env now vm username password digest days hd hall
  refine ⟨newRecord env.Local now username digest days, ?_, rfl, rfl, rfl, ?_, ?_,
    recordedProtocols_perm, ?_⟩
  · rw [hrun, saveToFile_Users]
    simp [beforeSave, logAction, perform]
  · intro hfits
    exact AddDate_spec env.Local now days hfits
  · rw [hrun]
    exact provisioned_all_succeed env now vm username password digest days
  · intro habsent
    rw [hrun, saveToFile_Users]
    simp only [beforeSave, logAction, perform]
    exact findUser_append_of_absent username vm.Users _ habsent rfl

set_option maxRecDepth 100000 in
/-- Witness for C3: `alice` is added to an empty registry for 30 days and everything
succeeds; the expiry is 30 times 24 hours after `noon`. -/
theorem AddUser_success_record_witness :
    (∃ r : User, (AddUser (envFailing []) noon vmEmpty alice secret 30).2.Users = vmEmpty.Users ++ [r]
      ∧ r.Username = alice ∧ r.Password = str "$2a$10$" ++ secret
      ∧ r.ExpireDate = noon.AddDate (envFailing []).Local 30
      ∧ (AddDateFits (envFailing []).Local noon 30 →
          r.ExpireDate.nsec = noon.nsec
          ∧ r.ExpireDate.unixSec = (envFailing []).Local.readingAfter noon 30
              - (envFailing []).Local.dateOffset ((envFailing []).Local.readingAfter noon 30)
          ∧ ((envFailing []).Local.Shows ((envFailing []).Local.readingAfter noon 30) →
              (envFailing []).Local.wallClock r.ExpireDate
                = (envFailing []).Local.wallClock noon + 30 * 86400)
          ∧ (∀ c, (∀ x, ((envFailing []).Local.lookup x).offset = c) →
              r.ExpireDate.nanos = noon.nanos + 30 * nanosPerDay))
      ∧ provisioned (effectsSince vmEmpty (AddUser (envFailing []) noon vmEmpty alice secret 30).2)
          = backendOrder
      ∧ r.Protocols.Perm (backendOrder.map Backend.name)
      ∧ ((∀ u ∈ vmEmpty.Users, u.Username ≠ alice) →
          findUser alice (AddUser (envFailing []) noon vmEmpty alice secret 30).2.Users = some r))
      ∧ AddDateFits (envFailing []).Local noon 30
      ∧ (envFailing []).Local.Shows ((envFailing []).Local.readingAfter noon 30)
      ∧ (∀ x, ((envFailing []).Local.lookup x).offset = 0)
      ∧ (AddUser (envFailing []) noon vmEmpty alice secret 30).2.Users
          = [{ Username := alice, Password := str "$2a$10$" ++ secret,
               ExpireDate := ⟨2593000000000000, 0⟩, Protocols := recordedProtocols }] :=
  ⟨AddUser_success_record (envFailing []) noon vmEmpty alice secret (str "$2a$10$" ++ secret) 30
      rfl (by intro j hj; interval_cases j <;> decide) (by decide),
    by decide, by decide, fun _ => rfl, by decide⟩

set_option maxRecDepth 100000 in
/-- C3 (counterexample): the registry already holds a record for `alice`, and `AddUser`
is called for `alice` with the largest number of days an `int` holds.  The call succeeds
and appends its record; the sum of `AddDate` overflows and the expiry is 24 hours before
the call-time `later`, not after it; and looking `alice` up returns the older record, not
the one just appended. -/
theorem AddUser_success_counterexample :
    (AddUser (envFailing []) later vmAlice alice secret 9223372036854775807).1 = none
      ∧ (AddUser (envFailing []) later vmAlice alice secret 9223372036854775807).2.Users
          = [aliceRecord,
              { Username := alice, Password := str "$2a$10$" ++ secret,
                ExpireDate := ⟨113600000000000, 0⟩, Protocols := recordedProtocols }]
      ∧ (113600000000000 : Int) = later.nanos - nanosPerDay
      ∧ (113600000000000 : Int) ≠ later.nanos + 9223372036854775807 * nanosPerDay
      ∧ findUser alice
          (AddUser (envFailing []) later vmAlice alice secret 9223372036854775807).2.Users
          = some aliceRecord
      ∧ aliceRecord.Password ≠ str "$2a$10$" ++ secret :=
  ⟨by decide, by decide, by decide, by decide, by decide, by decide⟩

/-- A day added across a clock change: from 13:00 on 30 March 2024 on the clock of
`paris`, `AddDate` by one day gives 13:00 on 31 March, which is 23 hours later. -/
theorem AddDate_across_clock_change :
    AddDateFits paris lunchtime 1 ∧ paris.Shows (paris.readingAfter lunchtime 1)
      ∧ (lunchtime.AddDate paris 1).nanos = lunchtime.nanos + 23 * 3600 * 1000000000
      ∧ paris.wallClock (lunchtime.AddDate paris 1) = paris.wallClock lunchtime + 86400 :=
  ⟨by decide, by decide, by decide, by decide⟩

/-- A day added into a skipped hour: one day after 02:30 on 30 March 2024 the clock of
`paris` does not show 02:30, and `AddDate` gives the instant at which it shows 03:30. -/
theorem AddDate_into_skipped_hour :
    AddDateFits paris smallHours 1 ∧ ¬ paris.Shows (paris.readingAfter smallHours 1)
      ∧ paris.wallClock (smallHours.AddDate paris 1) = paris.wallClock smallHours + 86400 + 3600 :=
  ⟨by decide, by decide, by decide⟩

/-- C4 (as corrected): `AddUser` does not look the identity up.  For a registry that
already contains a record with the username, when hashing, the eight provisioning calls
and the save succeed, `AddUser` returns success, has called the provisioning method of all
eight backends, and leaves the registry with its earlier records unchanged and in place,
followed by a second record for the username. -/
theorem AddUser_existing_identity (env : Env) (now : Time) (vm : VPSManager)
    (username password digest : GoString) (days : Int)
    (_hdup : ∃ u ∈ vm.Users, u.Username = username)
    (hd : env.GenerateFromPassword vm.trace password = .ok digest)
    (hall : ∀ j < 8, stepOutcome env vm username password j = none)
    (hsave : (saveToFile env (beforeSave env now vm username password digest days)).1 = none) :
    (AddUser env now vm username password days).1 = none
      ∧ provisioned (effectsSince vm (AddUser env now vm username password days).2) = backendOrder
      ∧ (AddUser env now vm username password days).2.Users
          = vm.Users ++ [newRecord env.Local now username digest days] := by
  have hrun := AddUser_all_succeed env now vm username password digest days hd hall
  refine ⟨by rw [hrun, hsave], ?_, ?_⟩
  · rw [hrun]
    exact provisioned_all_succeed env now vm username password digest days
  · rw [hrun, saveToFile_Users]
    simp [beforeSave, logAction, perform]

set_option maxRecDepth 100000 in
/-- Witness for C4: `alice` is added a second time. -/
theorem AddUser_existing_identity_witness :
    (AddUser (envFailing []) noon vmAlice alice secret 30).1 = none
      ∧ provisioned (effectsSince vmAlice (AddUser (envFailing []) noon vmAlice alice secret 30).2)
          = backendOrder
      ∧ (AddUser (envFailing []) noon vmAlice alice secret 30).2.Users
          = vmAlice.Users ++ [newRecord UTC noon alice (str "$2a$10$" ++ secret) 30] :=
  AddUser_existing_identity (envFailing []) noon vmAlice alice secret (str "$2a$10$" ++ secret) 30
    ⟨aliceRecord, by decide, rfl⟩ rfl (by intro j hj; interval_cases j <;> decide) (by decide)

set_option maxRecDepth 100000 in
/-- C4 (counterexample): the registry holds `alice`; `AddUser` for `alice` returns no
error, calls the provisioning method of every backend, and the registry grows to two
records. -/
theorem AddUser_duplicate_counterexample :
    (∃ u ∈ vmAlice.Users, u.Username = alice)
      ∧ (AddUser (envFailing []) noon vmAlice alice secret 30).1 = none
      ∧ provisioned (effectsSince vmAlice (AddUser (envFailing []) noon vmAlice alice secret 30).2)
          = backendOrder
      ∧ (AddUser (envFailing []) noon vmAlice alice secret 30).2.Users ≠ vmAlice.Users :=
  ⟨⟨aliceRecord, by decide, rfl⟩, by decide, by decide, by decide⟩

/-! ## `RemoveUser` -/

theorem removeFirst_none_iff (username : GoString) (users : List User) :
    removeFirst username users = none ↔ ∀ u ∈ users, u.Username ≠ username := by
  induction users with
  | nil => simp [removeFirst]
  | cons u us ih =>
    by_cases h : u.Username = username
    · simp [removeFirst, h]
    · cases hr : removeFirst username us with
      | none => simpa [removeFirst, h, hr] using ih.mp hr
      | some rest =>
        have hne : ¬ ∀ v ∈ us, v.Username ≠ username := fun hall => by
          rw [ih.mpr hall] at hr; cases hr
        simp only [removeFirst, h, hr, if_false, List.mem_cons, forall_eq_or_imp]
        constructor
        · intro hc; cases hc
        · intro hc; exact absurd hc.2 hne

/-- C5: for a username that matches no record, `RemoveUser` returns the error
`user not found`, leaves the registry unchanged and performs no effect at all: no backend
`RemoveUser` call and no file write. -/
theorem RemoveUser_absent (env : Env) (vm : VPSManager) (username : GoString)
    (habsent : ∀ u ∈ vm.Users, u.Username ≠ username) :
    (RemoveUser env vm username).1 = some "user not found"
      ∧ (RemoveUser env vm username).2.Users = vm.Users
      ∧ effectsSince vm (RemoveUser env vm username).2 = []
      ∧ deprovisioned (effectsSince vm (RemoveUser env vm username).2) = []
      ∧ fileWrites (effectsSince vm (RemoveUser env vm username).2) = [] := by
  have h := (removeFirst_none_iff username vm.Users).mpr habsent
  simp [RemoveUser, h, effectsSince, deprovisioned, fileWrites]

/-- Witness for C5: `bob` is removed from a registry that holds only `alice`, with every
backend ready to fail. -/
theorem RemoveUser_absent_witness :
    (RemoveUser (envFailing (teardownCalls (str "bob") backendOrder)) vmAlice (str "bob")).1
        = some "user not found"
      ∧ (RemoveUser (envFailing (teardownCalls (str "bob") backendOrder)) vmAlice (str "bob")).2.Users
        = vmAlice.Users
      ∧ effectsSince vmAlice
          (RemoveUser (envFailing (teardownCalls (str "bob") backendOrder)) vmAlice (str "bob")).2 = []
      ∧ deprovisioned (effectsSince vmAlice
          (RemoveUser (envFailing (teardownCalls (str "bob") backendOrder)) vmAlice (str "bob")).2) = []
      ∧ fileWrites (effectsSince vmAlice
          (RemoveUser (envFailing (teardownCalls (str "bob") backendOrder)) vmAlice (str "bob")).2) = [] :=
  RemoveUser_absent (envFailing (teardownCalls (str "bob") backendOrder)) vmAlice (str "bob")
    (by decide)

/-- The eight teardown steps of `RemoveUser`, as a fold over the backends. -/
theorem removeSteps_fold (env : Env) (username : GoString) (bs : List Backend)
    (errs : List String) (vm : VPSManager) :
    bs.foldl (fun acc b => removeStep env b (backendLabel b) username acc) (errs, vm)
      = (errs ++ failedEntries env username vm.trace bs,
          { vm with trace := vm.trace ++ teardownCalls username bs }) := by
  induction bs generalizing errs vm with
  | nil => simp [failedEntries, teardownCalls]
  | cons b bs ih =>
    rw [List.foldl_cons]
    cases h : env.outcome vm.trace (.deprovision b username) with
    | none =>
      have hstep : removeStep env b (backendLabel b) username (errs, vm)
          = (errs, { vm with trace := vm.trace ++ [.deprovision b username] }) := by
        simp [removeStep, deprovision, perform, h]
      rw [hstep, ih]
      simp [failedEntries, h, teardownCalls]
    | some err =>
      have hstep : removeStep env b (backendLabel b) username (errs, vm)
          = (errs ++ [backendLabel b ++ ": " ++ err],
              { vm with trace := vm.trace ++ [.deprovision b username] }) := by
        simp [removeStep, deprovision, perform, h]
      rw [hstep, ih]
      simp [failedEntries, h, teardownCalls]

/-- What `RemoveUser` does for a username it finds. -/
theorem RemoveUser_found (env : Env) (vm : VPSManager) (username : GoString) (users : List User)
    (h : removeFirst username vm.Users = some users) :
    RemoveUser env vm username
      = ((match (saveToFile env (afterTeardown vm username users)).1 with
            | some err =>
              some (aggregateError (failedEntries env username vm.trace backendOrder
                ++ ["Save to file: " ++ err]))
            | none =>
              if failedEntries env username vm.trace backendOrder = [] then none
              else some (aggregateError (failedEntries env username vm.trace backendOrder))),
          logAction env "RemoveUser" username (saveToFile env (afterTeardown vm username users)).2) := by
  have hfold := removeSteps_fold env username backendOrder [] { vm with Users := users }
  simp only [backendOrder, List.foldl_cons, List.foldl_nil, backendLabel, List.nil_append] at hfold
  simp only [RemoveUser, h, hfold, afterTeardown, backendOrder]
  cases hs : saveToFile env
      { Users := users, Config := vm.Config,
        trace := vm.trace ++ teardownCalls username
          [.SSH, .Xray, .WebSocket, .SSL, .HTTP, .Squid, .UDP, .Dropbear] } with
  | mk res vm1 =>
    cases res with
    | none =>
      cases hf : failedEntries env username vm.trace
          [.SSH, .Xray, .WebSocket, .SSL, .HTTP, .Squid, .UDP, .Dropbear] <;> simp
    | some err => simp

theorem entryAt_succ (env : Env) (trace : List Effect) (username : GoString) (b : Backend)
    (bs : List Backend) (j : Nat) :
    entryAt env trace username (b :: bs) (j + 1)
      = entryAt env (trace ++ [.deprovision b username]) username bs j := by
  simp [entryAt, teardownOutcome, teardownCalls]

/-- The collected entries are the entries of the failing calls, in call order. -/
theorem failedEntries_eq_filterMap (env : Env) (username : GoString) (trace : List Effect)
    (bs : List Backend) :
    failedEntries env username trace bs
      = (List.range bs.length).filterMap (entryAt env trace username bs) := by
  induction bs generalizing trace with
  | nil => simp [failedEntries]
  | cons b bs ih =>
    have hrange : List.range (b :: bs).length = 0 :: (List.range bs.length).map Nat.succ := by
      simp [List.range_succ_eq_map]
    have htail : List.filterMap (entryAt env trace username (b :: bs))
          ((List.range bs.length).map Nat.succ)
        = failedEntries env username (trace ++ [.deprovision b username]) bs := by
      rw [ih, List.filterMap_map]
      congr 1
      funext j
      simp only [Function.comp, Nat.succ_eq_add_one]
      exact entryAt_succ env trace username b bs j
    rw [hrange, List.filterMap_cons]
    cases h : env.outcome trace (.deprovision b username) with
    | none =>
      have h0 : entryAt env trace username (b :: bs) 0 = none := by
        simp [entryAt, teardownOutcome, teardownCalls, h]
      simp only [h0, htail, failedEntries, h]
    | some err =>
      have h0 : entryAt env trace username (b :: bs) 0 = some (backendLabel b ++ ": " ++ err) := by
        simp [entryAt, teardownOutcome, teardownCalls, h]
      simp only [h0, htail, failedEntries, h]

theorem removeFirst_mem (username : GoString) (users rest : List User)
    (h : removeFirst username users = some rest) : ∀ u ∈ rest, u ∈ users := by
  induction users generalizing rest with
  | nil => simp [removeFirst] at h
  | cons v vs ih =>
    by_cases hv : v.Username = username
    · simp only [removeFirst, hv, if_true, Option.some.injEq] at h
      subst h
      intro u hu
      exact List.mem_cons_of_mem _ hu
    · cases hr : removeFirst username vs with
      | none => simp [removeFirst, hv, hr] at h
      | some rest1 =>
        simp only [removeFirst, hv, hr, if_false, Option.some.injEq] at h
        subst h
        intro u hu
        rcases List.mem_cons.mp hu with rfl | hu
        · exact List.mem_cons_self _ _
        · exact List.mem_cons_of_mem _ (ih rest1 hr u hu)

/-- With pairwise distinct usernames, removing the first record of a username leaves no
record of it. -/
theorem removeFirst_nodup (username : GoString) (users rest : List User)
    (hnodup : (users.map (fun u => u.Username)).Nodup)
    (h : removeFirst username users = some rest) : ∀ u ∈ rest, u.Username ≠ username := by
  induction users generalizing rest with
  | nil => simp [removeFirst] at h
  | cons v vs ih =>
    rw [List.map_cons, List.nodup_cons] at hnodup
    by_cases hv : v.Username = username
    · simp only [removeFirst, hv, if_true, Option.some.injEq] at h
      subst h
      intro u hu heq
      exact hnodup.1 (List.mem_map.mpr ⟨u, hu, by rw [heq, hv]⟩)
    · cases hr : removeFirst username vs with
      | none => simp [removeFirst, hv, hr] at h
      | some rest1 =>
        simp only [removeFirst, hv, hr, if_false, Option.some.injEq] at h
        subst h
        intro u hu
        rcases List.mem_cons.mp hu with rfl | hu
        · exact hv
        · exact ih rest1 hnodup.2 hr u hu

theorem removeFirst_of_present (username : GoString) (users : List User)
    (h : ∃ u ∈ users, u.Username = username) : ∃ rest, removeFirst username users = some rest := by
  cases hr : removeFirst username users with
  | some rest => exact ⟨rest, rfl⟩
  | none =>
    obtain ⟨u, hu, hname⟩ := h
    exact absurd hname ((removeFirst_none_iff username users).mp hr u hu)

theorem removeFirst_split (username : GoString) (users rest : List User)
    (h : removeFirst username users = some rest) :
    ∃ before u after, users = before ++ u :: after ∧ u.Username = username
      ∧ (∀ v ∈ before, v.Username ≠ username) ∧ rest = before ++ after := by
  induction users generalizing rest with
  | nil => simp [removeFirst] at h
  | cons v vs ih =>
    by_cases hv : v.Username = username
    · simp only [removeFirst, hv, if_true, Option.some.injEq] at h
      exact ⟨[], v, vs, rfl, hv, by simp, by simp [h]⟩
    · cases hr : removeFirst username vs with
      | none => simp [removeFirst, hv, hr] at h
      | some rest1 =>
        simp only [removeFirst, hv, hr, if_false, Option.some.injEq] at h
        obtain ⟨before, u, after, hsplit, hu, hbefore, hrest⟩ := ih rest1 hr
        refine ⟨v :: before, u, after, by simp [hsplit], hu, ?_, by simp [← h, hrest]⟩
        intro w hw
        rcases List.mem_cons.mp hw with rfl | hw
        · exact hv
        · exact hbefore w hw

/-- The effects of a `RemoveUser` that finds the username: the eight teardown calls, the
effects of `saveToFile`, the log line. -/
theorem RemoveUser_found_trace (env : Env) (vm : VPSManager) (username : GoString)
    (users : List User) (h : removeFirst username vm.Users = some users) :
    ∃ saved : List Effect, (saved = [] ∨ ∃ data, saved = [.writeFile vm.Config.DbPath data])
      ∧ effectsSince vm (RemoveUser env vm username).2
        = teardownCalls username backendOrder ++ saved ++ [.log "RemoveUser" username] := by
  rw [RemoveUser_found env vm username users h]
  rcases saveToFile_trace env (afterTeardown vm username users) with ht | ⟨data, ht⟩
  · refine ⟨[], Or.inl rfl, ?_⟩
    simp only [effectsSince, logAction, perform]
    rw [ht]
    simp [afterTeardown]
  · refine ⟨[.writeFile vm.Config.DbPath data], Or.inr ⟨data, rfl⟩, ?_⟩
    simp only [effectsSince, logAction, perform]
    rw [ht]
    simp [afterTeardown]

theorem RemoveUser_found_Users (env : Env) (vm : VPSManager) (username : GoString)
    (users : List User) (h : removeFirst username vm.Users = some users) :
    (RemoveUser env vm username).2.Users = users := by
  rw [RemoveUser_found env vm username users h]
  simp [logAction, perform, saveToFile_Users, afterTeardown]

/-- C6 (as corrected): for a registry containing the identity and every pattern of
backend failures, `RemoveUser` calls `RemoveUser` on each of the eight backends exactly
once, in order, so on every backend recorded for the account; afterward the first record
with that identity is gone, and when the usernames of the registry were pairwise distinct
no record with that identity remains. -/
theorem RemoveUser_teardown (env : Env) (vm : VPSManager) (username : GoString)
    (hpresent : ∃ u ∈ vm.Users, u.Username = username) :
    deprovisioned (effectsSince vm (RemoveUser env vm username).2) = backendOrder
      ∧ (∀ u, findUser username vm.Users = some u → ∀ b : Backend, b.name ∈ u.Protocols →
          (deprovisioned (effectsSince vm (RemoveUser env vm username).2)).count b = 1)
      ∧ removeFirst username vm.Users = some (RemoveUser env vm username).2.Users
      ∧ ((vm.Users.map (fun u => u.Username)).Nodup →
          ∀ u ∈ (RemoveUser env vm username).2.Users, u.Username ≠ username) := by
  obtain ⟨users, hrem⟩ := removeFirst_of_present username vm.Users hpresent
  obtain ⟨saved, hsaved, htrace⟩ := RemoveUser_found_trace env vm username users hrem
  have hdep : deprovisioned (effectsSince vm (RemoveUser env vm username).2) = backendOrder := by
    rw [htrace]
    rcases hsaved with rfl | ⟨data, rfl⟩ <;>
      simp [deprovisioned_append, teardownCalls, backendOrder, deprovisioned]
  have husers := RemoveUser_found_Users env vm username users hrem
  refine ⟨hdep, ?_, by rw [husers, hrem], ?_⟩
  · intro u _ b _
    rw [hdep]
    cases b <;> decide
  · intro hnodup
    rw [husers]
    exact removeFirst_nodup username vm.Users users hnodup hrem

set_option maxRecDepth 100000 in
/-- Witness for C6: `alice` is removed while every backend fails. -/
theorem RemoveUser_teardown_witness :
    deprovisioned (effectsSince vmAlice
        (RemoveUser (envFailing (teardownCalls alice backendOrder)) vmAlice alice).2) = backendOrder
      ∧ (∀ u, findUser alice vmAlice.Users = some u → ∀ b : Backend, b.name ∈ u.Protocols →
          (deprovisioned (effectsSince vmAlice
            (RemoveUser (envFailing (teardownCalls alice backendOrder)) vmAlice alice).2)).count b = 1)
      ∧ removeFirst alice vmAlice.Users
          = some (RemoveUser (envFailing (teardownCalls alice backendOrder)) vmAlice alice).2.Users
      ∧ ((vmAlice.Users.map (fun u => u.Username)).Nodup →
          ∀ u ∈ (RemoveUser (envFailing (teardownCalls alice backendOrder)) vmAlice alice).2.Users,
            u.Username ≠ alice) :=
  RemoveUser_teardown (envFailing (teardownCalls alice backendOrder)) vmAlice alice
    ⟨aliceRecord, by decide, rfl⟩

set_option maxRecDepth 100000 in
/-- C6 (counterexample): the registry holds two records for `alice`; after `RemoveUser`
for `alice`, with every backend succeeding, a record with that identity remains. -/
theorem RemoveUser_teardown_counterexample :
    (RemoveUser (envFailing []) vmTwice alice).2.Users = [aliceSecond]
      ∧ ∃ u ∈ (RemoveUser (envFailing []) vmTwice alice).2.Users, u.Username = alice :=
  ⟨by decide, aliceSecond, by decide, rfl⟩

theorem entryAt_eq_none_iff (env : Env) (trace : List Effect) (username : GoString) (j : Nat) :
    entryAt env trace username backendOrder j = none
      ↔ teardownOutcome env trace username backendOrder j = none := by
  unfold entryAt
  cases hb : backendOrder[j]? with
  | none => simp [teardownOutcome, hb]
  | some b => cases ho : teardownOutcome env trace username backendOrder j <;> simp

/-- C7 (as corrected): for a `RemoveUser` call on an existing identity whose save
succeeds, the result is success exactly when none of the eight backend `RemoveUser` calls
failed, whatever backends the record lists (an empty protocol list does not by itself
give success); otherwise the result is the single aggregate error built from one entry
`<label>: <error>` for every backend whose call failed, in call order. -/
theorem RemoveUser_result (env : Env) (vm : VPSManager) (username : GoString)
    (users : List User) (hrem : removeFirst username vm.Users = some users)
    (hsave : (saveToFile env (afterTeardown vm username users)).1 = none) :
    ((RemoveUser env vm username).1 = none
        ↔ ∀ j < 8, teardownOutcome env vm.trace username backendOrder j = none)
      ∧ ((RemoveUser env vm username).1 ≠ none →
          (RemoveUser env vm username).1
            = some (aggregateError (failedEntries env username vm.trace backendOrder)))
      ∧ failedEntries env username vm.trace backendOrder
          = (List.range 8).filterMap (entryAt env vm.trace username backendOrder) := by
  have hentries := failedEntries_eq_filterMap env username vm.trace backendOrder
  have hlen : backendOrder.length = 8 := rfl
  rw [hlen] at hentries
  have hnil : failedEntries env username vm.trace backendOrder = []
      ↔ ∀ j < 8, teardownOutcome env vm.trace username backendOrder j = none := by
    rw [hentries, List.filterMap_eq_nil_iff]
    constructor
    · intro h j hj
      exact (entryAt_eq_none_iff env vm.trace username j).mp (h j (List.mem_range.mpr hj))
    · intro h j hj
      exact (entryAt_eq_none_iff env vm.trace username j).mpr (h j (List.mem_range.mp hj))
  rw [RemoveUser_found env vm username users hrem]
  simp only [hsave]
  refine ⟨?_, ?_, hentries⟩
  · rw [← hnil]
    by_cases hf : failedEntries env username vm.trace backendOrder = [] <;> simp [hf]
  · by_cases hf : failedEntries env username vm.trace backendOrder = [] <;> simp [hf]

set_option maxRecDepth 100000 in
/-- Witness for C7: `alice` is removed while the Xray and UDP backends fail. -/
theorem RemoveUser_result_witness :
    ((RemoveUser (envFailing [.deprovision .Xray alice, .deprovision .UDP alice]) vmAlice alice).1
          = none
        ↔ ∀ j < 8, teardownOutcome (envFailing [.deprovision .Xray alice, .deprovision .UDP alice])
            vmAlice.trace alice backendOrder j = none)
      ∧ ((RemoveUser (envFailing [.deprovision .Xray alice, .deprovision .UDP alice]) vmAlice
            alice).1 ≠ none →
          (RemoveUser (envFailing [.deprovision .Xray alice, .deprovision .UDP alice]) vmAlice alice).1
            = some (aggregateError (failedEntries
                (envFailing [.deprovision .Xray alice, .deprovision .UDP alice]) alice vmAlice.trace
                backendOrder)))
      ∧ failedEntries (envFailing [.deprovision .Xray alice, .deprovision .UDP alice]) alice
            vmAlice.trace backendOrder
          = (List.range 8).filterMap (entryAt
              (envFailing [.deprovision .Xray alice, .deprovision .UDP alice]) vmAlice.trace alice
              backendOrder) :=
  RemoveUser_result (envFailing [.deprovision .Xray alice, .deprovision .UDP alice]) vmAlice alice
    [] (by decide) (by decide)

set_option maxRecDepth 100000 in
/-- C7 (counterexample): the record of `bob` lists no backend and the save succeeds, yet
`RemoveUser` calls the SSH backend, which fails, and the result is an error, not
success. -/
theorem RemoveUser_result_counterexample :
    findUser (str "bob") vmBob.Users = some bobBare ∧ bobBare.Protocols = []
      ∧ (saveToFile (envFailing [.deprovision .SSH (str "bob")])
          (afterTeardown vmBob (str "bob") [])).1 = none
      ∧ (RemoveUser (envFailing [.deprovision .SSH (str "bob")]) vmBob (str "bob")).1
          = some "errors removing user: [SSH: failed]" :=
  ⟨by decide, rfl, by decide, by decide⟩

/-! ## `CheckExpiredUsers` -/

theorem announced_append (xs ys : List Effect) :
    announced (xs ++ ys) = announced xs ++ announced ys := by
  induction xs with
  | nil => rfl
  | cons x xs ih => cases x <;> simp [announced, ih]

theorem RemoveUser_Users (env : Env) (vm : VPSManager) (username : GoString) :
    (RemoveUser env vm username).2.Users = eraseUser username vm.Users := by
  cases h : removeFirst username vm.Users with
  | none => simp [RemoveUser, eraseUser, h]
  | some users => rw [RemoveUser_found_Users env vm username users h, eraseUser, h]

/-- The effects of `RemoveUser` extend the trace and announce nothing. -/
theorem RemoveUser_trace (env : Env) (vm : VPSManager) (username : GoString) :
    ∃ es, (RemoveUser env vm username).2.trace = vm.trace ++ es ∧ announced es = [] := by
  cases h : removeFirst username vm.Users with
  | none => exact ⟨[], by simp [RemoveUser, h], rfl⟩
  | some users =>
    rw [RemoveUser_found env vm username users h]
    rcases saveToFile_trace env (afterTeardown vm username users) with ht | ⟨data, ht⟩
    · refine ⟨teardownCalls username backendOrder ++ [.log "RemoveUser" username], ?_, ?_⟩
      · simp only [logAction, perform]
        rw [ht]
        simp [afterTeardown]
      · simp [announced_append, teardownCalls, backendOrder, announced]
    · refine ⟨teardownCalls username backendOrder
          ++ [.writeFile vm.Config.DbPath data, .log "RemoveUser" username], ?_, ?_⟩
      · simp only [logAction, perform]
        rw [ht]
        simp [afterTeardown]
      · simp [announced_append, teardownCalls, backendOrder, announced]

theorem removeExpired_Users (env : Env) (names : List GoString) (vm : VPSManager) :
    (removeExpired env names vm).Users
      = names.foldl (fun users name => eraseUser name users) vm.Users := by
  induction names generalizing vm with
  | nil => rfl
  | cons name names ih =>
    simp only [removeExpired, List.foldl_cons]
    rw [ih, RemoveUser_Users]
    simp [perform]

/-- The sweep announces exactly the usernames it was given, in order. -/
theorem removeExpired_trace (env : Env) (names : List GoString) (vm : VPSManager) :
    ∃ es, (removeExpired env names vm).trace = vm.trace ++ es ∧ announced es = names := by
  induction names generalizing vm with
  | nil => exact ⟨[], by simp [removeExpired], rfl⟩
  | cons name names ih =>
    simp only [removeExpired]
    obtain ⟨es1, h1, ha1⟩ := RemoveUser_trace env (perform env (.stdout name) vm).2 name
    obtain ⟨es2, h2, ha2⟩ := ih (RemoveUser env (perform env (.stdout name) vm).2 name).2
    refine ⟨[.stdout name] ++ es1 ++ es2, ?_, ?_⟩
    · rw [h2, h1]
      simp [perform]
    · simp [announced_append, announced, ha1, ha2]

theorem expiredUsernames_eq_filter (now : Time) (users : List User) :
    expiredUsernames now users
      = (users.filter (fun u => decide (u.ExpireDate.nanos < now.nanos))).map
          (fun u => u.Username) := by
  induction users with
  | nil => rfl
  | cons u us ih =>
    by_cases h : u.ExpireDate.nanos < now.nanos
    · simp [expiredUsernames, Time.After, h, ih]
    · simp [expiredUsernames, Time.After, h, ih]

theorem teardowns_append (xs ys : List Effect) :
    teardowns (xs ++ ys) = teardowns xs ++ teardowns ys := by
  induction xs with
  | nil => rfl
  | cons x xs ih => cases x <;> simp [teardowns, ih]

theorem teardowns_teardownCalls (username : GoString) (bs : List Backend) :
    teardowns (teardownCalls username bs) = teardownCalls username bs := by
  induction bs with
  | nil => rfl
  | cons b bs ih =>
    simp only [teardownCalls, List.map_cons, teardowns] at ih ⊢
    rw [ih]

theorem removeFirst_usernames (username : GoString) (users rest : List User)
    (h : removeFirst username users = some rest) :
    rest.map (fun u => u.Username) = (users.map (fun u => u.Username)).erase username := by
  induction users generalizing rest with
  | nil => simp [removeFirst] at h
  | cons v vs ih =>
    by_cases hv : v.Username = username
    · simp only [removeFirst, hv, if_true, Option.some.injEq] at h
      subst h
      simp [hv]
    · cases hr : removeFirst username vs with
      | none => simp [removeFirst, hv, hr] at h
      | some rest1 =>
        simp only [removeFirst, hv, hr, if_false, Option.some.injEq] at h
        subst h
        simp only [List.map_cons]
        rw [List.erase_cons_tail (by simpa using hv), ih rest1 hr]

theorem expiredUsernames_count_le (now : Time) (users : List User) (name : GoString) :
    (expiredUsernames now users).count name ≤ (users.map (fun u => u.Username)).count name := by
  rw [expiredUsernames_eq_filter]
  exact List.Sublist.count_le (List.Sublist.map _ (List.filter_sublist _)) name

/-- A sweep over usernames of which the registry holds at least as many records as the
list holds occurrences: every `RemoveUser` finds a record, calls the eight backends and
takes one record out. -/
theorem removeExpired_found (env : Env) (names : List GoString) (vm : VPSManager)
    (hcov : ∀ name, names.count name ≤ (vm.Users.map (fun u => u.Username)).count name) :
    ∃ es, (removeExpired env names vm).trace = vm.trace ++ es
      ∧ teardowns es = sweepCalls names
      ∧ (removeExpired env names vm).Users.length + names.length = vm.Users.length := by
  induction names generalizing vm with
  | nil => exact ⟨[], by simp [removeExpired], rfl, rfl⟩
  | cons name names ih =>
    have hmem : name ∈ vm.Users.map (fun u => u.Username) := by
      have h1 := hcov name
      rw [List.count_cons_self] at h1
      exact List.one_le_count_iff.mp (by omega)
    obtain ⟨u, hu, hname⟩ := List.mem_map.mp hmem
    obtain ⟨users, hrem⟩ := removeFirst_of_present name (perform env (.stdout name) vm).2.Users
      ⟨u, hu, hname⟩
    have husers := RemoveUser_found_Users env (perform env (.stdout name) vm).2 name users hrem
    obtain ⟨saved, hsaved, heff⟩ :=
      RemoveUser_found_trace env (perform env (.stdout name) vm).2 name users hrem
    obtain ⟨es1, h1, _⟩ := RemoveUser_trace env (perform env (.stdout name) vm).2 name
    have hes1 : es1 = teardownCalls name backendOrder ++ saved ++ [.log "RemoveUser" name] := by
      rw [← heff, effectsSince, h1]
      simp
    have hcov2 : ∀ m, names.count m
        ≤ ((RemoveUser env (perform env (.stdout name) vm).2 name).2.Users.map
            (fun u => u.Username)).count m := by
      intro m
      rw [husers, removeFirst_usernames name _ users hrem]
      have hm := hcov m
      by_cases hmn : m = name
      · subst hmn
        rw [List.count_cons_self] at hm
        rw [List.count_erase_self]
        simp only [perform] at hm ⊢
        omega
      · rw [List.count_cons_of_ne hmn] at hm
        rw [List.count_erase_of_ne hmn]
        simpa [perform] using hm
    obtain ⟨es2, h2, ht2, hl2⟩ :=
      ih (RemoveUser env (perform env (.stdout name) vm).2 name).2 hcov2
    have hlen : users.length + 1 = vm.Users.length := by
      obtain ⟨before, w, after, hsplit, _, _, hrest⟩ := removeFirst_split name _ users hrem
      simp only [perform] at hsplit
      rw [hsplit, hrest]
      simp
      omega
    refine ⟨[.stdout name] ++ es1 ++ es2, ?_, ?_, ?_⟩
    · simp only [removeExpired]
      rw [h2, h1]
      simp [perform]
    · rw [teardowns_append, teardowns_append, ht2, hes1, teardowns_append, teardowns_append,
        teardowns_teardownCalls]
      have hs : teardowns saved = [] := by
        rcases hsaved with rfl | ⟨data, rfl⟩ <;> rfl
      rw [hs]
      simp [teardowns, sweepCalls]
    · simp only [removeExpired, List.length_cons]
      rw [husers] at hl2
      omega

theorem eraseUser_cons_self (u : User) (users : List User) :
    eraseUser u.Username (u :: users) = users := by
  simp [eraseUser, removeFirst]

theorem eraseUser_cons_of_ne (name : GoString) (u : User) (users : List User)
    (h : u.Username ≠ name) : eraseUser name (u :: users) = u :: eraseUser name users := by
  cases hr : removeFirst name users <;> simp [eraseUser, removeFirst, h, hr]

theorem foldl_eraseUser_cons (names : List GoString) (u : User) (users : List User)
    (h : u.Username ∉ names) :
    names.foldl (fun us name => eraseUser name us) (u :: users)
      = u :: names.foldl (fun us name => eraseUser name us) users := by
  induction names generalizing users with
  | nil => rfl
  | cons name names ih =>
    have hne : u.Username ≠ name := fun heq => h (by simp [heq])
    have hrest : u.Username ∉ names := fun hmem => h (List.mem_cons_of_mem _ hmem)
    simp only [List.foldl_cons]
    rw [eraseUser_cons_of_ne name u users hne, ih _ hrest]

theorem expiredUsernames_subset (now : Time) (users : List User) (name : GoString)
    (h : name ∈ expiredUsernames now users) : name ∈ users.map (fun u => u.Username) := by
  rw [expiredUsernames_eq_filter] at h
  obtain ⟨u, hu, hname⟩ := List.mem_map.mp h
  exact List.mem_map.mpr ⟨u, (List.mem_filter.mp hu).1, hname⟩

/-- With pairwise distinct usernames, erasing the selected usernames one after the other
leaves exactly the records that were not selected, in their order. -/
theorem sweep_keeps_unexpired (now : Time) (users : List User)
    (hnodup : (users.map (fun u => u.Username)).Nodup) :
    (expiredUsernames now users).foldl (fun us name => eraseUser name us) users
      = users.filter (fun u => !now.After u.ExpireDate) := by
  induction users with
  | nil => rfl
  | cons u us ih =>
    rw [List.map_cons, List.nodup_cons] at hnodup
    by_cases h : now.After u.ExpireDate = true
    · simp only [expiredUsernames, h, if_true, List.foldl_cons, eraseUser_cons_self]
      rw [ih hnodup.2]
      simp [h]
    · have hnot : u.Username ∉ expiredUsernames now us :=
        fun hmem => hnodup.1 (expiredUsernames_subset now us _ hmem)
      simp only [expiredUsernames, h]
      rw [if_neg (by simp), foldl_eraseUser_cons _ u us hnot, ih hnodup.2]
      simp [h]

theorem expiredUsernames_filter_unexpired (now : Time) (users : List User) :
    expiredUsernames now (users.filter (fun u => !now.After u.ExpireDate)) = [] := by
  induction users with
  | nil => rfl
  | cons u us ih =>
    by_cases h : now.After u.ExpireDate = true
    · simpa [List.filter, h] using ih
    · simp only [Bool.not_eq_true] at h
      simp [List.filter, h, expiredUsernames, ih]

/-- C8 (as corrected): for every registry and time `now`, the sweep selects for removal
exactly the usernames of the records whose expiry is strictly before `now`, in registry
order, once for each such record, and calls `RemoveUser` for each of them in turn: every
call finds a record, calls the eight backends and takes the first record with the
username out of the registry, so the registry loses one record for each selection.  A
record whose expiry is not before `now`, such as one that expires exactly at `now`, does
not select its username, and it stays in the registry when the usernames of the registry
are pairwise distinct. -/
theorem CheckExpiredUsers_selects (env : Env) (now : Time) (vm : VPSManager) :
    expiredUsernames now vm.Users
        = (vm.Users.filter (fun u => decide (u.ExpireDate.nanos < now.nanos))).map
            (fun u => u.Username)
      ∧ (∀ username, username ∈ expiredUsernames now vm.Users
          ↔ ∃ u ∈ vm.Users, u.Username = username ∧ u.ExpireDate.nanos < now.nanos)
      ∧ announced (effectsSince vm (CheckExpiredUsers env now vm))
          = expiredUsernames now vm.Users
      ∧ teardowns (effectsSince vm (CheckExpiredUsers env now vm))
          = sweepCalls (expiredUsernames now vm.Users)
      ∧ (CheckExpiredUsers env now vm).Users
          = (expiredUsernames now vm.Users).foldl (fun users name => eraseUser name users) vm.Users
      ∧ (CheckExpiredUsers env now vm).Users.length + (expiredUsernames now vm.Users).length
          = vm.Users.length
      ∧ ((vm.Users.map (fun u => u.Username)).Nodup →
          ∀ u ∈ vm.Users, ¬ u.ExpireDate.nanos < now.nanos →
            u ∈ (CheckExpiredUsers env now vm).Users) := by
  obtain ⟨es, htrace, hcalls, hlen⟩ := removeExpired_found env (expiredUsernames now vm.Users) vm
    (expiredUsernames_count_le now vm.Users)
  refine ⟨expiredUsernames_eq_filter now vm.Users, ?_, ?_, ?_, ?_, hlen, ?_⟩
  · intro username
    rw [expiredUsernames_eq_filter]
    simp only [List.mem_map, List.mem_filter, decide_eq_true_eq]
    constructor
    · rintro ⟨u, ⟨hu, hlt⟩, hname⟩
      exact ⟨u, hu, hname, hlt⟩
    · rintro ⟨u, hu, hname, hlt⟩
      exact ⟨u, ⟨hu, hlt⟩, hname⟩
  · obtain ⟨es, htrace, hann⟩ := removeExpired_trace env (expiredUsernames now vm.Users) vm
    simp only [effectsSince, CheckExpiredUsers]
    rw [htrace]
    simpa using hann
  · simp only [effectsSince, CheckExpiredUsers]
    rw [htrace]
    simpa using hcalls
  · rw [CheckExpiredUsers, removeExpired_Users]
  · intro hnodup u hu hnot
    rw [CheckExpiredUsers, removeExpired_Users, sweep_keeps_unexpired now vm.Users hnodup]
    exact List.mem_filter.mpr ⟨hu, by simp [Time.After, hnot]⟩

set_option maxRecDepth 100000 in
/-- Witness for C8: the sweep at `noon` over the expired `alice` and the unexpired `bob`
selects `alice`, and `bob` stays. -/
theorem CheckExpiredUsers_selects_witness :
    (expiredUsernames noon vmAliceBob.Users
        = (vmAliceBob.Users.filter (fun u => decide (u.ExpireDate.nanos < noon.nanos))).map
            (fun u => u.Username)
      ∧ (∀ username, username ∈ expiredUsernames noon vmAliceBob.Users
          ↔ ∃ u ∈ vmAliceBob.Users, u.Username = username ∧ u.ExpireDate.nanos < noon.nanos)
      ∧ announced (effectsSince vmAliceBob (CheckExpiredUsers (envFailing []) noon vmAliceBob))
          = expiredUsernames noon vmAliceBob.Users
      ∧ teardowns (effectsSince vmAliceBob (CheckExpiredUsers (envFailing []) noon vmAliceBob))
          = sweepCalls (expiredUsernames noon vmAliceBob.Users)
      ∧ (CheckExpiredUsers (envFailing []) noon vmAliceBob).Users
          = (expiredUsernames noon vmAliceBob.Users).foldl
              (fun users name => eraseUser name users) vmAliceBob.Users
      ∧ (CheckExpiredUsers (envFailing []) noon vmAliceBob).Users.length
            + (expiredUsernames noon vmAliceBob.Users).length
          = vmAliceBob.Users.length
      ∧ ((vmAliceBob.Users.map (fun u => u.Username)).Nodup →
          ∀ u ∈ vmAliceBob.Users, ¬ u.ExpireDate.nanos < noon.nanos →
            u ∈ (CheckExpiredUsers (envFailing []) noon vmAliceBob).Users))
      ∧ (vmAliceBob.Users.map (fun u => u.Username)).Nodup
      ∧ expiredUsernames noon vmAliceBob.Users = [alice]
      ∧ (CheckExpiredUsers (envFailing []) noon vmAliceBob).Users = [bobLater] :=
  ⟨CheckExpiredUsers_selects (envFailing []) noon vmAliceBob, by decide, by decide, by decide⟩

set_option maxRecDepth 100000 in
/-- C8 (counterexample): the record of `alice` expires exactly at `noon`; the sweep at
`noon` selects nobody, makes no removal attempt and leaves the record in the registry. -/
theorem CheckExpiredUsers_counterexample :
    aliceAtNoon.ExpireDate = noon
      ∧ expiredUsernames noon vmAtNoon.Users = []
      ∧ announced (effectsSince vmAtNoon (CheckExpiredUsers (envFailing []) noon vmAtNoon)) = []
      ∧ (CheckExpiredUsers (envFailing []) noon vmAtNoon).Users = [aliceAtNoon] :=
  ⟨rfl, by decide, by decide, by decide⟩

set_option maxRecDepth 100000 in
/-- With two records of one username the unexpired record can go: the registry holds the
record of `alice` that expires exactly at `noon` before the one that expired earlier; the
sweep at `noon` selects `alice` once and `RemoveUser` takes out the first record, the one
that has not expired. -/
theorem CheckExpiredUsers_same_username :
    expiredUsernames noon vmNoonTwice.Users = [alice]
      ∧ ¬ aliceAtNoon.ExpireDate.nanos < noon.nanos
      ∧ (CheckExpiredUsers (envFailing []) noon vmNoonTwice).Users = [aliceRecord] :=
  ⟨by decide, by decide, by decide⟩

/-- C9 (as corrected): for a registry whose usernames are pairwise distinct, every time
`T` and every pattern of backend failures, a sweep at `T` removes every record whose
expiry is strictly before `T` and leaves every other record in the registry, in order;
a second sweep at the same `T`, in any environment, makes no removal attempt, performs no
effect and leaves the registry unchanged. -/
theorem CheckExpiredUsers_sweep (env env2 : Env) (T : Time) (vm : VPSManager)
    (hnodup : (vm.Users.map (fun u => u.Username)).Nodup) :
    (CheckExpiredUsers env T vm).Users
        = vm.Users.filter (fun u => !decide (u.ExpireDate.nanos < T.nanos))
      ∧ expiredUsernames T (CheckExpiredUsers env T vm).Users = []
      ∧ announced (effectsSince (CheckExpiredUsers env T vm)
          (CheckExpiredUsers env2 T (CheckExpiredUsers env T vm))) = []
      ∧ CheckExpiredUsers env2 T (CheckExpiredUsers env T vm) = CheckExpiredUsers env T vm := by
  have husers : (CheckExpiredUsers env T vm).Users
      = vm.Users.filter (fun u => !T.After u.ExpireDate) := by
    rw [CheckExpiredUsers, removeExpired_Users]
    exact sweep_keeps_unexpired T vm.Users hnodup
  have hnone : expiredUsernames T (CheckExpiredUsers env T vm).Users = [] := by
    rw [husers]
    exact expiredUsernames_filter_unexpired T vm.Users
  have hsecond : CheckExpiredUsers env2 T (CheckExpiredUsers env T vm)
      = CheckExpiredUsers env T vm := by
    conv_lhs => rw [CheckExpiredUsers, hnone]
    rfl
  refine ⟨?_, hnone, ?_, hsecond⟩
  · rw [husers]
    rfl
  · rw [hsecond]
    simp [effectsSince, announced]

set_option maxRecDepth 100000 in
/-- Witness for C9: `alice` expired before `noon`, `bob` expires later, and every backend
call for `alice` fails. -/
theorem CheckExpiredUsers_sweep_witness :
    (CheckExpiredUsers (envFailing (teardownCalls alice backendOrder)) noon vmAliceBob).Users
        = vmAliceBob.Users.filter (fun u => !decide (u.ExpireDate.nanos < noon.nanos))
      ∧ expiredUsernames noon
          (CheckExpiredUsers (envFailing (teardownCalls alice backendOrder)) noon vmAliceBob).Users = []
      ∧ announced (effectsSince
          (CheckExpiredUsers (envFailing (teardownCalls alice backendOrder)) noon vmAliceBob)
          (CheckExpiredUsers (envFailing []) noon
            (CheckExpiredUsers (envFailing (teardownCalls alice backendOrder)) noon vmAliceBob))) = []
      ∧ CheckExpiredUsers (envFailing []) noon
          (CheckExpiredUsers (envFailing (teardownCalls alice backendOrder)) noon vmAliceBob)
        = CheckExpiredUsers (envFailing (teardownCalls alice backendOrder)) noon vmAliceBob :=
  CheckExpiredUsers_sweep (envFailing (teardownCalls alice backendOrder)) (envFailing []) noon
    vmAliceBob (by decide)

set_option maxRecDepth 100000 in
/-- C9 (counterexample): the registry holds two records for `alice`, first one that
expires after `noon`, then one that expired before `noon`.  The sweep at `noon` removes
the unexpired record and leaves the expired one, and a second sweep at `noon` makes one
more removal attempt and changes the registry. -/
theorem CheckExpiredUsers_sweep_counterexample :
    noon.After aliceSecond.ExpireDate = false ∧ noon.After aliceRecord.ExpireDate = true
      ∧ (CheckExpiredUsers (envFailing []) noon vmSwapped).Users = [aliceRecord]
      ∧ announced (effectsSince (CheckExpiredUsers (envFailing []) noon vmSwapped)
          (CheckExpiredUsers (envFailing []) noon (CheckExpiredUsers (envFailing []) noon vmSwapped)))
        = [alice]
      ∧ (CheckExpiredUsers (envFailing []) noon
          (CheckExpiredUsers (envFailing []) noon vmSwapped)).Users = [] :=
  ⟨by decide, by decide, by decide, by decide, by decide⟩

/-! ## The registry file: what `Unmarshal` reads back from `MarshalIndent` -/

theorem DecodeRune_two (b0 b1 : Nat) (tail : List Nat) (h0 : 0xC2 ≤ b0) (h0' : b0 < 0xE0)
    (h1 : 0x80 ≤ b1) (h1' : b1 ≤ 0xBF) :
    DecodeRune (b0 :: b1 :: tail) = (b0 % 32 * 64 + b1 % 64, 2) := by
  have a1 : ¬ b0 < 0x80 := by omega
  have a2 : ¬ (b0 < 0xC2 ∨ 0xF4 < b0) := by omega
  have a3 : ¬ b0 = 0xE0 := by omega
  have a4 : ¬ b0 = 0xF0 := by omega
  have a5 : ¬ b0 = 0xED := by omega
  have a6 : ¬ b0 = 0xF4 := by omega
  have a7 : ¬ (b1 < 0x80 ∨ 0xBF < b1) := by omega
  simp [DecodeRune, a1, a2, a3, a4, a5, a6, a7, h0']

theorem DecodeRune_three (b0 b1 b2 : Nat) (tail : List Nat) (h0 : 0xE0 ≤ b0) (h0' : b0 < 0xF0)
    (h1 : (if b0 = 0xE0 then 0xA0 else 0x80) ≤ b1) (h1' : b1 ≤ (if b0 = 0xED then 0x9F else 0xBF))
    (h2 : 0x80 ≤ b2) (h2' : b2 ≤ 0xBF) :
    DecodeRune (b0 :: b1 :: b2 :: tail) = (b0 % 16 * 4096 + b1 % 64 * 64 + b2 % 64, 3) := by
  have a1 : ¬ b0 < 0x80 := by omega
  have a2 : ¬ (b0 < 0xC2 ∨ 0xF4 < b0) := by omega
  have a3 : ¬ b0 < 0xE0 := by omega
  have a4 : ¬ b0 = 0xF0 := by omega
  have a6 : ¬ b0 = 0xF4 := by omega
  have a7 : ¬ (b2 < 0x80 ∨ 0xBF < b2) := by omega
  have a8 : ¬ (b1 < (if b0 = 0xE0 then 0xA0 else 0x80) ∨ (if b0 = 0xED then 0x9F else 0xBF) < b1) := by omega
  simp [DecodeRune, a1, a2, a3, a4, a6, a7, a8, h0']

theorem DecodeRune_four (b0 b1 b2 b3 : Nat) (tail : List Nat) (h0 : 0xF0 ≤ b0) (h0' : b0 ≤ 0xF4)
    (h1 : (if b0 = 0xF0 then 0x90 else 0x80) ≤ b1) (h1' : b1 ≤ (if b0 = 0xF4 then 0x8F else 0xBF))
    (h2 : 0x80 ≤ b2) (h2' : b2 ≤ 0xBF) (h3 : 0x80 ≤ b3) (h3' : b3 ≤ 0xBF) :
    DecodeRune (b0 :: b1 :: b2 :: b3 :: tail)
      = (b0 % 8 * 262144 + b1 % 64 * 4096 + b2 % 64 * 64 + b3 % 64, 4) := by
  have a1 : ¬ b0 < 0x80 := by omega
  have a2 : ¬ (b0 < 0xC2 ∨ 0xF4 < b0) := by omega
  have a3 : ¬ b0 < 0xE0 := by omega
  have a3' : ¬ b0 < 0xF0 := by omega
  have a4 : ¬ b0 = 0xE0 := by omega
  have a6 : ¬ b0 = 0xED := by omega
  have a7 : ¬ (b2 < 0x80 ∨ 0xBF < b2) := by omega
  have a9 : ¬ (b3 < 0x80 ∨ 0xBF < b3) := by omega
  have a8 : ¬ (b1 < (if b0 = 0xF0 then 0x90 else 0x80) ∨ (if b0 = 0xF4 then 0x8F else 0xBF) < b1) := by omega
  simp [DecodeRune, a1, a2, a3, a3', a4, a6, a7, a8, a9]

theorem EncodeRune_one (r : Nat) (h : r < 0x80) : EncodeRune r = [r] := by
  simp [EncodeRune, show r ≤ 0x7F by omega]

theorem EncodeRune_two (r : Nat) (h1 : 0x80 ≤ r) (h2 : r ≤ 0x7FF) :
    EncodeRune r = [0xC0 + r / 64, 0x80 + r % 64] := by
  simp [EncodeRune, show ¬ r ≤ 0x7F by omega, h2]

theorem EncodeRune_three (r : Nat) (h1 : 0x800 ≤ r) (h2 : r ≤ 0xFFFF) (hv : validRune r) :
    EncodeRune r = [0xE0 + r / 4096, 0x80 + r / 64 % 64, 0x80 + r % 64] := by
  unfold validRune at hv
  have a1 : ¬ r ≤ 0x7F := by omega
  have a2 : ¬ r ≤ 0x7FF := by omega
  have a3 : ¬ (0x10FFFF < r ∨ (0xD800 ≤ r ∧ r ≤ 0xDFFF)) := by omega
  simp [EncodeRune, a1, a2, a3, h2]

theorem EncodeRune_four (r : Nat) (h1 : 0x10000 ≤ r) (hv : validRune r) :
    EncodeRune r
      = [0xF0 + r / 262144, 0x80 + r / 4096 % 64, 0x80 + r / 64 % 64, 0x80 + r % 64] := by
  unfold validRune at hv
  have a1 : ¬ r ≤ 0x7F := by omega
  have a2 : ¬ r ≤ 0x7FF := by omega
  have a3 : ¬ (0x10FFFF < r ∨ (0xD800 ≤ r ∧ r ≤ 0xDFFF)) := by omega
  have a4 : ¬ r ≤ 0xFFFF := by omega
  simp [EncodeRune, a1, a2, a3, a4]

/-- Decoding the encoding of a scalar value gives the value and the length of the
encoding. -/
theorem DecodeRune_EncodeRune (r : Nat) (T : List Nat) (hv : validRune r) (h : 0x80 ≤ r) :
    DecodeRune (EncodeRune r ++ T) = (r, (EncodeRune r).length) := by
  by_cases h2 : r ≤ 0x7FF
  · rw [EncodeRune_two r h h2]
    have := DecodeRune_two (0xC0 + r / 64) (0x80 + r % 64) T (by omega) (by omega) (by omega)
      (by omega)
    simp only [List.cons_append, List.nil_append, List.length_cons, List.length_nil, this]
    congr 1
    omega
  · by_cases h3 : r ≤ 0xFFFF
    · rw [EncodeRune_three r (by omega) h3 hv]
      unfold validRune at hv
      have := DecodeRune_three (0xE0 + r / 4096) (0x80 + r / 64 % 64) (0x80 + r % 64) T
        (by omega) (by omega) (by split <;> omega) (by split <;> omega) (by omega) (by omega)
      simp only [List.cons_append, List.nil_append, List.length_cons, List.length_nil, this]
      congr 1
      omega
    · rw [EncodeRune_four r (by omega) hv]
      unfold validRune at hv
      have := DecodeRune_four (0xF0 + r / 262144) (0x80 + r / 4096 % 64) (0x80 + r / 64 % 64)
        (0x80 + r % 64) T
        (by omega) (by omega) (by split <;> omega) (by split <;> omega) (by omega) (by omega)
        (by omega) (by omega)
      simp only [List.cons_append, List.nil_append, List.length_cons, List.length_nil, this]
      congr 1
      omega

theorem EncodeRune_head (r : Nat) (hv : validRune r) (h : 0x80 ≤ r) :
    ∃ b tl, EncodeRune r = b :: tl ∧ 0x80 ≤ b := by
  by_cases h2 : r ≤ 0x7FF
  · exact ⟨_, _, EncodeRune_two r h h2, by omega⟩
  · by_cases h3 : r ≤ 0xFFFF
    · exact ⟨_, _, EncodeRune_three r (by omega) h3 hv, by omega⟩
    · exact ⟨_, _, EncodeRune_four r (by omega) hv, by omega⟩

/-- One round of the encoder on the encoding of a scalar value writes `quoteRune`. -/
theorem quoteStep_EncodeRune (r : Nat) (T : List Nat) (hv : validRune r) :
    quoteStep (EncodeRune r ++ T) = (quoteRune r, T) := by
  by_cases h : r < 0x80
  · rw [EncodeRune_one r h]
    simp [quoteStep, quoteRune, h]
  · have hdec := DecodeRune_EncodeRune r T hv (by omega)
    obtain ⟨b, tl, hb, hb80⟩ := EncodeRune_head r hv (by omega)
    have hlen : (EncodeRune r).length ≠ 1 := by
      by_cases h2 : r ≤ 0x7FF
      · rw [EncodeRune_two r (by omega) h2]; simp
      · by_cases h3 : r ≤ 0xFFFF
        · rw [EncodeRune_three r (by omega) h3 hv]; simp
        · rw [EncodeRune_four r (by omega) hv]; simp
    have hno' : ¬ (r = RuneError ∧ (EncodeRune r).length = 1) := fun hc => hlen hc.2
    rw [hb] at hdec hlen
    have hnb : ¬ b < 0x80 := by omega
    simp only [hb, List.cons_append, quoteStep, hnb, if_false]
    rw [← List.cons_append, hdec]
    have hno : ¬ (r = RuneError ∧ (b :: tl).length = 1) := fun hc => hlen hc.2
    simp only [hno, if_false, quoteRune, h, List.take_left', List.drop_left', ← hb]
    by_cases hsep : r = 0x2028 ∨ r = 0x2029
    · simp only [hsep, if_true]
      rw [if_neg hno']
    · simp only [hsep, if_false]
      rw [if_neg hno']

theorem hexValue_hexDigit (n : Nat) (h : n < 16) : hexValue (hexDigit n) = some n := by
  interval_cases n <;> decide

/-- One round of the decoder on what the encoder wrote for a scalar value gives the bytes
of the value back. -/
theorem unquoteStep_quoteRune (r : Nat) (X : List Nat) (hv : validRune r) :
    unquoteStep (quoteRune r ++ X) = some (EncodeRune r, X)
      ∧ ∃ c tl, quoteRune r = c :: tl ∧ c ≠ 0x22 := by
  by_cases h : r < 0x80
  · by_cases hs : htmlSafe r = true
    · have hs2 := hs
      simp only [htmlSafe, decide_eq_true_eq] at hs2
      refine ⟨?_, r, [], by simp [quoteRune, h, hs], by omega⟩
      have a1 : ¬ r = 0x5C := by omega
      have a2 : ¬ r < 0x20 := by omega
      simp [quoteRune, h, hs, unquoteStep, a1, a2, EncodeRune_one r h]
    · have hcases : r < 0x20 ∨ r = 0x22 ∨ r = 0x5C ∨ r = 0x3C ∨ r = 0x3E ∨ r = 0x26 := by
        simp only [htmlSafe, decide_eq_true_eq] at hs
        omega
      rcases hcases with hlt | rfl | rfl | rfl | rfl | rfl
      · interval_cases r <;>
          exact ⟨by simp [quoteRune, htmlSafe, escapeByte, hexDigit, unquoteStep, unquoteUnicode,
            getu4, hexValue, simpleEscape, EncodeRune], _, _, by simp [quoteRune, htmlSafe, escapeByte]; exact ⟨rfl, rfl⟩, by decide⟩
      all_goals
        exact ⟨by simp [quoteRune, htmlSafe, escapeByte, hexDigit, unquoteStep, unquoteUnicode,
            getu4, hexValue, simpleEscape, EncodeRune], _, _, by simp [quoteRune, htmlSafe, escapeByte]; exact ⟨rfl, rfl⟩, by decide⟩
  · by_cases hsep : r = 0x2028 ∨ r = 0x2029
    · rcases hsep with rfl | rfl <;>
        exact ⟨by simp [quoteRune, hexDigit, unquoteStep, unquoteUnicode, getu4, hexValue,
          EncodeRune], _, _, by simp [quoteRune]; exact ⟨rfl, rfl⟩, by decide⟩
    · obtain ⟨b, tl, hb, hb80⟩ := EncodeRune_head r hv (by omega)
      have hdec := DecodeRune_EncodeRune r X hv (by omega)
      refine ⟨?_, b, tl, by simp [quoteRune, h, hsep, hb], by omega⟩
      have a1 : ¬ b = 0x5C := by omega
      have a2 : ¬ b < 0x20 := by omega
      have a3 : ¬ b < 0x80 := by omega
      simp only [quoteRune, h, hsep, if_false]
      rw [hb] at hdec ⊢
      simp only [List.cons_append, unquoteStep, a1, a2, a3, if_false]
      rw [← List.cons_append, hdec]
      simp [hb]

theorem EncodeRune_ne_nil (r : Nat) : ∃ b tl, EncodeRune r = b :: tl := by
  unfold EncodeRune
  split_ifs <;> exact ⟨_, _, rfl⟩

theorem quoteBody_encodeRunes (rs : List Nat) (hv : ∀ r ∈ rs, validRune r) (fuel : Nat)
    (hfuel : rs.length ≤ fuel) : quoteBody fuel (encodeRunes rs) = quoteRunes rs := by
  induction rs generalizing fuel with
  | nil => cases fuel <;> simp [encodeRunes, quoteBody, quoteRunes]
  | cons r rs ih =>
    obtain ⟨fuel, rfl⟩ : ∃ f, fuel = f + 1 := ⟨fuel - 1, by simp at hfuel; omega⟩
    have hstep := quoteStep_EncodeRune r (encodeRunes rs) (hv r (by simp))
    obtain ⟨b, tl, hb⟩ := EncodeRune_ne_nil r
    simp only [encodeRunes, quoteRunes]
    rw [hb] at hstep ⊢
    simp only [List.cons_append] at hstep ⊢
    rw [quoteBody, hstep]
    simp only
    rw [ih (fun x hx => hv x (by simp [hx])) fuel (by simp at hfuel; omega)]

theorem length_encodeRunes (rs : List Nat) : rs.length ≤ (encodeRunes rs).length := by
  induction rs with
  | nil => simp [encodeRunes]
  | cons r rs ih =>
    obtain ⟨b, tl, hb⟩ := EncodeRune_ne_nil r
    simp [encodeRunes, hb]
    omega

theorem length_quoteRunes (rs : List Nat) (hv : ∀ r ∈ rs, validRune r) :
    rs.length ≤ (quoteRunes rs).length := by
  induction rs with
  | nil => simp [quoteRunes]
  | cons r rs ih =>
    obtain ⟨_, c, tl, hc, _⟩ := unquoteStep_quoteRune r [] (hv r (by simp))
    have := ih (fun x hx => hv x (by simp [hx]))
    simp [quoteRunes, hc]
    omega

theorem unquoteBody_quoteRunes (rs : List Nat) (hv : ∀ r ∈ rs, validRune r) (fuel : Nat)
    (rest : List Nat) (hfuel : rs.length + 1 ≤ fuel) :
    unquoteBody fuel (quoteRunes rs ++ 0x22 :: rest) = some (encodeRunes rs, rest) := by
  induction rs generalizing fuel with
  | nil =>
    obtain ⟨fuel, rfl⟩ : ∃ f, fuel = f + 1 := ⟨fuel - 1, by omega⟩
    simp [quoteRunes, unquoteBody, encodeRunes]
  | cons r rs ih =>
    obtain ⟨fuel, rfl⟩ : ∃ f, fuel = f + 1 := ⟨fuel - 1, by omega⟩
    obtain ⟨hstep, c, tl, hc, hne⟩ :=
      unquoteStep_quoteRune r (quoteRunes rs ++ 0x22 :: rest) (hv r (by simp))
    simp only [quoteRunes, encodeRunes, List.append_assoc]
    rw [hc] at hstep ⊢
    simp only [List.cons_append] at hstep ⊢
    rw [unquoteBody]
    simp only [hne, if_false, hstep]
    rw [ih (fun x hx => hv x (by simp [hx])) fuel (by simp at hfuel; omega)]
    rfl

/-- Reading back the text the encoder wrote between the quotes for a valid string. -/
theorem unquoteBody_quoteBody (s : GoString) (hs : ValidUTF8 s) (fuel : Nat) (rest : List Nat)
    (hfuel : (quoteBody s.length s ++ 0x22 :: rest).length ≤ fuel) :
    unquoteBody fuel (quoteBody s.length s ++ 0x22 :: rest) = some (s, rest) := by
  obtain ⟨rs, hv, rfl⟩ := hs
  have hq := quoteBody_encodeRunes rs hv (encodeRunes rs).length (length_encodeRunes rs)
  rw [hq] at hfuel ⊢
  have := length_quoteRunes rs hv
  exact unquoteBody_quoteRunes rs hv fuel rest (by simp at hfuel; omega)

theorem skipSpace_cons (c : Nat) (rest : List Nat) (h : isSpace c = false) :
    skipSpace (c :: rest) = c :: rest := by
  simp [skipSpace, h]

theorem skipSpace_replicate (n : Nat) (s : List Nat) :
    skipSpace (List.replicate n 0x20 ++ s) = skipSpace s := by
  induction n with
  | zero => simp
  | succ n ih => simp [List.replicate_succ, skipSpace, isSpace, ih]

theorem skipSpace_appendNewline (depth : Nat) (s : List Nat) :
    skipSpace (appendNewline depth ++ s) = skipSpace s := by
  simp [appendNewline, skipSpace, isSpace, skipSpace_replicate]

theorem stripNull_cons (c : Nat) (rest : List Nat) (h : c ≠ 0x6E) :
    stripNull (c :: rest) = none := by
  simp [stripNull, h]

/-- Reading back the elements of an indented array of strings. -/
theorem parseStrings_joined (depth depth2 : Nat) (xs : List GoString) (x : GoString)
    (hx : ValidUTF8 x) (hxs : ∀ y ∈ xs, ValidUTF8 y) (rest : List Nat) (fuel : Nat)
    (hfuel : (appendString x ++ joinIndented depth (xs.map appendString)
      ++ appendNewline depth2 ++ 0x5D :: rest).length ≤ fuel) :
    parseStrings fuel (appendString x ++ joinIndented depth (xs.map appendString)
      ++ appendNewline depth2 ++ 0x5D :: rest) = some (x :: xs, rest) := by
  induction xs generalizing x fuel with
  | nil =>
    obtain ⟨fuel, rfl⟩ : ∃ f, fuel = f + 1 := ⟨fuel - 1, by simp [appendString] at hfuel; omega⟩
    simp only [appendString, joinIndented, List.map_nil, List.append_assoc, List.cons_append,
      List.nil_append, List.append_nil] at hfuel ⊢
    rw [parseStrings]
    simp only [if_true]
    rw [unquoteBody_quoteBody x hx fuel _ (by simp at hfuel ⊢; omega)]
    simp only [skipSpace_appendNewline]
    rw [skipSpace_cons _ _ (by decide)]
    simp
  | cons y ys ih =>
    obtain ⟨fuel, rfl⟩ : ∃ f, fuel = f + 1 := ⟨fuel - 1, by simp [appendString] at hfuel; omega⟩
    have hy : ValidUTF8 y := hxs y (by simp)
    have hys : ∀ z ∈ ys, ValidUTF8 z := fun z hz => hxs z (by simp [hz])
    have hrec := ih y hy hys fuel
    simp only [appendString, joinIndented, List.map_cons, List.append_assoc, List.cons_append,
      List.nil_append] at hfuel hrec ⊢
    rw [parseStrings]
    simp only [if_true]
    rw [unquoteBody_quoteBody x hx fuel _ (by simp at hfuel ⊢; omega)]
    simp only
    rw [skipSpace_cons _ _ (by decide)]
    simp only [if_true, skipSpace_appendNewline]
    rw [skipSpace_cons _ _ (by decide)]
    rw [hrec (by simp at hfuel ⊢; omega)]

/-- Reading back an indented array of strings. -/
theorem parseStringArray_indented (depth : Nat) (ps : List GoString)
    (hps : ∀ p ∈ ps, ValidUTF8 p) (rest : List Nat) (fuel : Nat)
    (hfuel : (indentedArray depth (ps.map appendString) ++ rest).length ≤ fuel) :
    parseStringArray fuel (indentedArray depth (ps.map appendString) ++ rest) = some (ps, rest) := by
  cases ps with
  | nil =>
    simp only [List.map_nil, indentedArray, List.cons_append, List.nil_append]
    rw [parseStringArray, stripNull_cons _ _ (by decide)]
    simp only [if_true]
    rw [skipSpace_cons _ _ (by decide)]
    simp
  | cons x xs =>
    have hjoin := parseStrings_joined (depth + 1) depth xs x (hps x (by simp))
      (fun y hy => hps y (by simp [hy])) rest fuel
    simp only [List.map_cons, indentedArray, List.append_assoc, List.cons_append,
      List.nil_append] at hfuel hjoin ⊢
    rw [parseStringArray, stripNull_cons _ _ (by decide)]
    simp only [if_true, skipSpace_appendNewline]
    simp only [appendString, List.append_assoc, List.cons_append, List.nil_append] at hfuel hjoin ⊢
    rw [skipSpace_cons _ _ (by decide)]
    simp only [show ¬ (0x22 : Nat) = 0x5D by decide, if_false]
    exact hjoin (by simp at hfuel ⊢; omega)

theorem htmlSafe_facts (c : Nat) (h : htmlSafe c = true) :
    c ≠ 0x22 ∧ c ≠ 0x5C ∧ ¬ c < 0x20 := by
  simp only [htmlSafe, decide_eq_true_eq] at h
  omega

theorem scanLiteral_plain (inner rest : List Nat) (h : inner.all htmlSafe = true) :
    scanLiteral (inner ++ 0x22 :: rest) = some (inner ++ [0x22], rest) := by
  induction inner with
  | nil =>
    rw [List.nil_append, scanLiteral.eq_def]
    simp
  | cons c cs ih =>
    simp only [List.all_cons, Bool.and_eq_true] at h
    obtain ⟨h1, h2, h3⟩ := htmlSafe_facts c h.1
    rw [List.cons_append, scanLiteral.eq_def]
    simp only [h1, h2, h3, if_false, ih h.2]
    rfl

theorem plainLiteral_shape (lit : List Nat) (h : plainLiteral lit = true) :
    ∃ inner, lit = 0x22 :: (inner ++ [0x22]) ∧ inner.all htmlSafe = true := by
  cases lit with
  | nil => simp [plainLiteral] at h
  | cons q body =>
    by_cases hq : q = 0x22
    · subst hq
      simp only [plainLiteral] at h
      cases hr : body.reverse with
      | nil => simp [hr] at h
      | cons z rev =>
        by_cases hz : z = 0x22
        · subst hz
          simp only [hr] at h
          refine ⟨rev.reverse, ?_, by simpa using h⟩
          have : body = (0x22 :: rev).reverse := by rw [← hr, List.reverse_reverse]
          simp [this]
        · rw [hr] at h
          simp [hz] at h
    · simp [plainLiteral, hq] at h

theorem marshalTime_ok (t : Time) (lit : List Nat)
    (h : marshalTime t = .ok lit) :
    t.MarshalJSON = .ok lit ∧ plainLiteral lit = true := by
  unfold marshalTime at h
  cases hm : t.MarshalJSON with
  | error e => simp [hm] at h
  | ok l =>
    by_cases hp : plainLiteral l = true
    · simp only [hm, hp, if_true, Except.ok.injEq] at h
      subst h
      exact ⟨rfl, hp⟩
    · simp [hm, hp] at h

/-- Reading back the value of `expire_date`. -/
theorem parseTimeValue_literal (t old : Time) (lit rest : List Nat)
    (hm : marshalTime t = .ok lit) (hrt : Time.UnmarshalJSON lit = .ok t) :
    parseTimeValue old (lit ++ rest) = some (t, rest) := by
  obtain ⟨_, hp⟩ := marshalTime_ok t lit hm
  obtain ⟨inner, rfl, hinner⟩ := plainLiteral_shape lit hp
  simp only [List.cons_append, List.append_assoc, List.nil_append]
  rw [parseTimeValue, stripNull_cons _ _ (by decide)]
  simp only [if_true, scanLiteral_plain inner rest hinner, hrt]

theorem validUTF8_str (k : String) (h : ∀ r ∈ k.toList.map Char.toNat, validRune r) :
    ValidUTF8 (str k) :=
  ⟨k.toList.map Char.toNat, h, rfl⟩

theorem parseStringValue_appendString (fuel : Nat) (old x : GoString) (tail : List Nat)
    (hx : ValidUTF8 x) (hfuel : (appendString x ++ tail).length ≤ fuel + 1) :
    parseStringValue fuel old (appendString x ++ tail) = some (x, tail) := by
  simp only [appendString, List.append_assoc, List.cons_append, List.nil_append] at hfuel ⊢
  rw [parseStringValue, stripNull_cons _ _ (by decide)]
  simp only [if_true]
  exact unquoteBody_quoteBody x hx fuel tail (by simp at hfuel ⊢; omega)

theorem parseMember_username (fuel : Nat) (u : User) (x : GoString)
    (tail : List Nat) (hx : ValidUTF8 x) (hfuel : (appendString x ++ tail).length ≤ fuel + 1) :
    parseMember fuel u (str "username") (appendString x ++ tail)
      = some ({ u with Username := x }, tail) := by
  rw [parseMember, if_pos rfl, parseStringValue_appendString fuel _ x tail hx hfuel]

theorem parseMember_password (fuel : Nat) (u : User) (x : GoString)
    (tail : List Nat) (hx : ValidUTF8 x) (hfuel : (appendString x ++ tail).length ≤ fuel + 1) :
    parseMember fuel u (str "password") (appendString x ++ tail)
      = some ({ u with Password := x }, tail) := by
  rw [parseMember, if_neg (by decide), if_pos rfl,
    parseStringValue_appendString fuel _ x tail hx hfuel]

theorem parseMember_expire_date (fuel : Nat) (u : User) (t : Time)
    (lit tail : List Nat) (hm : marshalTime t = .ok lit)
    (hrt : Time.UnmarshalJSON lit = .ok t) :
    parseMember fuel u (str "expire_date") (lit ++ tail)
      = some ({ u with ExpireDate := t }, tail) := by
  rw [parseMember, if_neg (by decide), if_neg (by decide), if_pos rfl,
    parseTimeValue_literal t _ lit tail hm hrt]

theorem parseMember_protocols (fuel : Nat) (u : User) (ps : List GoString)
    (tail : List Nat) (hps : ∀ p ∈ ps, ValidUTF8 p)
    (hfuel : (indentedArray 2 (ps.map appendString) ++ tail).length ≤ fuel) :
    parseMember fuel u (str "protocols") (indentedArray 2 (ps.map appendString) ++ tail)
      = some ({ u with Protocols := ps }, tail) := by
  rw [parseMember, if_neg (by decide), if_neg (by decide), if_neg (by decide), if_pos rfl,
    parseStringArray_indented 2 ps hps tail fuel hfuel]

/-- One round of the member loop: the name, the colon, the value, then either a comma and
the next member or the closing brace. -/
theorem parseMembers_member (fuel : Nat) (u u1 : User) (key : String)
    (value tail : List Nat) (hkey : ValidUTF8 (str key))
    (hns : skipSpace (value ++ tail) = value ++ tail)
    (hval : parseMember fuel u (str key) (value ++ tail) = some (u1, tail))
    (hfuel : (member key value ++ tail).length ≤ fuel + 1) :
    parseMembers (fuel + 1) u (member key value ++ tail)
      = match skipSpace tail with
        | [] => none
        | e :: rest =>
          if e = 0x2C then parseMembers fuel u1 (skipSpace rest)
          else if e = 0x7D then some (u1, rest)
          else none := by
  simp only [member, appendString, List.append_assoc, List.cons_append, List.nil_append]
    at hfuel ⊢
  rw [parseMembers]
  simp only [if_true]
  rw [unquoteBody_quoteBody (str key) hkey fuel _ (by simp at hfuel ⊢; omega)]
  simp only
  rw [skipSpace_cons _ _ (by decide)]
  simp only [if_true]
  rw [skipSpace, if_pos (by decide), hns]
  simp only [hval]

theorem skipSpace_member (key : String) (value tail : List Nat) :
    skipSpace (member key value ++ tail) = member key value ++ tail := by
  simp only [member, appendString, List.append_assoc, List.cons_append, List.nil_append]
  exact skipSpace_cons _ _ (by decide)

theorem skipSpace_appendString (x : GoString) (tail : List Nat) :
    skipSpace (appendString x ++ tail) = appendString x ++ tail := by
  simp only [appendString, List.append_assoc, List.cons_append, List.nil_append]
  exact skipSpace_cons _ _ (by decide)

theorem skipSpace_indentedArray (depth : Nat) (xs : List (List Nat)) (tail : List Nat) :
    skipSpace (indentedArray depth xs ++ tail) = indentedArray depth xs ++ tail := by
  cases xs <;>
    simp only [indentedArray, List.append_assoc, List.cons_append, List.nil_append] <;>
    exact skipSpace_cons _ _ (by decide)

/-- A member followed by a comma and the next member. -/
theorem parseMembers_comma (fuel depth : Nat) (u u1 : User) (key : String)
    (value next : List Nat) (hkey : ValidUTF8 (str key))
    (hns : skipSpace (value ++ 0x2C :: (appendNewline depth ++ next))
      = value ++ 0x2C :: (appendNewline depth ++ next))
    (hnext : skipSpace next = next)
    (hval : parseMember fuel u (str key) (value ++ 0x2C :: (appendNewline depth ++ next))
      = some (u1, 0x2C :: (appendNewline depth ++ next)))
    (hfuel : (member key value ++ 0x2C :: (appendNewline depth ++ next)).length ≤ fuel + 1) :
    parseMembers (fuel + 1) u (member key value ++ 0x2C :: (appendNewline depth ++ next))
      = parseMembers fuel u1 next := by
  rw [parseMembers_member fuel u u1 key value _ hkey hns hval hfuel,
    skipSpace_cons _ _ (by decide)]
  simp only [if_true, skipSpace_appendNewline, hnext]

/-- The last member, followed by the closing brace. -/
theorem parseMembers_last (fuel depth : Nat) (u u1 : User) (key : String)
    (value rest : List Nat) (hkey : ValidUTF8 (str key))
    (hns : skipSpace (value ++ (appendNewline depth ++ 0x7D :: rest))
      = value ++ (appendNewline depth ++ 0x7D :: rest))
    (hval : parseMember fuel u (str key) (value ++ (appendNewline depth ++ 0x7D :: rest))
      = some (u1, appendNewline depth ++ 0x7D :: rest))
    (hfuel : (member key value ++ (appendNewline depth ++ 0x7D :: rest)).length ≤ fuel + 1) :
    parseMembers (fuel + 1) u (member key value ++ (appendNewline depth ++ 0x7D :: rest))
      = some (u1, rest) := by
  rw [parseMembers_member fuel u u1 key value _ hkey hns hval hfuel,
    skipSpace_appendNewline, skipSpace_cons _ _ (by decide)]
  simp

theorem marshalUser_ok (u : User) (bytes : List Nat)
    (h : marshalUser u = .ok bytes) :
    ∃ lit, marshalTime u.ExpireDate = .ok lit
      ∧ bytes = 0x7B :: (appendNewline 2 ++ (member "username" (appendString u.Username)
          ++ 0x2C :: (appendNewline 2 ++ (member "password" (appendString u.Password)
          ++ 0x2C :: (appendNewline 2 ++ (member "expire_date" lit
          ++ 0x2C :: (appendNewline 2
          ++ (member "protocols" (indentedArray 2 (u.Protocols.map appendString))
          ++ (appendNewline 1 ++ [0x7D])))))))))  := by
  unfold marshalUser at h
  cases hm : marshalTime u.ExpireDate with
  | error e => simp [hm] at h
  | ok lit =>
    simp only [hm, Except.ok.injEq] at h
    refine ⟨lit, rfl, ?_⟩
    rw [← h]
    simp only [List.append_assoc, List.cons_append, List.nil_append]

theorem validUTF8_keys :
    ValidUTF8 (str "username") ∧ ValidUTF8 (str "password") ∧ ValidUTF8 (str "expire_date")
      ∧ ValidUTF8 (str "protocols") :=
  ⟨validUTF8_str _ (by decide), validUTF8_str _ (by decide), validUTF8_str _ (by decide),
    validUTF8_str _ (by decide)⟩

/-- Reading back the object of one user: every field is overwritten, whatever the element
held before. -/
theorem parseObject_marshalUser (fuel : Nat) (held u : User) (bytes rest : List Nat)
    (hm : marshalUser u = .ok bytes)
    (hname : ValidUTF8 u.Username) (hpass : ValidUTF8 u.Password)
    (hprot : ∀ p ∈ u.Protocols, ValidUTF8 p)
    (htime : u.ExpireDate.offset % 60 = 0)
    (hfuel : (bytes ++ rest).length ≤ fuel) :
    parseObject fuel held (bytes ++ rest) = some (u, rest) := by
  obtain ⟨lit, hlit, rfl⟩ := marshalUser_ok u bytes hm
  obtain ⟨hk1, hk2, hk3, hk4⟩ := validUTF8_keys
  have hrt := UnmarshalJSON_MarshalJSON _ lit (marshalTime_ok _ lit hlit).1 htime
  obtain ⟨inner, hshape, _⟩ := plainLiteral_shape lit (marshalTime_ok _ lit hlit).2
  obtain ⟨f, rfl⟩ : ∃ f, fuel = f + 1 + 1 + 1 + 1 := ⟨fuel - 4, by
    simp [appendNewline, member, appendString] at hfuel; omega⟩
  simp only [List.append_assoc, List.cons_append, List.nil_append] at hfuel ⊢
  rw [parseObject]
  simp only [if_true, skipSpace_appendNewline, skipSpace_member]
  have hhead : ∀ tl, member "username" (appendString u.Username) ++ tl
      = 0x22 :: (quoteBody (str "username").length (str "username")
          ++ 0x22 :: 0x3A :: 0x20 :: (appendString u.Username ++ tl)) := by
    intro tl
    simp only [member, appendString, List.append_assoc, List.cons_append, List.nil_append]
  rw [hhead]
  simp only [show ¬ (0x22 : Nat) = 0x7D by decide, if_false]
  rw [← hhead]
  simp only [List.length_cons, List.length_append] at hfuel
  rw [parseMembers_comma (f + 1 + 1 + 1) 2 held { held with Username := u.Username }
    "username" _ _
    hk1 (skipSpace_appendString _ _) (skipSpace_member _ _ _)
    (parseMember_username (f + 1 + 1 + 1) held u.Username _ hname
      (by simp [member, appendString] at hfuel ⊢; omega))
    (by simp [member, appendString] at hfuel ⊢; omega)]
  rw [parseMembers_comma (f + 1 + 1) 2 { held with Username := u.Username }
    { held with Username := u.Username, Password := u.Password }
    "password" _ _ hk2 (skipSpace_appendString _ _) (skipSpace_member _ _ _)
    (parseMember_password (f + 1 + 1) { held with Username := u.Username } u.Password _ hpass
      (by simp [member, appendString] at hfuel ⊢; omega))
    (by simp [member, appendString] at hfuel ⊢; omega)]
  rw [parseMembers_comma (f + 1) 2
    { held with Username := u.Username, Password := u.Password }
    { held with Username := u.Username, Password := u.Password, ExpireDate := u.ExpireDate }
    "expire_date" _ _ hk3 (by rw [hshape]; exact skipSpace_cons _ _ (by decide))
    (skipSpace_member _ _ _)
    (parseMember_expire_date (f + 1)
      { held with Username := u.Username, Password := u.Password } u.ExpireDate lit _ hlit hrt)
    (by simp [member, appendString] at hfuel ⊢; omega)]
  rw [parseMembers_last f 1
    { held with Username := u.Username, Password := u.Password, ExpireDate := u.ExpireDate }
    { held with Username := u.Username, Password := u.Password, ExpireDate := u.ExpireDate,
                Protocols := u.Protocols }
    "protocols" _ _ hk4 (skipSpace_indentedArray _ _ _)
    (parseMember_protocols f
      { held with Username := u.Username, Password := u.Password, ExpireDate := u.ExpireDate }
      u.Protocols _ hprot
      (by simp [member, appendString] at hfuel ⊢; omega))
    (by simp [member, appendString] at hfuel ⊢; omega)]

theorem skipSpace_marshalUser (u : User) (x tail : List Nat)
    (h : marshalUser u = .ok x) : skipSpace (x ++ tail) = x ++ tail := by
  obtain ⟨lit, _, rfl⟩ := marshalUser_ok u x h
  exact skipSpace_cons _ _ (by decide)

theorem marshalUser_head (u : User) (x : List Nat)
    (h : marshalUser u = .ok x) : ∃ tl, x = 0x7B :: tl := by
  obtain ⟨lit, _, rfl⟩ := marshalUser_ok u x h
  exact ⟨_, rfl⟩

theorem marshalUsers_nil_eq : marshalUsers [] = .ok [] := rfl

theorem marshalUsers_cons_eq (u : User) (us : List User) :
    marshalUsers (u :: us)
      = match marshalUser u with
        | .error e => .error e
        | .ok x =>
          match marshalUsers us with
          | .error e => .error e
          | .ok xs => .ok (x :: xs) := rfl

theorem marshalUsers_cons (u : User) (us : List User) (ys : List (List Nat))
    (h : marshalUsers (u :: us) = .ok ys) :
    ∃ x xs, ys = x :: xs ∧ marshalUser u = .ok x ∧ marshalUsers us = .ok xs := by
  rw [marshalUsers_cons_eq] at h
  cases hx : marshalUser u with
  | error e =>
    rw [hx] at h
    cases h
  | ok x =>
    rw [hx] at h
    cases hxs : marshalUsers us with
    | error e =>
      rw [hxs] at h
      cases h
    | ok xs =>
      rw [hxs] at h
      simp only [Except.ok.injEq] at h
      exact ⟨x, xs, h.symm, rfl, rfl⟩

/-- Reading back the elements of the top-level array. -/
theorem parseElements_joined (us : List User) (u : User) (x : List Nat)
    (xs : List (List Nat)) (held : List User) (rest : List Nat) (fuel : Nat)
    (hu : marshalUser u = .ok x) (hus : marshalUsers us = .ok xs)
    (hvalid : ∀ v ∈ u :: us, ValidUTF8 v.Username ∧ ValidUTF8 v.Password
      ∧ ∀ p ∈ v.Protocols, ValidUTF8 p)
    (htime : ∀ v ∈ u :: us, v.ExpireDate.offset % 60 = 0)
    (hfuel : (x ++ (joinIndented 1 xs ++ (appendNewline 0 ++ 0x5D :: rest))).length + 1 ≤ fuel) :
    parseElements fuel held (x ++ (joinIndented 1 xs ++ (appendNewline 0 ++ 0x5D :: rest)))
      = some (u :: us, rest) := by
  induction us generalizing u x xs held fuel with
  | nil =>
    obtain ⟨fuel, rfl⟩ : ∃ f, fuel = f + 1 := ⟨fuel - 1, by omega⟩
    rw [marshalUsers_nil_eq] at hus
    simp only [Except.ok.injEq] at hus
    subst hus
    obtain ⟨h1, h2, h3⟩ := hvalid u (by simp)
    rw [parseElements, parseObject_marshalUser fuel _ u x _ hu h1 h2 h3
      (htime u (by simp)) (by omega)]
    simp only [joinIndented, List.nil_append, skipSpace_appendNewline]
    rw [skipSpace_cons _ _ (by decide)]
    simp
  | cons v vs ih =>
    obtain ⟨fuel, rfl⟩ : ∃ f, fuel = f + 1 := ⟨fuel - 1, by omega⟩
    obtain ⟨y, ys, rfl, hv, hvs⟩ := marshalUsers_cons v vs xs hus
    obtain ⟨h1, h2, h3⟩ := hvalid u (by simp)
    have hrec := ih v y ys held.tail fuel hv hvs
      (fun w hw => hvalid w (List.mem_cons_of_mem _ hw))
      (fun w hw => htime w (List.mem_cons_of_mem _ hw))
    rw [parseElements, parseObject_marshalUser fuel _ u x _ hu h1 h2 h3
      (htime u (by simp)) (by omega)]
    simp only [joinIndented, List.append_assoc, List.cons_append, List.nil_append] at hfuel hrec ⊢
    rw [skipSpace_cons _ _ (by decide)]
    simp only [if_true, skipSpace_appendNewline]
    rw [skipSpace_marshalUser v y _ hv, hrec (by simp at hfuel ⊢; omega)]

theorem MarshalIndent_ok (users : List User) (data : List Nat)
    (h : MarshalIndent users = .ok data) :
    ∃ xs, marshalUsers users = .ok xs ∧ data = indentedArray 0 xs := by
  unfold MarshalIndent at h
  cases hxs : marshalUsers users with
  | error e => simp [hxs] at h
  | ok xs =>
    simp only [hxs, Except.ok.injEq] at h
    exact ⟨xs, rfl, h.symm⟩

/-- What `Unmarshal` reads from the bytes `MarshalIndent` wrote for a registry of valid
UTF-8 strings and of expiry dates with a zone offset of whole minutes is that registry,
whatever the target slice held. -/
theorem Unmarshal_MarshalIndent (users held : List User) (data : List Nat)
    (hm : MarshalIndent users = .ok data)
    (hvalid : ∀ v ∈ users, ValidUTF8 v.Username ∧ ValidUTF8 v.Password
      ∧ ∀ p ∈ v.Protocols, ValidUTF8 p)
    (htime : ∀ v ∈ users, v.ExpireDate.offset % 60 = 0) :
    Unmarshal data held = .ok users := by
  obtain ⟨xs, hxs, rfl⟩ := MarshalIndent_ok users data hm
  cases users with
  | nil =>
    rw [marshalUsers_nil_eq] at hxs
    simp only [Except.ok.injEq] at hxs
    subst hxs
    simp only [indentedArray, Unmarshal]
    rw [skipSpace_cons _ _ (by decide), parseUsers, stripNull_cons _ _ (by decide)]
    simp only [if_true]
    rw [skipSpace_cons _ _ (by decide)]
    simp [skipSpace]
  | cons u us =>
    obtain ⟨x, ys, rfl, hu, hus⟩ := marshalUsers_cons u us xs hxs
    obtain ⟨tl, hx⟩ := marshalUser_head u x hu
    have hrec := parseElements_joined us u x ys held [] (indentedArray 0 (x :: ys)).length
      hu hus hvalid htime
    simp only [indentedArray, Unmarshal, List.append_assoc, List.cons_append, List.nil_append]
      at hrec ⊢
    rw [skipSpace_cons _ _ (by decide), parseUsers, stripNull_cons _ _ (by decide)]
    simp only [if_true, skipSpace_appendNewline]
    rw [skipSpace_marshalUser u x _ hu]
    rw [hx] at hrec ⊢
    simp only [List.cons_append, show ¬ (0x7B : Nat) = 0x5D by decide, if_false] at hrec ⊢
    rw [hrec (by simp [appendNewline])]
    simp [skipSpace]

/-! ## Save, then load -/

theorem saveToFile_ok (env : Env) (vm : VPSManager) (h : (saveToFile env vm).1 = none) :
    ∃ data, MarshalIndent vm.Users = .ok data
      ∧ (saveToFile env vm).2.trace = vm.trace ++ [.writeFile vm.Config.DbPath data] := by
  unfold saveToFile at h ⊢
  cases hm : MarshalIndent vm.Users with
  | error e => simp [hm] at h
  | ok data => exact ⟨data, rfl, rfl⟩

theorem AddUser_hash_error (env : Env) (now : Time) (vm : VPSManager)
    (username password : GoString) (days : Int) (err : String)
    (h : env.GenerateFromPassword vm.trace password = .error err) :
    AddUser env now vm username password days
      = (some ("failed to hash password: " ++ err), vm) := by
  simp [AddUser, h]

/-- What a run of `AddUser` that fails at provisioning step `k` returns, leaves in the
registry, and which provisioning calls it has made: the steps up to and including `k`. -/
theorem AddUser_first_failure (env : Env) (now : Time) (vm : VPSManager)
    (username password : GoString) (days : Int) (k : Nat) (e : String)
    (hk : FirstFailure env vm username password k e) :
    (AddUser env now vm username password days).1 = some e
      ∧ (AddUser env now vm username password days).2.Users = vm.Users
      ∧ provisioned (effectsSince vm (AddUser env now vm username password days).2)
          = backendOrder.take (k + 1) := by
  obtain ⟨⟨digest, hd⟩, hb, hf⟩ := hk
  have hk8 := stepOutcome_lt env vm username password k e hf
  have h0 := hb 0
  have h1 := hb 1
  have h2 := hb 2
  have h3 := hb 3
  have h4 := hb 4
  have h5 := hb 5
  have h6 := hb 6
  clear hb
  interval_cases k <;> simp [stepOutcome, provisionCalls] at h0 h1 h2 h3 h4 h5 h6 hf
  all_goals simp [AddUser, hd, provision, deprovision, perform, cleanup, effectsSince,
    backendOrder, provisioned, *]

/-- Every run of `AddUser` is of one of three kinds: hashing fails, some provisioning
step is the first to fail, or hashing and all eight provisioning steps succeed. -/
theorem AddUser_cases (env : Env) (vm : VPSManager) (username password : GoString) :
    (∃ err, env.GenerateFromPassword vm.trace password = .error err)
      ∨ (∃ k e, FirstFailure env vm username password k e)
      ∨ (∃ digest, env.GenerateFromPassword vm.trace password = .ok digest
          ∧ ∀ j < 8, stepOutcome env vm username password j = none) := by
  cases hd : env.GenerateFromPassword vm.trace password with
  | error err => exact Or.inl ⟨err, rfl⟩
  | ok digest =>
    right
    by_cases hall : ∀ j < 8, stepOutcome env vm username password j = none
    · exact Or.inr ⟨digest, rfl, hall⟩
    · left
      have hex : ∃ j, stepOutcome env vm username password j ≠ none := by
        by_contra hno
        exact hall (fun j _ => by
          by_contra hj
          exact hno ⟨j, hj⟩)
      classical
      have hspec := Nat.find_spec hex
      obtain ⟨e, he⟩ := Option.ne_none_iff_exists'.mp hspec
      refine ⟨Nat.find hex, e, ⟨digest, hd⟩, ?_, he⟩
      intro j hj
      by_contra hne
      exact Nat.find_min hex hj hne

/-- C11: when hashing and all eight provisioning calls succeed but saving the registry
fails with `err`, `AddUser` returns `err` itself, has called the provisioning method of
all eight backends and no compensating `RemoveUser`, has written its log line, and leaves
the new record in the in-memory registry. -/
theorem AddUser_save_failure (env : Env) (now : Time) (vm : VPSManager)
    (username password digest : GoString) (days : Int) (err : String)
    (hd : env.GenerateFromPassword vm.trace password = .ok digest)
    (hall : ∀ j < 8, stepOutcome env vm username password j = none)
    (hsave : (saveToFile env (beforeSave env now vm username password digest days)).1 = some err) :
    (AddUser env now vm username password days).1 = some err
      ∧ provisioned (effectsSince vm (AddUser env now vm username password days).2) = backendOrder
      ∧ deprovisioned (effectsSince vm (AddUser env now vm username password days).2) = []
      ∧ (AddUser env now vm username password days).2.Users
          = vm.Users ++ [newRecord env.Local now username digest days]
      ∧ Effect.log "AddUser" username
          ∈ effectsSince vm (AddUser env now vm username password days).2 := by
  have hrun := AddUser_all_succeed env now vm username password digest days hd hall
  rw [hrun]
  refine ⟨hsave, provisioned_all_succeed env now vm username password digest days, ?_, ?_, ?_⟩
  · rcases saveToFile_trace env (beforeSave env now vm username password digest days)
      with h | ⟨d, h⟩
    all_goals
      rw [effectsSince, h]
      simp [beforeSave, logAction, perform, provisionCalls, deprovisioned]
  · rw [saveToFile_Users]
    simp [beforeSave, logAction, perform]
  · rcases saveToFile_trace env (beforeSave env now vm username password digest days)
      with h | ⟨d, h⟩
    all_goals
      rw [effectsSince, h]
      simp [beforeSave, logAction, perform, provisionCalls]

set_option maxRecDepth 100000 in
/-- Witness for C11: `alice` is added while the disk is full. -/
theorem AddUser_save_failure_witness :
    (AddUser envDiskFull noon vmEmpty alice secret 30).1 = some "no space left on device"
      ∧ provisioned (effectsSince vmEmpty (AddUser envDiskFull noon vmEmpty alice secret 30).2)
          = backendOrder
      ∧ deprovisioned (effectsSince vmEmpty (AddUser envDiskFull noon vmEmpty alice secret 30).2)
          = []
      ∧ (AddUser envDiskFull noon vmEmpty alice secret 30).2.Users
          = vmEmpty.Users ++ [newRecord UTC noon alice (str "$2a$10$" ++ secret) 30]
      ∧ Effect.log "AddUser" alice
          ∈ effectsSince vmEmpty (AddUser envDiskFull noon vmEmpty alice secret 30).2 :=
  AddUser_save_failure envDiskFull noon vmEmpty alice secret (str "$2a$10$" ++ secret) 30
    "no space left on device" rfl (by intro j hj; interval_cases j <;> decide) (by decide)

/-- C12 (as corrected): in every `AddUser` run the provisioning calls made are an initial
part of the order SSH, Xray, WebSocket, SSL, HTTP, Squid, UDP, Dropbear; so whenever the
certificate step `SSLMgr.GenerateCertificate` is invoked, `WebSocketMgr.AddUser` was
invoked before it and had succeeded. -/
theorem AddUser_websocket_before_ssl (env : Env) (now : Time) (vm : VPSManager)
    (username password : GoString) (days : Int) :
    (∃ n, provisioned (effectsSince vm (AddUser env now vm username password days).2)
        = backendOrder.take n)
      ∧ (Backend.SSL ∈ provisioned (effectsSince vm (AddUser env now vm username password days).2) →
          stepOutcome env vm username password 2 = none
            ∧ (provisioned (effectsSince vm (AddUser env now vm username password days).2)).take 4
              = [.SSH, .Xray, .WebSocket, .SSL]) := by
  rcases AddUser_cases env vm username password with ⟨err, herr⟩ | ⟨k, e, hk⟩ | ⟨digest, hd, hall⟩
  · rw [AddUser_hash_error env now vm username password days err herr]
    simp [effectsSince, provisioned]
  · have hprov := (AddUser_first_failure env now vm username password days k e hk).2.2
    have hk8 := stepOutcome_lt env vm username password k e hk.failed
    have h2 := hk.before 2
    rw [hprov]
    refine ⟨⟨k + 1, rfl⟩, ?_⟩
    interval_cases k <;> simp [backendOrder] at h2 ⊢
    all_goals exact h2
  · rw [AddUser_all_succeed env now vm username password digest days hd hall,
      provisioned_all_succeed]
    exact ⟨⟨8, rfl⟩, fun _ => ⟨hall 2 (by omega), rfl⟩⟩

set_option maxRecDepth 100000 in
/-- C12 (counterexample): in the run in which every step succeeds, the calls are made in
the order SSH, Xray, WebSocket, SSL, ...: `WebSocketMgr.AddUser` is invoked third, when
`SSLMgr.GenerateCertificate`, the fourth call, has not yet been invoked. -/
theorem AddUser_order_counterexample :
    provisioned (effectsSince vmEmpty (AddUser (envFailing []) noon vmEmpty alice secret 30).2)
        = [.SSH, .Xray, .WebSocket, .SSL, .HTTP, .Squid, .UDP, .Dropbear]
      ∧ (provisioned (effectsSince vmEmpty
            (AddUser (envFailing []) noon vmEmpty alice secret 30).2)).indexOf Backend.WebSocket
          < (provisioned (effectsSince vmEmpty
            (AddUser (envFailing []) noon vmEmpty alice secret 30).2)).indexOf Backend.SSL :=
  ⟨by decide, by decide⟩

/-! ## The registry across operations -/

/-- The search loop of `RemoveUser` takes out the first record with the username and
nothing else. -/
theorem eraseUser_sublist (username : GoString) (users : List User) :
    (eraseUser username users).Sublist users := by
  unfold eraseUser
  cases h : removeFirst username users with
  | none => exact List.Sublist.refl _
  | some rest =>
    obtain ⟨before, u, after, hsplit, _, _, hrest⟩ := removeFirst_split username users rest h
    rw [hsplit, hrest]
    exact List.Sublist.append_left (List.sublist_cons_self u after) before

theorem foldl_eraseUser_sublist (names : List GoString) (users : List User) :
    (names.foldl (fun us name => eraseUser name us) users).Sublist users := by
  induction names generalizing users with
  | nil => exact List.Sublist.refl _
  | cons name names ih =>
    exact (ih (eraseUser name users)).trans (eraseUser_sublist name users)

theorem nodup_of_sublist (users rest : List User) (h : rest.Sublist users)
    (hnodup : (users.map (fun u => u.Username)).Nodup) :
    (rest.map (fun u => u.Username)).Nodup :=
  List.Nodup.sublist (h.map _) hnodup

/-- The registry after `AddUser`: unchanged, or with the new record appended. -/
theorem AddUser_Users (env : Env) (now : Time) (vm : VPSManager)
    (username password : GoString) (days : Int) :
    (AddUser env now vm username password days).2.Users = vm.Users
      ∨ ∃ digest, (AddUser env now vm username password days).2.Users
          = vm.Users ++ [newRecord env.Local now username digest days] := by
  rcases AddUser_cases env vm username password with ⟨err, herr⟩ | ⟨k, e, hk⟩ | ⟨digest, hd, hall⟩
  · left
    rw [AddUser_hash_error env now vm username password days err herr]
  · left
    exact (AddUser_first_failure env now vm username password days k e hk).2.1
  · right
    refine ⟨digest, ?_⟩
    rw [AddUser_all_succeed env now vm username password digest days hd hall, saveToFile_Users]
    simp [beforeSave, logAction, perform]

/-- C13 (as corrected): when the usernames in the registry are pairwise distinct before
the call, they are pairwise distinct after every `RemoveUser` and every
`CheckExpiredUsers`, whatever the backends do; after `AddUser` they are pairwise distinct
exactly when the username was not in the registry before or the call left the registry
unchanged. -/
theorem registry_usernames_distinct (env : Env) (now : Time) (vm : VPSManager)
    (username password : GoString) (days : Int)
    (hnodup : (vm.Users.map (fun u => u.Username)).Nodup) :
    ((RemoveUser env vm username).2.Users.map (fun u => u.Username)).Nodup
      ∧ ((CheckExpiredUsers env now vm).Users.map (fun u => u.Username)).Nodup
      ∧ (((AddUser env now vm username password days).2.Users.map (fun u => u.Username)).Nodup
          ↔ ((∀ u ∈ vm.Users, u.Username ≠ username)
              ∨ (AddUser env now vm username password days).2.Users = vm.Users)) := by
  refine ⟨?_, ?_, ?_⟩
  · rw [RemoveUser_Users]
    exact nodup_of_sublist _ _ (eraseUser_sublist username vm.Users) hnodup
  · rw [CheckExpiredUsers, removeExpired_Users]
    exact nodup_of_sublist _ _ (foldl_eraseUser_sublist _ vm.Users) hnodup
  · rcases AddUser_Users env now vm username password days with h | ⟨digest, h⟩
    · rw [h]
      exact ⟨fun _ => Or.inr rfl, fun _ => hnodup⟩
    · rw [h]
      have hne : vm.Users ++ [newRecord env.Local now username digest days] ≠ vm.Users := by
        intro hc
        have := congrArg List.length hc
        simp at this
      constructor
      · intro hnd
        left
        intro u hu heq
        rw [List.map_append, List.nodup_append] at hnd
        exact hnd.2.2 (List.mem_map.mpr ⟨u, hu, heq⟩) (by simp [newRecord])
      · rintro (habs | hc)
        · rw [List.map_append, List.nodup_append]
          refine ⟨hnodup, by simp, ?_⟩
          intro a ha hb
          simp only [List.map_cons, List.map_nil, List.mem_singleton, newRecord] at hb
          obtain ⟨u, hu, rfl⟩ := List.mem_map.mp ha
          exact habs u hu hb
        · exact absurd hc hne

set_option maxRecDepth 100000 in
/-- Witness for C13: the registry holds `alice` and `bob`; `bob` is removed, the registry
is swept at `noon`, and `alice` is added again, with backends failing. -/
theorem registry_usernames_distinct_witness :
    ((RemoveUser (envFailing (teardownCalls (str "bob") backendOrder)) vmAliceBob
        (str "bob")).2.Users.map (fun u => u.Username)).Nodup
      ∧ ((CheckExpiredUsers (envFailing (teardownCalls (str "bob") backendOrder)) noon
          vmAliceBob).Users.map (fun u => u.Username)).Nodup
      ∧ (((AddUser (envFailing (teardownCalls (str "bob") backendOrder)) noon vmAliceBob
            (str "bob") secret 30).2.Users.map (fun u => u.Username)).Nodup
          ↔ ((∀ u ∈ vmAliceBob.Users, u.Username ≠ str "bob")
              ∨ (AddUser (envFailing (teardownCalls (str "bob") backendOrder)) noon vmAliceBob
                  (str "bob") secret 30).2.Users = vmAliceBob.Users)) :=
  registry_usernames_distinct (envFailing (teardownCalls (str "bob") backendOrder)) noon
    vmAliceBob (str "bob") secret 30 (by decide)

set_option maxRecDepth 100000 in
/-- C13 (counterexample): the registry holds only `alice`, so its usernames are pairwise
distinct; `AddUser` for `alice` succeeds, and afterward the registry holds two records
with the username `alice`. -/
theorem registry_usernames_counterexample :
    (vmAlice.Users.map (fun u => u.Username)).Nodup
      ∧ (AddUser (envFailing []) noon vmAlice alice secret 30).1 = none
      ∧ (AddUser (envFailing []) noon vmAlice alice secret 30).2.Users.map (fun u => u.Username)
          = [alice, alice]
      ∧ ¬ ((AddUser (envFailing []) noon vmAlice alice secret 30).2.Users.map
          (fun u => u.Username)).Nodup :=
  ⟨by decide, by decide, by decide, by decide⟩

/-- C14: for a registry containing a record with the username, `RemoveUser` deletes
exactly the first such record: the registry is split at that record into the records
before it, none of which has the username, and the records after it, and what remains is
those two parts, unchanged and in order, one record fewer, whatever the backends and the
save do. -/
theorem RemoveUser_removes_first (env : Env) (vm : VPSManager) (username : GoString)
    (hpresent : ∃ u ∈ vm.Users, u.Username = username) :
    ∃ before u after, vm.Users = before ++ u :: after ∧ u.Username = username
      ∧ (∀ v ∈ before, v.Username ≠ username)
      ∧ (RemoveUser env vm username).2.Users = before ++ after
      ∧ (RemoveUser env vm username).2.Users.length + 1 = vm.Users.length := by
  obtain ⟨rest, hrem⟩ := removeFirst_of_present username vm.Users hpresent
  obtain ⟨before, u, after, hsplit, hu, hbefore, hrest⟩ :=
    removeFirst_split username vm.Users rest hrem
  refine ⟨before, u, after, hsplit, hu, hbefore, ?_, ?_⟩
  · rw [RemoveUser_found_Users env vm username rest hrem, hrest]
  · rw [RemoveUser_found_Users env vm username rest hrem, hrest, hsplit]
    simp
    omega

set_option maxRecDepth 100000 in
/-- Witness for C14: the registry holds `alice`, `bob` and a second `alice`; `alice` is
removed while every backend fails, and `bob` and the second `alice` remain in order. -/
theorem RemoveUser_removes_first_witness :
    (∃ before u after, vmMixed.Users = before ++ u :: after ∧ u.Username = alice
      ∧ (∀ v ∈ before, v.Username ≠ alice)
      ∧ (RemoveUser (envFailing (teardownCalls alice backendOrder)) vmMixed alice).2.Users
          = before ++ after
      ∧ (RemoveUser (envFailing (teardownCalls alice backendOrder)) vmMixed alice).2.Users.length
          + 1 = vmMixed.Users.length)
      ∧ (RemoveUser (envFailing (teardownCalls alice backendOrder)) vmMixed alice).2.Users
          = [bobLater, aliceSecond] :=
  ⟨RemoveUser_removes_first (envFailing (teardownCalls alice backendOrder)) vmMixed alice
    ⟨aliceRecord, by decide, rfl⟩, by decide⟩

end Vps
